import Mathlib

/-!
# MuPDF PNG writer (`source/fitz/output-png.c`)

A shallow embedding of the streaming PNG encoder and proofs about it.

Conventions of the embedding

* A byte is a `Nat`; a store into an `unsigned char` is written `% 256`.
* C `int` values are `Int`.  Conversions to `unsigned int`, `uInt` (32 bit) and
  `uLong` (64 bit) are written with an explicit `%`.
* The output `fz_output *out` is the list of bytes appended so far; a null
  pointer is `none`.
* A source pointer `unsigned char *sp` is the view `Int → Nat` of memory
  relative to it: `sp k` is the byte `sp[k]`.
* `fz_throw` is the `throw` constructor of `Ret`; what was written to the sink
  before the throw stays in the sink.
* zlib is a collaborator: its entry points are the fields of `Zlib`.
-/

namespace Png

/-! ## Sink and integers -/

/-- The bytes appended to an output so far. -/
abbrev Sink := List Nat

/-- The two errors the file throws (both are `FZ_ERROR_GENERIC` in C):
line 110 and lines 185, 219, 225, 245. -/
inductive FzError where
  | pixmap_must_be_grayscale_or_rgb
  | compression_error (err : Int)
  deriving DecidableEq, Repr

/-- Outcome of a call that may `fz_throw`. -/
inductive Ret (α : Type) where
  | ok (v : α)
  | throw (e : FzError)
  deriving DecidableEq, Repr

/-- Conversion of a C `int` to `unsigned int`. -/
def toU32 (v : Int) : Nat := (v % 4294967296).toNat

/-- Conversion of an `unsigned int` to `int` (two's complement). -/
def toI32 (v : Nat) : Int :=
  if v % 4294967296 < 2147483648 then (v % 4294967296 : Nat) else ((v % 4294967296 : Nat) : Int) - 4294967296

/-- Lines 9-15, `big32`: the four bytes stored into `buf[0..3]`. -/
def big32 (v : Nat) : List Nat :=
  [(v >>> 24) &&& 0xff, (v >>> 16) &&& 0xff, (v >>> 8) &&& 0xff, v &&& 0xff]

/-- Reading four bytes as a big-endian integer. -/
def be32 (b : List Nat) : Nat :=
  b.getD 0 0 * 16777216 + b.getD 1 0 * 65536 + b.getD 2 0 * 256 + b.getD 3 0

/-- Modelled from the spec: `fz_write` of the sink collaborator (append-only):
appends the first `size` bytes of `data`. -/
def fz_write (out : Sink) (data : List Nat) (size : Nat) : Sink :=
  out ++ data.take size

/-- Modelled from the spec: `fz_write_int32_be` of the sink collaborator: the
`int` argument is written as four big-endian bytes. -/
def fz_write_int32_be (out : Sink) (x : Int) : Sink :=
  out ++ big32 (toU32 x)

/-! ## CRC-32 (zlib `crc32`) -/

/-- One bit of the reflected CRC-32 division, polynomial `0xEDB88320`. -/
def crc_bit (c : Nat) : Nat :=
  if c % 2 = 1 then (c >>> 1) ^^^ 0xEDB88320 else c >>> 1

/-- Feeding one byte into the CRC register. -/
def crc_byte (c : Nat) (b : Nat) : Nat :=
  crc_bit (crc_bit (crc_bit (crc_bit (crc_bit (crc_bit (crc_bit (crc_bit (c ^^^ b))))))))

/-- Modelled from the spec: zlib's `crc32(crc, buf, len)` for a non-null
buffer, the CRC-32 of PNG: the running value is complemented on the way in and
on the way out. -/
def crc32 (crc : Nat) (buf : List Nat) : Nat :=
  (buf.foldl crc_byte (crc ^^^ 0xffffffff)) ^^^ 0xffffffff

/-- The value of zlib's `crc32(0, NULL, 0)`: the initial CRC. -/
def crc32_init : Nat := 0

/-! ## Chunk writer -/

/-- Lines 17-27, `putchunk`.  `size` is the C `int` argument; the callers in
this file pass 13, 0 and the number of bytes `deflate` produced, and a
negative `size` (which the model reads as no bytes) arises only from a
produced length of `2^31` or more. -/
def putchunk (out : Sink) (tag : List Nat) (data : List Nat) (size : Int) : Sink :=
  let out := fz_write_int32_be out size
  let out := fz_write out tag 4
  let out := fz_write out data size.toNat
  let sum := crc32_init
  let sum := crc32 sum (tag.take 4)
  let sum := crc32 sum (data.take size.toNat)
  fz_write_int32_be out (toI32 sum)

/-- The tag `"IHDR"`. -/
def tag_IHDR : List Nat := [73, 72, 68, 82]
/-- The tag `"IDAT"`. -/
def tag_IDAT : List Nat := [73, 68, 65, 84]
/-- The tag `"IEND"`. -/
def tag_IEND : List Nat := [73, 69, 78, 68]

/-! ## zlib as a collaborator -/

/-- What one `deflate` call does to the stream: the status it returns, the new
internal state, how many input bytes it consumed and the bytes it produced. -/
structure DeflateRet (σ : Type) where
  err : Int
  state : σ
  consumed : Nat
  output : List Nat

/-- The zlib entry points the encoder calls. `zero` is a zero-filled
`z_stream` (what `fz_malloc_struct` leaves). `deflate s input avail_out flush`
is called with the `avail_in` bytes at `next_in` and `avail_out` bytes of room. -/
structure Zlib (σ : Type) where
  zero : σ
  compressBound : Nat → Nat
  deflateInit : σ → Int → Int × σ
  deflate : σ → List Nat → Nat → Int → DeflateRet σ
  deflateEnd : σ → Int

/-- The status `Z_OK` of `zlib.h`. -/
def Z_OK : Int := 0
/-- The status `Z_STREAM_END` of `zlib.h`. -/
def Z_STREAM_END : Int := 1
/-- The flush mode `Z_NO_FLUSH` of `zlib.h`. -/
def Z_NO_FLUSH : Int := 0
/-- The flush mode `Z_FINISH` of `zlib.h`. -/
def Z_FINISH : Int := 4
/-- The level `Z_DEFAULT_COMPRESSION` of `zlib.h`. -/
def Z_DEFAULT_COMPRESSION : Int := -1

/-- The part of `z_stream` the encoder touches: the unread input
(`avail_in` bytes at `next_in`) and the internal state. -/
structure z_stream (σ : Type) where
  next_in : List Nat
  state : σ

/-- Lines 77-88, `struct fz_png_output_context_s`.  `udata = none` is the null
pointer; an allocated `udata` holds the bytes stored through `dp`. -/
structure fz_png_output_context (σ : Type) where
  udata : Option (List Nat)
  cdata : Option (List Nat)
  usize : Nat
  csize : Nat
  stream : z_stream σ
  w : Int
  h : Int
  n : Int
  alpha : Int
  savealpha : Int

/-- What a call leaves behind: the sink and the returned value or the error. -/
structure Call (α : Type) where
  out : Option Sink
  ret : Ret α

/-! ## Header -/

/-- The signature `pngsig` of line 93. -/
def pngsig : List Nat := [137, 80, 78, 71, 13, 10, 26, 10]

/-- Lines 101-103: alpha only is treated as greyscale. -/
def header_alpha (n alpha : Int) : Int :=
  if n = 1 ∧ alpha ≠ 0 then 0 else alpha

/-- Lines 105-111: the `switch (n - alpha)`; `none` is the `default:` throw. -/
def header_color (n alpha : Int) : Option Nat :=
  if n - alpha = 1 then some (if alpha ≠ 0 then 4 else 0)
  else if n - alpha = 3 then some (if alpha ≠ 0 then 6 else 2)
  else none

/-- Lines 113-115: if we have no alpha, save no alpha. -/
def header_savealpha (n alpha savealpha : Int) : Int :=
  if header_alpha n alpha = 0 then 0 else savealpha

/-- Lines 124-130: the 13 bytes of `head`. -/
def header_head (w h : Int) (color : Nat) : List Nat :=
  big32 (toU32 w) ++ big32 (toU32 h) ++ [8, color % 256, 0, 0, 0]

/-- Lines 90-136, `fz_write_png_header`. -/
def fz_write_png_header {σ : Type} (Z : Zlib σ) (out : Option Sink)
    (w h n alpha savealpha : Int) : Call (Option (fz_png_output_context σ)) :=
  match out with
  | none => ⟨none, .ok none⟩
  | some o =>
    let alpha := header_alpha n alpha
    match header_color n alpha with
    | none => ⟨some o, .throw .pixmap_must_be_grayscale_or_rgb⟩
    | some color =>
      let savealpha := if alpha = 0 then 0 else savealpha
      let poc : fz_png_output_context σ :=
        { udata := none, cdata := none, usize := 0, csize := 0,
          stream := ⟨[], Z.zero⟩, w := w, h := h, n := n, alpha := alpha, savealpha := savealpha }
      let head := header_head w h color
      let o := fz_write o pngsig 8
      let o := putchunk o tag_IHDR head 13
      ⟨some o, .ok (some poc)⟩

/-! ## Row filter (lines 188-206) -/

/-- Line 200: `sp[k] - sp[k-sn]` stored into an `unsigned char`. -/
def sub_byte (a b : Nat) : Nat := (((a : Int) - (b : Int)) % 256).toNat

/-- Lines 195-201: the `k` loop for the pixel in column `x`, `sp` standing at
offset `off` of the pointer passed in.  The result is `dp[0..dn)`. -/
def filter_pixel (sp : Int → Nat) (sn : Int) (dn : Nat) (x : Nat) (off : Int) : List Nat :=
  (List.range dn).map fun (k : Nat) =>
    if x = 0 then sp (off + k) else sub_byte (sp (off + k)) (sp (off + k - sn))

/-- Lines 193-204: the `x` loop, `cnt` columns left starting at column `x`;
each turn does `sp += sn; dp += dn`.  Returns the bytes stored and the offset
of `sp` after the loop. -/
def filter_pixels (sp : Int → Nat) (sn : Int) (dn : Nat) : Nat → Nat → Int → List Nat × Int
  | 0, _, off => ([], off)
  | cnt + 1, x, off =>
    let r := filter_pixels sp sn dn cnt (x + 1) (off + sn)
    (filter_pixel sp sn dn x off ++ r.1, r.2)

/-- Lines 190-206: the `y` loop, `cnt` rows left; each row starts with the
filter byte `1` (`*dp++ = 1`) and ends with `sp += stride` where `stride` has
already been reduced by `w*sn` (line 189). -/
def filter_rows (sp : Int → Nat) (w : Nat) (sn : Int) (dn : Nat) (skip : Int) : Nat → Int → List Nat
  | 0, _ => []
  | cnt + 1, off =>
    let r := filter_pixels sp sn dn w 0 off
    (1 :: r.1) ++ filter_rows sp w sn dn skip cnt (r.2 + skip)

/-- Lines 188-206: the bytes stored through `dp`, that is `udata[0 .. dp - udata)`.
The loop bounds `w`, `dn`, `bandheight` are C `int`s: a loop whose bound is not
positive does not run.  (`dn < 0`, where `dp += dn` would step backwards, does
not occur for a state made by `fz_write_png_header`.) -/
def png_filter (w sn dn stride bandheight : Int) (sp : Int → Nat) : List Nat :=
  filter_rows sp w.toNat sn dn.toNat (stride - w * sn) bandheight.toNat 0

/-! ## Band writer (lines 138-232) -/

/-- Line 155, after `band *= bandheight` of line 154. -/
def band_final (h band bandheight : Int) : Bool :=
  decide (band * bandheight + bandheight ≥ h)

/-- Lines 156-157: the band height used from there on. -/
def band_rows (h band bandheight : Int) : Int :=
  if band_final h band bandheight then h - band * bandheight else bandheight

/-- Lines 215-226: the status test after `deflate`; `true` is the `fz_throw`. -/
def bad_status (finalband : Bool) (err : Int) : Bool :=
  if finalband then decide (err ≠ Z_STREAM_END) else decide (err ≠ Z_OK)

/-- One turn of the `do ... while` loop as seen from outside: the flush mode,
the input offered, the room offered, the status returned and the bytes the
compressor stored at `cdata`. -/
structure Invocation where
  flush : Int
  input : List Nat
  avail_out : Nat
  err : Int
  produced : List Nat
  deriving DecidableEq, Repr

/-- State of the `do ... while` loop of lines 210-231 when it is left. -/
structure LoopRet (σ : Type) where
  out : Sink
  stream : z_stream σ
  cdata : Option (List Nat)
  ret : Ret Unit
  log : List Invocation

/-- Lines 210-231.  `fuel` bounds the number of turns; `none` means the bound
was reached with the loop still running.  `log` records the turns taken. -/
def deflate_loop {σ : Type} (Z : Zlib σ) (finalband : Bool) (csize : Nat) :
    Nat → Sink → z_stream σ → Option (List Nat) → List Invocation → Option (LoopRet σ)
  | 0, _, _, _, _ => none
  | fuel + 1, out, zs, cdata, log =>
    let avail_out := csize % 4294967296
    let flush := if finalband then Z_FINISH else Z_NO_FLUSH
    let r := Z.deflate zs.state zs.next_in avail_out flush
    let produced := r.output.take avail_out
    let zs1 : z_stream σ := ⟨zs.next_in.drop r.consumed, r.state⟩
    let cdata1 := if produced.length = 0 then cdata else some produced
    let log1 := log ++ [⟨flush, zs.next_in, avail_out, r.err, produced⟩]
    if bad_status finalband r.err then
      some ⟨out, zs1, cdata1, .throw (.compression_error r.err), log1⟩
    else
      let out1 := if produced.length ≠ 0 then putchunk out tag_IDAT produced (toI32 produced.length) else out
      if avail_out - produced.length = 0 then
        deflate_loop Z finalband csize fuel out1 zs1 cdata1 log1
      else
        some ⟨out1, zs1, cdata1, .ok (), log1⟩

/-- What `fz_write_png_band` leaves behind. -/
structure BandRet (σ : Type) where
  out : Option Sink
  poc : Option (fz_png_output_context σ)
  ret : Ret Unit
  log : List Invocation

/-- Lines 138-232, `fz_write_png_band`.  Allocation (`fz_malloc`) succeeds. -/
def fz_write_png_band {σ : Type} (Z : Zlib σ) (fuel : Nat) (out : Option Sink)
    (poc : Option (fz_png_output_context σ)) (stride band bandheight : Int)
    (sp : Option (Int → Nat)) : Option (BandRet σ) :=
  match out, sp, poc with
  | some o, some sp, some poc =>
    let w := poc.w
    let h := poc.h
    let n := poc.n
    let alpha := poc.alpha
    let savealpha := poc.savealpha
    let finalband := band_final h band bandheight
    let bandheight := band_rows h band bandheight
    let sn := n
    let dn := n - alpha + savealpha
    -- lines 162-186
    let init : fz_png_output_context σ × Int :=
      match poc.udata with
      | none =>
        let usize := (((w * dn + 1) * bandheight) % 18446744073709551616).toNat
        let csize := Z.compressBound usize
        let r := Z.deflateInit poc.stream.state Z_DEFAULT_COMPRESSION
        ({ poc with usize := usize, csize := csize, udata := some [], cdata := some [],
                    stream := ⟨poc.stream.next_in, r.2⟩ }, r.1)
      | some _ => (poc, Z_OK)
    let poc := init.1
    if init.2 ≠ Z_OK then
      some ⟨some o, some poc, .throw (.compression_error init.2), []⟩
    else
      -- lines 188-206
      let staged := png_filter w sn dn stride bandheight sp
      -- lines 208-209
      let zs : z_stream σ := ⟨staged.take (staged.length % 4294967296), poc.stream.state⟩
      -- lines 210-231
      match deflate_loop Z finalband poc.csize fuel o zs poc.cdata [] with
      | none => none
      | some r =>
        some ⟨some r.out, some { poc with udata := some staged, cdata := r.cdata, stream := r.stream },
              r.ret, r.log⟩
  | _, _, _ => some ⟨out, poc, .ok (), []⟩

/-! ## Trailer (lines 234-252) -/

/-- Lines 234-252, `fz_write_png_trailer`.  The state is freed on success, so
only the sink and the outcome are returned. -/
def fz_write_png_trailer {σ : Type} (Z : Zlib σ) (out : Option Sink)
    (poc : Option (fz_png_output_context σ)) : Call Unit :=
  match out, poc with
  | some o, some poc =>
    let err := Z.deflateEnd poc.stream.state
    if err ≠ Z_OK then
      ⟨some o, .throw (.compression_error err)⟩
    else
      ⟨some (putchunk o tag_IEND [] 0), .ok ()⟩
  | _, _ => ⟨out, .ok ()⟩

/-! ## Single-shot writer (lines 53-75) -/

/-- What `png_from_pixmap` asks of `pix->colorspace` when it is not null:
whether it is `fz_device_gray(ctx)`, `fz_device_rgb(ctx)` or something else. -/
inductive fz_colorspace where
  | device_gray
  | device_rgb
  | other (id : Nat)
  deriving DecidableEq, Repr

/-- The fields of `fz_pixmap` the writer reads; `samples = none` is a null
pointer, and so is `colorspace = none`. -/
structure fz_pixmap where
  w : Int
  h : Int
  n : Int
  alpha : Int
  stride : Int
  samples : Option (Int → Nat)
  colorspace : Option fz_colorspace := none

/-- What `fz_write_pixmap_as_png` leaves behind. -/
structure WriteRet where
  out : Option Sink
  ret : Ret Unit
  log : List Invocation

/-- Lines 53-75, `fz_write_pixmap_as_png`.  The header is written outside the
`fz_try`, so its throw propagates at once.  The macros `fz_try`, `fz_always`
and `fz_catch` of `mupdf/fitz.h` are modelled from the spec (a cleanup-always
block): the `fz_always` block runs the trailer after the band whether the band
threw or not; a throw inside `fz_always` lands in `fz_catch` and is the error
rethrown. -/
def fz_write_pixmap_as_png {σ : Type} (Z : Zlib σ) (fuel : Nat) (out : Option Sink)
    (pixmap : fz_pixmap) (savealpha : Int) : Option WriteRet :=
  match out with
  | none => some ⟨none, .ok (), []⟩
  | some o =>
    let hr := fz_write_png_header Z (some o) pixmap.w pixmap.h pixmap.n pixmap.alpha savealpha
    match hr.ret with
    | .throw e => some ⟨hr.out, .throw e, []⟩
    | .ok poc =>
      match fz_write_png_band Z fuel hr.out poc pixmap.stride 0 pixmap.h pixmap.samples with
      | none => none
      | some br =>
        let tr := fz_write_png_trailer Z br.out br.poc
        match tr.ret with
        | .throw e => some ⟨tr.out, .throw e, br.log⟩
        | .ok _ => some ⟨tr.out, br.ret, br.log⟩

/-! ## In-memory writer (lines 254-308) -/

/-- Line 273: the colour space is neither null, nor grey, nor RGB. -/
def needs_rgb (pix : fz_pixmap) : Bool :=
  match pix.colorspace with
  | none => false
  | some .device_gray => false
  | some .device_rgb => false
  | some (.other _) => true

/-- Lines 273-280: the pixmap that is written: the one passed in, or, when its
colour space is neither grey nor RGB, what the collaborators `fz_new_pixmap`
and `fz_convert_pixmap` make of it (`convert`). -/
def png_source (convert : fz_pixmap → fz_pixmap) (pix : fz_pixmap) : fz_pixmap :=
  if needs_rgb pix then convert pix else pix

/-- Lines 257-296, `png_from_pixmap`: `.ok none` is the `return NULL` of line
269, `.ok (some bytes)` the buffer returned on line 295 with the bytes written
to it, `.throw` the rethrow of line 293.  `drop` only decides which pixmaps
are released. -/
def png_from_pixmap {σ : Type} (Z : Zlib σ) (convert : fz_pixmap → fz_pixmap) (fuel : Nat)
    (pix : fz_pixmap) (_drop : Int) : Option (Ret (Option Sink)) :=
  if pix.w = 0 ∨ pix.h = 0 then
    some (.ok none)
  else
    let pix := png_source convert pix
    -- lines 281-282: a new buffer and an output that appends to it
    match fz_write_pixmap_as_png Z fuel (some []) pix 1 with
    | none => none
    | some r =>
      match r.ret with
      | .throw e => some (.throw e)
      | .ok _ => some (.ok r.out)

/-- Lines 298-302, `fz_new_buffer_from_image_as_png`; `pix` is the pixmap the
collaborator `fz_get_pixmap_from_image` returns for the image. -/
def fz_new_buffer_from_image_as_png {σ : Type} (Z : Zlib σ) (convert : fz_pixmap → fz_pixmap)
    (fuel : Nat) (pix : fz_pixmap) : Option (Ret (Option Sink)) :=
  png_from_pixmap Z convert fuel pix 1

/-- Lines 304-308, `fz_new_buffer_from_pixmap_as_png`. -/
def fz_new_buffer_from_pixmap_as_png {σ : Type} (Z : Zlib σ) (convert : fz_pixmap → fz_pixmap)
    (fuel : Nat) (pix : fz_pixmap) : Option (Ret (Option Sink)) :=
  png_from_pixmap Z convert fuel pix 0

/-! ## Reference notions used by the statements -/

/-- A framed chunk as the PNG format defines it: length, tag, payload and the
CRC-32 of tag and payload, integers big-endian. -/
def chunk (tag payload : List Nat) : List Nat :=
  big32 payload.length ++ tag ++ payload ++ big32 (crc32 crc32_init (tag ++ payload))

/-- The IDAT payloads a list of loop turns gives rise to: the non-empty
outputs, in order. -/
def idat_payloads (invs : List Invocation) : List (List Nat) :=
  (invs.map fun i => i.produced).filter fun p => p ≠ []

/-- The framed IDAT chunks of a list of payloads, concatenated. -/
def idat_chunks (payloads : List (List Nat)) : List Nat :=
  (payloads.map (chunk tag_IDAT)).flatten

/-- What the loop of lines 210-231 writes for a list of turns that pass the
status test: line 228-229 for each turn in order. -/
def idat_writes (out : Sink) (invs : List Invocation) : Sink :=
  invs.foldl (fun o i =>
    if i.produced.length ≠ 0 then putchunk o tag_IDAT i.produced (toI32 i.produced.length) else o) out

/-- Lines 188-209 seen from the compressor: the `avail_in` bytes at `next_in`
that a band call hands over. -/
def band_input {σ : Type} (poc : fz_png_output_context σ) (stride band bandheight : Int)
    (sp : Int → Nat) : List Nat :=
  (png_filter poc.w poc.n (poc.n - poc.alpha + poc.savealpha) stride
      (band_rows poc.h band bandheight) sp).take
    ((png_filter poc.w poc.n (poc.n - poc.alpha + poc.savealpha) stride
      (band_rows poc.h band bandheight) sp).length % 4294967296)

/-- Lines 162-186: the status of `deflateInit` on the first call (`udata` is
null), `Z_OK` on later calls, where the stream is not initialised again. -/
def band_init_err {σ : Type} (Z : Zlib σ) (poc : fz_png_output_context σ) : Int :=
  match poc.udata with
  | none => (Z.deflateInit poc.stream.state Z_DEFAULT_COMPRESSION).1
  | some _ => Z_OK

/-- Lines 162-186: the compressor state a band call starts its loop with. -/
def band_state {σ : Type} (Z : Zlib σ) (poc : fz_png_output_context σ) : σ :=
  match poc.udata with
  | none => (Z.deflateInit poc.stream.state Z_DEFAULT_COMPRESSION).2
  | some _ => poc.stream.state

/-- Lines 162-186: the capacity `csize` of `cdata` during a band call: fixed
on the first call, kept afterwards. -/
def band_csize {σ : Type} (Z : Zlib σ) (poc : fz_png_output_context σ)
    (band bandheight : Int) : Nat :=
  match poc.udata with
  | none => Z.compressBound ((((poc.w * (poc.n - poc.alpha + poc.savealpha) + 1)
              * band_rows poc.h band bandheight) % 18446744073709551616).toNat)
  | some _ => poc.csize

/-- The state `fz_write_png_header` returns when it accepts its input
(lines 113-122). -/
def header_state {σ : Type} (Z : Zlib σ) (w h n alpha savealpha : Int) :
    fz_png_output_context σ :=
  { udata := none, cdata := none, usize := 0, csize := 0, stream := ⟨[], Z.zero⟩,
    w := w, h := h, n := n, alpha := header_alpha n alpha,
    savealpha := header_savealpha n alpha savealpha }

/-- The number of samples per pixel the band writer emits for the state the
header returns: `n - alpha + savealpha` of line 160 on the stored fields. -/
def dest_channels (n alpha savealpha : Int) : Int :=
  n - header_alpha n alpha + header_savealpha n alpha savealpha

/-- A compressor that reports success: `deflateInit` and `deflateEnd` return
`Z_OK`, `deflate` returns `Z_STREAM_END` when asked to finish and `Z_OK`
otherwise. -/
def Succeeds {σ : Type} (Z : Zlib σ) : Prop :=
  (∀ s l, (Z.deflateInit s l).1 = Z_OK)
  ∧ (∀ s i a, (Z.deflate s i a Z_FINISH).err = Z_STREAM_END)
  ∧ (∀ s i a, (Z.deflate s i a Z_NO_FLUSH).err = Z_OK)
  ∧ (∀ s, Z.deflateEnd s = Z_OK)

/-- A compressor that does not fill its output buffer for ever: `μ` bounds
what it still holds, and goes down with every call that uses up all the room
it was given. -/
def Drains {σ : Type} (Z : Zlib σ) (μ : σ → List Nat → Nat) : Prop :=
  ∀ s i a fl, 0 < a → a ≤ (Z.deflate s i a fl).output.length →
    μ (Z.deflate s i a fl).state (i.drop (Z.deflate s i a fl).consumed) < μ s i

/-- A compressor that, asked to finish some input with room for output,
produces output (a zlib stream is never empty). -/
def Emits {σ : Type} (Z : Zlib σ) : Prop :=
  ∀ s i a, 0 < a → i ≠ [] → (Z.deflate s i a Z_FINISH).output.take a ≠ []

/-- The source pointer of row `row`: `samples + row * stride`. -/
def row_ptr (samples : Int → Nat) (stride row : Int) : Int → Nat :=
  fun k => samples (k + row * stride)

/-- The number of bands of height `b` that cover `h` rows: `ceil (h / b)`. -/
def band_count (h b : Int) : Nat := ((h + b - 1) / b).toNat

/-- What a sequence of band calls leaves behind; `calls` holds the log of
each call. -/
structure BandsRet (σ : Type) where
  out : Option Sink
  poc : Option (fz_png_output_context σ)
  ret : Ret Unit
  calls : List (List Invocation)

/-- The banded use of the interface: `cnt` calls of `fz_write_png_band` with
band indices `band`, `band + 1`, ... and one band height, each given the
pointer to the first row of its band; a throw ends the sequence. -/
def write_bands {σ : Type} (Z : Zlib σ) (fuel : Nat) (stride bandheight : Int)
    (samples : Int → Nat) :
    Nat → Int → Option Sink → Option (fz_png_output_context σ) → List (List Invocation)
      → Option (BandsRet σ)
  | 0, _, out, poc, calls => some ⟨out, poc, .ok (), calls⟩
  | cnt + 1, band, out, poc, calls =>
    match fz_write_png_band Z fuel out poc stride band bandheight
        (some (row_ptr samples stride (band * bandheight))) with
    | none => none
    | some r =>
      match r.ret with
      | .throw e => some ⟨r.out, r.poc, .throw e, calls ++ [r.log]⟩
      | .ok _ => write_bands Z fuel stride bandheight samples cnt (band + 1) r.out r.poc
                   (calls ++ [r.log])

/-- A compressor whose output stream depends only on the concatenation of its
inputs: `hin` and `hout` read off a state the input taken and the output given
since `deflateInit`; every call appends what it consumes and what it produces;
a call that leaves room has consumed all it was offered; and when a call
reports `Z_STREAM_END` the output so far is `F` of the input so far. -/
def StreamLaw {σ : Type} (Z : Zlib σ) (F : List Nat → List Nat) (hin hout : σ → List Nat) :
    Prop :=
  (∀ s l, hin (Z.deflateInit s l).2 = [] ∧ hout (Z.deflateInit s l).2 = [])
  ∧ (∀ s i a fl, hin (Z.deflate s i a fl).state = hin s ++ i.take (Z.deflate s i a fl).consumed)
  ∧ (∀ s i a fl, hout (Z.deflate s i a fl).state = hout s ++ (Z.deflate s i a fl).output.take a)
  ∧ (∀ s i a fl, ((Z.deflate s i a fl).output.take a).length < a →
        i.length ≤ (Z.deflate s i a fl).consumed)
  ∧ (∀ s i a, (Z.deflate s i a Z_FINISH).err = Z_STREAM_END →
        hout (Z.deflate s i a Z_FINISH).state = F (hin (Z.deflate s i a Z_FINISH).state))

/-- The IEND chunk as bytes. -/
def iend_bytes : List Nat := [0, 0, 0, 0, 73, 69, 78, 68, 174, 66, 96, 130]

/-- PNG Sub reconstruction with `bpp` bytes per pixel, left to right: `acc` is
the part of the row already reconstructed;
`recon[i] = (filt[i] + recon[i - bpp]) mod 256`, with 0 for `i < bpp`. -/
def unfilter_sub (bpp : Nat) : List Nat → List Nat → List Nat
  | acc, [] => acc
  | acc, f :: rest =>
    unfilter_sub bpp
      (acc ++ [(f + (if acc.length < bpp then 0 else acc.getD (acc.length - bpp) 0)) % 256]) rest

/-- The first `dn` samples of each of the `w` pixels of the source row that
starts at offset `base`, in order. -/
def row_samples (sp : Int → Nat) (w dn : Nat) (sn base : Int) : List Nat :=
  (List.range w).flatMap fun (x : Nat) => (List.range dn).map fun (k : Nat) => sp (base + x * sn + k)

/-! ## A small compressor for concrete runs -/

/-- State of the toy compressor: all input taken so far and how many bytes of
it have been handed out. -/
structure ToyState where
  taken : List Nat
  emitted : Nat
  deriving DecidableEq, Repr

/-- A pass-through compressor: it takes all the input offered, and hands out
as much of what it holds as there is room for.  With `Z_FINISH` it reports
`Z_STREAM_END` once everything it holds has been handed out and `Z_OK` before;
when `lenient` it reports `Z_STREAM_END` on every `Z_FINISH` call.  Closing
reports `Z_OK`. -/
def toy_zlib (lenient : Bool) : Zlib ToyState where
  zero := ⟨[], 0⟩
  compressBound := fun n => n + 13
  deflateInit := fun _ _ => (Z_OK, ⟨[], 0⟩)
  deflate := fun s input avail_out flush =>
    let taken := s.taken ++ input
    let sent := min s.emitted s.taken.length
    let output := (taken.drop sent).take avail_out
    let emitted := sent + output.length
    let done := decide (flush = Z_FINISH) && (lenient || decide (taken.length ≤ emitted))
    ⟨if done then Z_STREAM_END else Z_OK, ⟨taken, emitted⟩, input.length, output⟩
  deflateEnd := fun _ => Z_OK

/-- What the toy compressor still holds. -/
def toy_held (s : ToyState) (i : List Nat) : Nat :=
  (s.taken ++ i).length - min s.emitted s.taken.length

/-- A state as a second band call finds it, with a scratch buffer of four
bytes: a 3 by 2 grey + alpha image written without alpha. -/
def toy_poc : fz_png_output_context ToyState :=
  { udata := some [], cdata := some [], usize := 8, csize := 4,
    stream := ⟨[], ⟨[], 0⟩⟩, w := 3, h := 2, n := 2, alpha := 1, savealpha := 0 }

/-- What the final band of `toy_poc` leaves with the strict toy compressor. -/
def toy_fail_ret : BandRet ToyState :=
  ⟨some [5],
   some { toy_poc with udata := some [1, 11, 74, 74, 1, 14, 74, 74],
                       cdata := some [1, 11, 74, 74],
                       stream := ⟨[], ⟨[1, 11, 74, 74, 1, 14, 74, 74], 4⟩⟩ },
   .throw (.compression_error Z_OK),
   [⟨Z_FINISH, [1, 11, 74, 74, 1, 14, 74, 74], 4, Z_OK, [1, 11, 74, 74]⟩]⟩

/-- A 3 by 2 grey + alpha pixmap over `toy_samples`, rows 7 bytes apart. -/
def toy_pixmap : fz_pixmap :=
  { w := 3, h := 2, n := 2, alpha := 1, stride := 7,
    samples := some fun i => (i.toNat * 37 + 11) % 256 }

/-- A state fresh from the header: a 3 by 3 grey + alpha image whose alpha
is kept. -/
def toy_fresh : fz_png_output_context ToyState :=
  header_state (toy_zlib false) 3 3 2 1 1

/-- A test image: `sp[i] = (37 i + 11) mod 256`. -/
def toy_samples : Int → Nat := fun i => (i.toNat * 37 + 11) % 256

/-- Lines 240-249 seen from the caller: the state left behind by the
trailer.  With a null sink or a null state nothing is touched; after a
successful close the state is freed (`none`); after a failed close the struct
is still allocated (the throw of line 245 comes before the `fz_free` calls). -/
def fz_write_png_trailer_poc {σ : Type} (Z : Zlib σ) (out : Option Sink)
    (poc : Option (fz_png_output_context σ)) : Option (fz_png_output_context σ) :=
  match out, poc with
  | some _, some poc => if Z.deflateEnd poc.stream.state ≠ Z_OK then some poc else none
  | _, _ => poc

/-- The number of channels a PNG colour type announces:
0 (grey) 1, 4 (grey + alpha) 2, 2 (RGB) 3, 6 (RGBA) 4. -/
def color_channels (color : Nat) : Int :=
  if color = 0 then 1 else if color = 4 then 2 else if color = 2 then 3
  else if color = 6 then 4 else 0

/-- A pixmap without rows and with a channel count the header rejects. -/
def toy_empty_pixmap : fz_pixmap :=
  { w := 4, h := 0, n := 7, alpha := 0, stride := 28, samples := none,
    colorspace := some (.other 1) }

/-- A 3 by 2 RGBA pixmap over a test image. -/
def toy_rgba_pixmap : fz_pixmap :=
  { w := 3, h := 2, n := 4, alpha := 1, stride := 12,
    samples := some fun i => (i.toNat * 37 + 11) % 256,
    colorspace := some .device_rgb }

/-! ## The filtering pass, store by store -/

/-- One store through `dp` in lines 192-200: the index into `udata` it writes
and the offsets, relative to the `sp` passed in, it reads. -/
structure Store where
  dst : Nat
  src : List Int
  deriving DecidableEq, Repr

/-- The byte a store puts: line 192 reads nothing and stores 1, line 198
copies the sample read, line 200 stores the difference of the two reads. -/
def store_value (sp : Int → Nat) (s : Store) : Nat :=
  match s.src with
  | [] => 1
  | [a] => sp a
  | a :: b :: _ => sub_byte (sp a) (sp b)

/-- Lines 195-201 for the pixel in column `x`, with `sp` at offset `off` and
`dp` at index `dp`: `dp[k]` is stored from `sp[k]`, and from `sp[k-sn]` too when
`x ≠ 0`. -/
def trace_pixel (sn : Int) (dn x : Nat) (off : Int) (dp : Nat) : List Store :=
  (List.range dn).map fun (k : Nat) =>
    ⟨dp + k, if x = 0 then [off + k] else [off + k, off + k - sn]⟩

/-- Lines 193-204, as `filter_pixels`; returns the stores and where `sp` and
`dp` stand afterwards. -/
def trace_pixels (sn : Int) (dn : Nat) : Nat → Nat → Int → Nat → List Store × Int × Nat
  | 0, _, off, dp => ([], off, dp)
  | cnt + 1, x, off, dp =>
    let r := trace_pixels sn dn cnt (x + 1) (off + sn) (dp + dn)
    (trace_pixel sn dn x off dp ++ r.1, r.2.1, r.2.2)

/-- Lines 190-206, as `filter_rows`: each row begins with the store of the
filter byte at `dp` (`*dp++ = 1`). -/
def trace_rows (w : Nat) (sn : Int) (dn : Nat) (skip : Int) : Nat → Int → Nat → List Store
  | 0, _, _ => []
  | cnt + 1, off, dp =>
    let r := trace_pixels sn dn w 0 off (dp + 1)
    (⟨dp, []⟩ :: r.1) ++ trace_rows w sn dn skip cnt (r.2.1 + skip) r.2.2

/-- Lines 188-206, as `png_filter`: the stores of the filtering pass in the
order they are made. -/
def png_filter_trace (w sn dn stride bandheight : Int) : List Store :=
  trace_rows w.toNat sn dn.toNat (stride - w * sn) bandheight.toNat 0 0
/-- Lines 162-164: the capacity `usize` of `udata` during a band call: fixed
on the first call, kept afterwards. -/
def band_usize {σ : Type} (poc : fz_png_output_context σ) (band bandheight : Int) : Nat :=
  match poc.udata with
  | none => (((poc.w * (poc.n - poc.alpha + poc.savealpha) + 1)
              * band_rows poc.h band bandheight) % 18446744073709551616).toNat
  | some _ => poc.usize

/-! ## The compressor's answers, call after call -/

/-- The turns `invs` are what the compressor answers when it is called again
and again: the first turn offers the input `i` to the state `s` with `a` bytes
of room and flush mode `fl` and records the status and the output of
`Z.deflate` on exactly that; the next turn starts from the state that call
left and the input it did not consume. -/
def Answers {σ : Type} (Z : Zlib σ) (a : Nat) (fl : Int) : σ → List Nat → List Invocation → Prop
  | _, _, [] => True
  | s, i, t :: rest =>
    t = ⟨fl, i, a, (Z.deflate s i a fl).err, (Z.deflate s i a fl).output.take a⟩
    ∧ Answers Z a fl (Z.deflate s i a fl).state (i.drop (Z.deflate s i a fl).consumed) rest

/-- A compressor without a buffer: every call copies as much of its input to
the output as there is room for and consumes just that; asked to finish it
reports `Z_STREAM_END`, otherwise `Z_OK`.  The scratch buffer it asks for has
four bytes. -/
def pipe_zlib : Zlib ToyState where
  zero := ⟨[], 0⟩
  compressBound := fun _ => 4
  deflateInit := fun _ _ => (Z_OK, ⟨[], 0⟩)
  deflate := fun s input avail_out flush =>
    ⟨if flush = Z_FINISH then Z_STREAM_END else Z_OK,
     ⟨s.taken ++ input.take avail_out, s.emitted⟩, min avail_out input.length,
     input.take avail_out⟩
  deflateEnd := fun _ => Z_OK

/-- A compressor that buffers, as zlib does on short inputs: it takes all the
input offered and gives no output before it is asked to finish; asked to
finish, it hands out as much of what it holds as there is room for, and
reports `Z_STREAM_END` once all of it is out and `Z_OK` before.  Its
`compressBound` is zlib's for sizes below 4096. -/
def hold_zlib : Zlib ToyState where
  zero := ⟨[], 0⟩
  compressBound := fun n => n + 13
  deflateInit := fun _ _ => (Z_OK, ⟨[], 0⟩)
  deflate := fun s input avail_out flush =>
    let taken := s.taken ++ input
    let sent := min s.emitted s.taken.length
    let output := if flush = Z_FINISH then (taken.drop sent).take avail_out else []
    let emitted := sent + output.length
    ⟨if flush = Z_FINISH ∧ taken.length ≤ emitted then Z_STREAM_END else Z_OK,
     ⟨taken, emitted⟩, input.length, output⟩
  deflateEnd := fun _ => Z_OK

/-- A state fresh from the header: a grey image one pixel wide and 16 rows
high, no alpha. -/
def column_fresh : fz_png_output_context ToyState :=
  header_state hold_zlib 1 16 1 0 0

/-! ## Integer and CRC lemmas -/

theorem big32_length (v : Nat) : (big32 v).length = 4 := rfl

theorem big32_eq_div (v : Nat) :
    big32 v = [v / 16777216 % 256, v / 65536 % 256, v / 256 % 256, v % 256] := by
  have h : ∀ x : Nat, x &&& 0xff = x % 256 := fun x => Nat.and_pow_two_sub_one_eq_mod x 8
  simp only [big32, h, Nat.shiftRight_eq_div_pow, Nat.reducePow]

theorem big32_mod (v : Nat) : big32 (v % 4294967296) = big32 v := by
  simp only [big32_eq_div]
  have h1 : v % 4294967296 / 16777216 % 256 = v / 16777216 % 256 := by omega
  have h2 : v % 4294967296 / 65536 % 256 = v / 65536 % 256 := by omega
  have h3 : v % 4294967296 / 256 % 256 = v / 256 % 256 := by omega
  have h4 : v % 4294967296 % 256 = v % 256 := by omega
  rw [h1, h2, h3, h4]

theorem be32_big32 (v : Nat) (hv : v < 4294967296) : be32 (big32 v) = v := by
  simp only [big32_eq_div, be32, List.getD_cons_zero, List.getD_cons_succ]
  omega

theorem toU32_ofNat (v : Nat) : toU32 (v : Int) = v % 4294967296 := by
  unfold toU32
  omega

theorem toU32_toI32 (v : Nat) : toU32 (toI32 v) = v % 4294967296 := by
  unfold toU32 toI32
  split <;> omega

theorem fz_write_int32_be_nat (out : Sink) (v : Nat) :
    fz_write_int32_be out (v : Int) = out ++ big32 v := by
  simp only [fz_write_int32_be, toU32_ofNat, big32_mod]

theorem fz_write_int32_be_sum (out : Sink) (v : Nat) :
    fz_write_int32_be out (toI32 v) = out ++ big32 v := by
  simp only [fz_write_int32_be, toU32_toI32, big32_mod]

theorem crc32_append (c : Nat) (a b : List Nat) :
    crc32 (crc32 c a) b = crc32 c (a ++ b) := by
  simp only [crc32, List.foldl_append, Nat.xor_assoc, Nat.xor_self, Nat.xor_zero]

/-- What `putchunk` appends when `size` is the length of `data` and the tag
has four bytes: the framed chunk. -/
theorem putchunk_eq_chunk (out tag data : List Nat) (ht : tag.length = 4) :
    putchunk out tag data (data.length : Int) = out ++ chunk tag data := by
  have h4 : tag.take 4 = tag := List.take_of_length_le (by omega)
  simp only [putchunk, chunk, fz_write, Int.toNat_ofNat, List.take_length, h4,
    fz_write_int32_be_nat, fz_write_int32_be_sum, crc32_append, List.append_assoc]

theorem chunk_length (tag data : List Nat) :
    (chunk tag data).length = 8 + tag.length + data.length := by
  simp only [chunk, List.length_append, big32_length]
  omega

theorem crc_bit_lt (c : Nat) (hc : c < 4294967296) : crc_bit c < 4294967296 := by
  unfold crc_bit
  have h1 : c >>> 1 < 2 ^ 32 := by
    rw [Nat.shiftRight_eq_div_pow]
    omega
  split
  · exact Nat.xor_lt_two_pow h1 (by norm_num)
  · exact h1

theorem crc_byte_lt (c b : Nat) (hc : c < 4294967296) (hb : b < 256) :
    crc_byte c b < 4294967296 := by
  unfold crc_byte
  have h0 : c ^^^ b < 2 ^ 32 := Nat.xor_lt_two_pow hc (by omega)
  exact crc_bit_lt _ (crc_bit_lt _ (crc_bit_lt _ (crc_bit_lt _ (crc_bit_lt _
    (crc_bit_lt _ (crc_bit_lt _ (crc_bit_lt _ h0)))))))

theorem foldl_crc_byte_lt (buf : List Nat) (hb : ∀ b ∈ buf, b < 256) :
    ∀ c, c < 4294967296 → buf.foldl crc_byte c < 4294967296 := by
  induction buf with
  | nil => intro c hc; simpa using hc
  | cons b rest ih =>
    intro c hc
    simp only [List.foldl_cons]
    exact ih (fun x hx => hb x (List.mem_cons_of_mem _ hx)) _
      (crc_byte_lt c b hc (hb b (List.mem_cons_self _ _)))

theorem crc32_lt (c : Nat) (buf : List Nat) (hc : c < 4294967296)
    (hb : ∀ b ∈ buf, b < 256) : crc32 c buf < 4294967296 := by
  unfold crc32
  have h1 : c ^^^ 0xffffffff < 2 ^ 32 := Nat.xor_lt_two_pow hc (by norm_num)
  have h2 := foldl_crc_byte_lt buf hb _ h1
  exact Nat.xor_lt_two_pow (n := 32) h2 (by norm_num)

/-! ## Chunk writer: C6 -/

/-- C6: for a four-byte tag and a payload of `s < 2^31` bytes, `putchunk`
appends exactly `12 + s` bytes: `s` big-endian, the tag, the payload and the
big-endian CRC; the CRC computed incrementally (initial value, tag, payload) is
the one-shot CRC-32 of tag followed by payload, the length field reads back as
`s`, and recomputing the CRC over bytes `4 .. 8+s` of the written chunk gives
the chunk's last four bytes (which read back as that CRC when the bytes are
bytes). -/
theorem putchunk_framing (out tag payload : List Nat) (ht : tag.length = 4)
    (hs : payload.length < 2147483648) :
    putchunk out tag payload (payload.length : Int)
        = out ++ (big32 payload.length ++ tag ++ payload
                    ++ big32 (crc32 (crc32 crc32_init tag) payload))
    ∧ (putchunk out tag payload (payload.length : Int)).length
        = out.length + (12 + payload.length)
    ∧ be32 (big32 payload.length) = payload.length
    ∧ crc32 (crc32 crc32_init tag) payload = crc32 crc32_init (tag ++ payload)
    ∧ big32 (crc32 crc32_init
          (((putchunk out tag payload (payload.length : Int)).drop (out.length + 4)).take
            (4 + payload.length)))
        = (putchunk out tag payload (payload.length : Int)).drop (out.length + 8 + payload.length)
    ∧ ((∀ b ∈ tag ++ payload, b < 256) →
        be32 ((putchunk out tag payload (payload.length : Int)).drop
              (out.length + 8 + payload.length))
          = crc32 crc32_init (tag ++ payload)) := by
  have hput := putchunk_eq_chunk out tag payload ht
  have hcrc := crc32_append crc32_init tag payload
  have hmid : (out ++ chunk tag payload).drop (out.length + 4)
      = tag ++ payload ++ big32 (crc32 crc32_init (tag ++ payload)) := by
    rw [List.drop_append, chunk]
    simp only [List.append_assoc]
    rw [List.drop_append_of_le_length (by simp [big32_length])]
    simp [big32_length]
  have hend : (out ++ chunk tag payload).drop (out.length + 8 + payload.length)
      = big32 (crc32 crc32_init (tag ++ payload)) := by
    have : out.length + 8 + payload.length = out.length + (8 + payload.length) := by omega
    rw [this, List.drop_append, chunk]
    have hl : (big32 payload.length ++ tag ++ payload).length = 8 + payload.length := by
      simp [big32_length, ht]; omega
    rw [← hl, List.drop_left]
  refine ⟨?_, ?_, ?_, hcrc, ?_, ?_⟩
  · rw [hput, hcrc, chunk]
  · rw [hput, List.length_append, chunk_length, ht]
  · exact be32_big32 _ (by omega)
  · rw [hput, hmid, hend]
    have hl : 4 + payload.length = (tag ++ payload).length := by simp [ht]
    rw [hl, List.take_left]
  · intro hb
    rw [hput, hend]
    exact be32_big32 _ (crc32_lt _ _ (by decide) hb)

/-- Witness for C6: the chunk `"IDAT"` with the payload `[1, 2, 3]`. -/
theorem putchunk_framing_witness :
    putchunk [9] tag_IDAT [1, 2, 3] 3
        = [9] ++ (big32 3 ++ tag_IDAT ++ [1, 2, 3]
                    ++ big32 (crc32 (crc32 crc32_init tag_IDAT) [1, 2, 3]))
    ∧ (putchunk [9] tag_IDAT [1, 2, 3] 3).length = 1 + (12 + 3) :=
  ⟨(putchunk_framing [9] tag_IDAT [1, 2, 3] (by decide) (by decide)).1,
   (putchunk_framing [9] tag_IDAT [1, 2, 3] (by decide) (by decide)).2.1⟩

/-! ## Header: C3, C4, C5 -/

/-- What the header does on a non-null sink, by the outcome of the `switch`. -/
theorem header_some_throw {σ : Type} (Z : Zlib σ) (o : Sink) (w h n alpha savealpha : Int)
    (hc : header_color n (header_alpha n alpha) = none) :
    fz_write_png_header Z (some o) w h n alpha savealpha
      = ⟨some o, .throw .pixmap_must_be_grayscale_or_rgb⟩ := by
  simp only [fz_write_png_header, hc]

theorem header_some_ok {σ : Type} (Z : Zlib σ) (o : Sink) (w h n alpha savealpha : Int)
    (color : Nat) (hc : header_color n (header_alpha n alpha) = some color) :
    fz_write_png_header Z (some o) w h n alpha savealpha
      = ⟨some (o ++ pngsig ++ chunk tag_IHDR (header_head w h color)),
         .ok (some (header_state Z w h n alpha savealpha))⟩ := by
  have hl : ((header_head w h color).length : Int) = 13 := by
    simp [header_head, big32_length]
  have hp := putchunk_eq_chunk (o ++ pngsig) tag_IHDR (header_head w h color) rfl
  rw [hl] at hp
  have hs : fz_write o pngsig 8 = o ++ pngsig := by simp [fz_write, pngsig]
  simp only [fz_write_png_header, hc, hs, hp, header_state, header_savealpha]

theorem header_color_mem (n alpha : Int) (color : Nat)
    (hc : header_color n alpha = some color) :
    color = 0 ∨ color = 2 ∨ color = 4 ∨ color = 6 := by
  unfold header_color at hc
  split_ifs at hc <;> simp at hc <;> omega

/-- C3 (evaluation at the failing input): for a grey + alpha pixmap (`n = 2`,
`alpha = 1`) written with `savealpha = 0` the header stores colour type 4 (grey
with alpha) at offset 9 of the IHDR payload, although the state it returns
makes the band writer emit `n - alpha + savealpha = 1` sample per pixel; in
the same way `n = 4` gives colour type 6 with 3 samples per pixel. -/
theorem header_color_ignores_savealpha {σ : Type} (Z : Zlib σ) :
    (∃ out poc, fz_write_png_header Z (some []) 1 1 2 1 0 = ⟨some out, .ok (some poc)⟩
        ∧ ((out.drop (8 + 8)).take 13).getD 9 0 = 4
        ∧ poc.n - poc.alpha = 1 ∧ poc.savealpha = 0
        ∧ poc.n - poc.alpha + poc.savealpha = 1)
    ∧ (∃ out poc, fz_write_png_header Z (some []) 1 1 4 1 0 = ⟨some out, .ok (some poc)⟩
        ∧ ((out.drop (8 + 8)).take 13).getD 9 0 = 6
        ∧ poc.n - poc.alpha = 3 ∧ poc.savealpha = 0
        ∧ poc.n - poc.alpha + poc.savealpha = 3) := by
  refine ⟨⟨_, _, header_some_ok Z [] 1 1 2 1 0 4 (by decide), by decide, ?_, ?_, ?_⟩,
    ⟨_, _, header_some_ok Z [] 1 1 4 1 0 6 (by decide), by decide, ?_, ?_, ?_⟩⟩ <;>
    simp [header_state, header_savealpha, header_alpha]

/-- C4: on a non-null sink, with `alpha` 0 or 1, the header throws exactly when
`n - a` is neither 1 nor 3, `a` being 0 for `n = 1` and `alpha` otherwise; it
throws for `n = 2` without alpha, for `n = 0` and for every `n ≥ 5`, it
succeeds for `n ∈ {1, 3}` without alpha and `n ∈ {2, 4}` with alpha; and when
it throws, the sink is the one passed in. -/
theorem header_rejection_exact {σ : Type} (Z : Zlib σ) (o : Sink)
    (w h n alpha savealpha : Int) (ha : alpha = 0 ∨ alpha = 1) :
    ((∃ e, (fz_write_png_header Z (some o) w h n alpha savealpha).ret = .throw e)
        ↔ (n - (if n = 1 then 0 else alpha) ≠ 1 ∧ n - (if n = 1 then 0 else alpha) ≠ 3))
    ∧ ((∃ e, (fz_write_png_header Z (some o) w h n alpha savealpha).ret = .throw e)
        → (fz_write_png_header Z (some o) w h n alpha savealpha).out = some o)
    ∧ ((n = 2 ∧ alpha = 0) ∨ n = 0 ∨ 5 ≤ n
        → ∃ e, (fz_write_png_header Z (some o) w h n alpha savealpha).ret = .throw e)
    ∧ (((n = 1 ∨ n = 3) ∧ alpha = 0) ∨ ((n = 2 ∨ n = 4) ∧ alpha = 1)
        → ∃ poc, (fz_write_png_header Z (some o) w h n alpha savealpha).ret = .ok (some poc)) := by
  have key : ∀ c, header_color n (header_alpha n alpha) = c →
      ((c = none) ↔ (n - (if n = 1 then 0 else alpha) ≠ 1
                      ∧ n - (if n = 1 then 0 else alpha) ≠ 3)) := by
    intro c hc
    subst hc
    unfold header_color header_alpha
    rcases ha with ha | ha <;> subst ha <;> by_cases h1 : n = 1 <;> simp [h1]
    all_goals (split_ifs <;> simp <;> omega)
  cases hc : header_color n (header_alpha n alpha) with
  | none =>
    have hk := (key none hc).1 rfl
    rw [header_some_throw Z o w h n alpha savealpha hc]
    refine ⟨⟨fun _ => hk, fun _ => ⟨_, rfl⟩⟩, fun _ => rfl, fun _ => ⟨_, rfl⟩, ?_⟩
    intro hcase
    exfalso
    rcases hcase with ⟨h1 | h1, h2⟩ | ⟨h1 | h1, h2⟩ <;>
      (subst h1; subst h2; simp at hk)
  | some color =>
    have hk : ¬ (n - (if n = 1 then 0 else alpha) ≠ 1
                  ∧ n - (if n = 1 then 0 else alpha) ≠ 3) := by
      intro hcon
      have := (key (some color) hc).2 hcon
      simp at this
    rw [header_some_ok Z o w h n alpha savealpha color hc]
    refine ⟨⟨fun ⟨e, he⟩ => by simp at he, fun hcon => absurd hcon hk⟩,
      fun ⟨e, he⟩ => by simp at he, ?_, fun _ => ⟨_, rfl⟩⟩
    intro hcase
    exfalso
    apply hk
    rcases hcase with ⟨h1, h2⟩ | h1 | h1
    · subst h1; subst h2; simp
    · subst h1; rcases ha with ha | ha <;> subst ha <;> simp
    · rcases ha with ha | ha <;> subst ha <;> split_ifs <;> omega

/-- Witness for C4: `n = 2` without alpha is rejected and leaves the sink. -/
theorem header_rejection_exact_witness :
    (∃ e, (fz_write_png_header (toy_zlib true) (some [7]) 3 3 2 0 1).ret = .throw e)
    ∧ (fz_write_png_header (toy_zlib true) (some [7]) 3 3 2 0 1).out = some [7] :=
  have h := header_rejection_exact (toy_zlib true) [7] 3 3 2 0 1 (Or.inl rfl)
  ⟨h.2.2.1 (Or.inl ⟨rfl, rfl⟩), h.2.1 (h.2.2.1 (Or.inl ⟨rfl, rfl⟩))⟩

/-- C5: for an accepted input with `0 ≤ w, h < 2^31` the header appends exactly
33 bytes: the signature `137 80 78 71 13 10 26 10`, then the IHDR chunk, that
is the length field 13, the tag, a 13-byte payload and the CRC of tag and
payload; the payload is `w` and `h` as four big-endian bytes each, then 8, a
colour type in `{0, 2, 4, 6}`, 0, 0, 0; its bytes `0..3` and `4..7` read back
as `w` and `h`. -/
theorem header_bytes {σ : Type} (Z : Zlib σ) (o : Sink) (w h n alpha savealpha : Int)
    (hw : 0 ≤ w ∧ w < 2147483648) (hh : 0 ≤ h ∧ h < 2147483648)
    (hacc : ∀ e, (fz_write_png_header Z (some o) w h n alpha savealpha).ret ≠ .throw e) :
    ∃ color payload,
      (color = 0 ∨ color = 2 ∨ color = 4 ∨ color = 6)
      ∧ payload = big32 w.toNat ++ big32 h.toNat ++ [8, color, 0, 0, 0]
      ∧ payload.length = 13
      ∧ (fz_write_png_header Z (some o) w h n alpha savealpha).out
          = some (o ++ ([137, 80, 78, 71, 13, 10, 26, 10]
                    ++ (big32 13 ++ tag_IHDR ++ payload
                        ++ big32 (crc32 crc32_init (tag_IHDR ++ payload)))))
      ∧ (∀ o1, (fz_write_png_header Z (some o) w h n alpha savealpha).out = some o1
            → o1.length = o.length + 33)
      ∧ (be32 (payload.take 4) : Int) = w
      ∧ (be32 ((payload.drop 4).take 4) : Int) = h := by
  cases hc : header_color n (header_alpha n alpha) with
  | none =>
    exact absurd (by rw [header_some_throw Z o w h n alpha savealpha hc]) (hacc _)
  | some color =>
    have hmem := header_color_mem _ _ _ hc
    have hcol : color % 256 = color := by omega
    have hwu : toU32 w = w.toNat := by unfold toU32; omega
    have hhu : toU32 h = h.toNat := by unfold toU32; omega
    have hhead : header_head w h color
        = big32 w.toNat ++ big32 h.toNat ++ [8, color, 0, 0, 0] := by
      simp only [header_head, hcol, hwu, hhu]
    have hlen : (big32 w.toNat ++ big32 h.toNat ++ [8, color, 0, 0, 0]).length = 13 := by
      simp [big32_length]
    refine ⟨color, _, hmem, rfl, hlen, ?_, ?_, ?_, ?_⟩
    · rw [header_some_ok Z o w h n alpha savealpha color hc, hhead, chunk, hlen]
      simp only [pngsig, List.append_assoc]
    · intro o1 ho1
      rw [header_some_ok Z o w h n alpha savealpha color hc, hhead] at ho1
      simp only [Option.some.injEq] at ho1
      rw [← ho1]
      simp only [List.length_append, chunk_length, hlen, pngsig, tag_IHDR, List.length_cons,
        List.length_nil]
    · have : (big32 w.toNat ++ big32 h.toNat ++ [8, color, 0, 0, 0]).take 4 = big32 w.toNat := by
        rw [List.append_assoc, List.take_left' (big32_length _)]
      rw [this, be32_big32 _ (by omega)]
      omega
    · have : ((big32 w.toNat ++ big32 h.toNat ++ [8, color, 0, 0, 0]).drop 4).take 4
          = big32 h.toNat := by
        rw [List.append_assoc, List.drop_left' (big32_length _), List.take_left' (big32_length _)]
      rw [this, be32_big32 _ (by omega)]
      omega

/-- Witness for C5: a 3 by 2 RGBA pixmap. -/
theorem header_bytes_witness :
    ∃ color payload,
      (color = 0 ∨ color = 2 ∨ color = 4 ∨ color = 6)
      ∧ payload = big32 (3 : Int).toNat ++ big32 (2 : Int).toNat ++ [8, color, 0, 0, 0]
      ∧ payload.length = 13
      ∧ (fz_write_png_header (toy_zlib true) (some []) 3 2 4 1 1).out
          = some ([] ++ ([137, 80, 78, 71, 13, 10, 26, 10]
                    ++ (big32 13 ++ tag_IHDR ++ payload
                        ++ big32 (crc32 crc32_init (tag_IHDR ++ payload)))))
      ∧ (∀ o1, (fz_write_png_header (toy_zlib true) (some []) 3 2 4 1 1).out = some o1
            → o1.length = ([] : Sink).length + 33)
      ∧ (be32 (payload.take 4) : Int) = 3
      ∧ (be32 ((payload.drop 4).take 4) : Int) = 2 :=
  header_bytes (toy_zlib true) [] 3 2 4 1 1 (by decide) (by decide)
    (by intro e; rw [header_some_ok (toy_zlib true) [] 3 2 4 1 1 6 (by decide)]; simp)

/-! ## Trailer: C10 -/

/-- C10: on a non-null sink and a non-null state, when `deflateEnd` reports
`Z_OK` the trailer appends exactly the twelve bytes
`00 00 00 00 49 45 4E 44 AE 42 60 82`, the IEND chunk with empty payload and
its CRC-32, and returns; when `deflateEnd` reports any other status the
trailer throws a compression error with that status and the sink is
unchanged. -/
theorem trailer_effect {σ : Type} (Z : Zlib σ) (o : Sink) (poc : fz_png_output_context σ) :
    (Z.deflateEnd poc.stream.state = Z_OK →
        fz_write_png_trailer Z (some o) (some poc)
          = ⟨some (o ++ [0x00, 0x00, 0x00, 0x00, 0x49, 0x45, 0x4E, 0x44, 0xAE, 0x42, 0x60, 0x82]),
             .ok ()⟩)
    ∧ (Z.deflateEnd poc.stream.state ≠ Z_OK →
        fz_write_png_trailer Z (some o) (some poc)
          = ⟨some o, .throw (.compression_error (Z.deflateEnd poc.stream.state))⟩)
    ∧ [0x00, 0x00, 0x00, 0x00, 0x49, 0x45, 0x4E, 0x44, 0xAE, 0x42, 0x60, 0x82]
        = chunk tag_IEND [] := by
  have hp : putchunk o tag_IEND [] 0 = o ++ chunk tag_IEND [] :=
    putchunk_eq_chunk o tag_IEND [] rfl
  have hi : chunk tag_IEND [] = [0, 0, 0, 0, 73, 69, 78, 68, 174, 66, 96, 130] := by decide
  refine ⟨fun hok => ?_, fun hbad => ?_, hi.symm⟩
  · simp only [fz_write_png_trailer, hok, ne_eq, not_true_eq_false, if_false, hp, hi]
  · simp only [fz_write_png_trailer, ne_eq, hbad, not_false_eq_true, if_true]

/-- Witness for C10: closing the toy compressor reports `Z_OK`. -/
theorem trailer_effect_witness :
    fz_write_png_trailer (toy_zlib true) (some [1, 2])
        (some ⟨none, none, 0, 0, ⟨[], ⟨[], 0⟩⟩, 1, 1, 1, 0, 0⟩)
      = ⟨some ([1, 2] ++ [0x00, 0x00, 0x00, 0x00, 0x49, 0x45, 0x4E, 0x44, 0xAE, 0x42, 0x60, 0x82]),
         .ok ()⟩ :=
  (trailer_effect (toy_zlib true) [1, 2]
    ⟨none, none, 0, 0, ⟨[], ⟨[], 0⟩⟩, 1, 1, 1, 0, 0⟩).1 rfl

/-! ## Row filter: C1, C2 -/

theorem filter_pixel_length (sp : Int → Nat) (sn : Int) (dn x : Nat) (off : Int) :
    (filter_pixel sp sn dn x off).length = dn := by
  simp [filter_pixel]

theorem filter_pixel_get (sp : Int → Nat) (sn : Int) (dn x : Nat) (off : Int) (k : Nat)
    (hk : k < dn) :
    (filter_pixel sp sn dn x off)[k]? =
      some (if x = 0 then sp (off + k) else sub_byte (sp (off + k)) (sp (off + k - sn))) := by
  simp [filter_pixel, List.getElem?_map, List.getElem?_range hk]

theorem filter_pixels_spec (sp : Int → Nat) (sn : Int) (dn : Nat) :
    ∀ (cnt x : Nat) (off : Int),
      (filter_pixels sp sn dn cnt x off).2 = off + cnt * sn
      ∧ (filter_pixels sp sn dn cnt x off).1.length = cnt * dn
      ∧ ∀ j k, j < cnt → k < dn →
          (filter_pixels sp sn dn cnt x off).1[j * dn + k]? =
            some (if x + j = 0 then sp (off + j * sn + k)
                  else sub_byte (sp (off + j * sn + k)) (sp (off + j * sn + k - sn))) := by
  intro cnt
  induction cnt with
  | zero =>
    intro x off
    simp [filter_pixels]
  | succ cnt ih =>
    intro x off
    obtain ⟨h2, hl, hg⟩ := ih (x + 1) (off + sn)
    refine ⟨?_, ?_, ?_⟩
    · simp only [filter_pixels, h2]
      push_cast
      ring
    · simp only [filter_pixels, List.length_append, filter_pixel_length, hl]
      ring
    · intro j k hj hk
      simp only [filter_pixels]
      cases j with
      | zero =>
        rw [List.getElem?_append_left (by simp [filter_pixel_length]; omega)]
        simp [filter_pixel_get _ _ _ _ _ _ hk]
      | succ j =>
        have hidx : (j + 1) * dn + k = (filter_pixel sp sn dn x off).length + (j * dn + k) := by
          rw [filter_pixel_length]; ring
        rw [hidx, List.getElem?_append_right (by omega), Nat.add_sub_cancel_left,
          hg j k (by omega) hk]
        have e1 : off + sn + (j : Int) * sn + (k : Int) = off + ((j + 1 : Nat) : Int) * sn + k := by
          push_cast; ring
        have hx : ¬ (x + 1 + j = 0) := by omega
        have hx2 : ¬ (x + (j + 1) = 0) := by omega
        simp only [hx, hx2, if_false, e1]
theorem filter_rows_length (sp : Int → Nat) (w : Nat) (sn : Int) (dn : Nat) (skip : Int) :
    ∀ (cnt : Nat) (off : Int),
      (filter_rows sp w sn dn skip cnt off).length = cnt * (1 + w * dn) := by
  intro cnt
  induction cnt with
  | zero => intro off; simp [filter_rows]
  | succ cnt ih =>
    intro off
    simp only [filter_rows, List.length_append, List.length_cons, ih,
      (filter_pixels_spec sp sn dn w 0 off).2.1]
    ring

/-- Row `y` of the staged bytes is the filter byte followed by the filtered
pixels of the source row that starts `y` strides further on. -/
theorem filter_rows_block (sp : Int → Nat) (w : Nat) (sn : Int) (dn : Nat) (skip : Int) :
    ∀ (cnt : Nat) (off : Int) (y : Nat), y < cnt →
      ((filter_rows sp w sn dn skip cnt off).drop (y * (1 + w * dn))).take (1 + w * dn)
        = 1 :: (filter_pixels sp sn dn w 0 (off + y * (w * sn + skip))).1 := by
  intro cnt
  induction cnt with
  | zero => intro off y hy; omega
  | succ cnt ih =>
    intro off y hy
    have hrow : (1 :: (filter_pixels sp sn dn w 0 off).1).length = 1 + w * dn := by
      simp only [List.length_cons, (filter_pixels_spec sp sn dn w 0 off).2.1]
      omega
    simp only [filter_rows]
    cases y with
    | zero =>
      simp only [Nat.zero_mul, List.drop_zero]
      rw [List.take_left' hrow]
      simp
    | succ y =>
      have hidx : (y + 1) * (1 + w * dn)
          = (1 :: (filter_pixels sp sn dn w 0 off).1).length + y * (1 + w * dn) := by
        rw [hrow]; ring
      rw [hidx, List.drop_append, ih _ y (by omega),
        (filter_pixels_spec sp sn dn w 0 off).1]
      congr 3
      push_cast
      ring
/-- The staged bytes a band call leaves in `udata` once it has reached the
compressor (its log is not empty). -/
theorem band_udata {σ : Type} (Z : Zlib σ) (fuel : Nat) (o : Sink)
    (poc : fz_png_output_context σ) (stride band bandheight : Int) (sp : Int → Nat)
    (r : BandRet σ)
    (hr : fz_write_png_band Z fuel (some o) (some poc) stride band bandheight (some sp) = some r)
    (hlog : r.log ≠ []) :
    ∃ p, r.poc = some p ∧ p.udata = some (png_filter poc.w poc.n
        (poc.n - poc.alpha + poc.savealpha) stride (band_rows poc.h band bandheight) sp) := by
  simp only [fz_write_png_band] at hr
  split at hr
  · simp only [Option.some.injEq] at hr
    subst hr
    exact absurd rfl hlog
  · split at hr
    · exact absurd hr (by simp)
    · simp only [Option.some.injEq] at hr
      subst hr
      exact ⟨_, rfl, rfl⟩

/-- C1: the filtering pass, for width `w`, `dn` destination channels, `bh`
rows, source pixel size `sn` and row stride `stride`, stores exactly `bh` rows
of `1 + w*dn` bytes; byte 0 of row `y` is 1, and byte `1 + x*dn + k` of row `y`
is `sp[y*stride + x*sn + k]` for `x = 0` and
`(sp[y*stride + x*sn + k] - sp[y*stride + (x-1)*sn + k]) mod 256` for `x > 0`.
These are the bytes a call of `fz_write_png_band` that reaches the compressor
leaves in `udata`, with `w`, `sn = n`, `dn = n - alpha + savealpha` of the
state and `bh` the effective band height. -/
theorem filter_reference (sp : Int → Nat) (w dn bh : Nat) (sn stride : Int) :
    (png_filter w sn dn stride bh sp).length = bh * (1 + w * dn)
    ∧ (∀ y, y < bh →
        (png_filter w sn dn stride bh sp)[y * (1 + w * dn)]? = some 1
        ∧ ∀ x k, x < w → k < dn →
            (png_filter w sn dn stride bh sp)[y * (1 + w * dn) + (1 + x * dn + k)]? =
              some (if x = 0 then sp (y * stride + x * sn + k)
                    else (((sp (y * stride + x * sn + k) : Int)
                            - (sp (y * stride + ((x : Int) - 1) * sn + k) : Int)) % 256).toNat))
    ∧ (∀ {σ : Type} (Z : Zlib σ) (fuel : Nat) (o : Sink) (poc : fz_png_output_context σ)
          (band bandheight : Int) (r : BandRet σ),
        poc.w = w → poc.n = sn → poc.n - poc.alpha + poc.savealpha = dn →
        band_rows poc.h band bandheight = bh →
        fz_write_png_band Z fuel (some o) (some poc) stride band bandheight (some sp) = some r →
        r.log ≠ [] →
        ∃ p, r.poc = some p ∧ p.udata = some (png_filter w sn dn stride bh sp)) := by
  have hpf : png_filter w sn dn stride bh sp
      = filter_rows sp w sn dn (stride - w * sn) bh 0 := by
    simp only [png_filter, Int.toNat_ofNat]
  refine ⟨?_, ?_, ?_⟩
  · rw [hpf, filter_rows_length]
  · intro y hy
    have hblock := filter_rows_block sp w sn dn (stride - w * sn) bh 0 y hy
    have hget : ∀ j, j < 1 + w * dn →
        (png_filter w sn dn stride bh sp)[y * (1 + w * dn) + j]?
          = (1 :: (filter_pixels sp sn dn w 0 (0 + y * (w * sn + (stride - w * sn)))).1)[j]? := by
      intro j hj
      rw [← hblock, List.getElem?_take_of_lt hj, List.getElem?_drop, hpf]
    refine ⟨by simpa using hget 0 (by omega), ?_⟩
    intro x k hx hk
    have hlt : x * dn + k < w * dn := by
      calc x * dn + k < x * dn + dn := by omega
        _ = (x + 1) * dn := by ring
        _ ≤ w * dn := Nat.mul_le_mul_right _ hx
    have hidx : 1 + x * dn + k = (x * dn + k) + 1 := by omega
    rw [hget _ (by omega), hidx, List.getElem?_cons_succ,
      (filter_pixels_spec sp sn dn w 0 _).2.2 x k hx hk]
    have e0 : (0 : Int) + y * (w * sn + (stride - w * sn)) = y * stride := by ring
    have e1 : (y : Int) * stride + x * sn + k - sn = y * stride + ((x : Int) - 1) * sn + k := by
      ring
    simp only [Nat.zero_add, e0, sub_byte, e1]
  · intro σ Z fuel o poc band bandheight r h1 h2 h3 h4 hr hlog
    obtain ⟨p, hp, hu⟩ := band_udata Z fuel o poc stride band bandheight sp r hr hlog
    exact ⟨p, hp, by rw [hu, h3, h1, h2, h4]⟩
theorem flatMap_range_length {α : Type} (f : Nat → List α) (m : Nat)
    (hf : ∀ x, (f x).length = m) : ∀ w, ((List.range w).flatMap f).length = w * m := by
  intro w
  induction w with
  | zero => simp
  | succ w ih =>
    rw [List.range_succ, List.flatMap_append, List.length_append, ih]
    simp [hf]
    ring

theorem flatMap_range_get {α : Type} (f : Nat → List α) (m : Nat)
    (hf : ∀ x, (f x).length = m) :
    ∀ w x k, x < w → k < m → ((List.range w).flatMap f)[x * m + k]? = (f x)[k]? := by
  intro w
  induction w with
  | zero => intro x k hx; omega
  | succ w ih =>
    intro x k hx hk
    rw [List.range_succ, List.flatMap_append]
    have hlen := flatMap_range_length f m hf w
    by_cases hxw : x < w
    · have hlt : x * m + k < w * m := by
        calc x * m + k < x * m + m := by omega
          _ = (x + 1) * m := by ring
          _ ≤ w * m := Nat.mul_le_mul_right _ hxw
      rw [List.getElem?_append_left (by omega)]
      exact ih x k hxw hk
    · have hxe : x = w := by omega
      subst hxe
      rw [List.getElem?_append_right (by omega), hlen, Nat.add_sub_cancel_left]
      simp [List.getElem?_append_left, hf, hk]

theorem unfilter_sub_pointwise (bpp : Nat) (hb : 0 < bpp) (F E : List Nat)
    (hlen : E.length = F.length)
    (hstep : ∀ m, m < F.length →
      (F.getD m 0 + (if m < bpp then 0 else E.getD (m - bpp) 0)) % 256 = E.getD m 0) :
    unfilter_sub bpp [] F = E := by
  have key : ∀ n m, F.length - m = n → m ≤ F.length →
      unfilter_sub bpp (E.take m) (F.drop m) = E := by
    intro n
    induction n with
    | zero =>
      intro m hm hle
      have : m = F.length := by omega
      subst this
      rw [List.drop_length, ← hlen, List.take_length]
      rfl
    | succ n ih =>
      intro m hm hle
      have hlt : m < F.length := by omega
      rw [List.drop_eq_getElem_cons hlt]
      simp only [unfilter_sub]
      have hacc : (E.take m).length = m := by
        rw [List.length_take]; omega
      have hprev : (if (E.take m).length < bpp then 0
            else (E.take m).getD ((E.take m).length - bpp) 0)
          = (if m < bpp then 0 else E.getD (m - bpp) 0) := by
        rw [hacc]
        split
        · rfl
        · simp only [List.getD_eq_getElem?_getD]
          rw [List.getElem?_take_of_lt (by omega)]
      have hF : F[m] = F.getD m 0 := by
        rw [List.getD_eq_getElem?_getD, List.getElem?_eq_getElem hlt]; rfl
      rw [hprev, hF, hstep m hlt]
      have hE : E.take m ++ [E.getD m 0] = E.take (m + 1) := by
        have hlt2 : m < E.length := by omega
        rw [List.take_succ, List.getD_eq_getElem?_getD, List.getElem?_eq_getElem hlt2]
        rfl
      rw [hE]
      exact ih (m + 1) (by omega) (by omega)
  simpa using key F.length 0 rfl (Nat.zero_le _)
/-- Witness for C1: a 3 by 2 band with 2 source and 1 destination channels. -/
theorem filter_reference_witness :
    (png_filter (3 : Nat) 2 (1 : Nat) 7 (2 : Nat) toy_samples).length = 2 * (1 + 3 * 1)
    ∧ png_filter (3 : Nat) 2 (1 : Nat) 7 (2 : Nat) toy_samples = [1, 11, 74, 74, 1, 14, 74, 74] :=
  ⟨(filter_reference toy_samples 3 1 2 2 7).1, by decide⟩

theorem sub_byte_add (a b : Nat) (ha : a < 256) :
    (sub_byte a b + b) % 256 = a := by
  unfold sub_byte
  omega

theorem row_samples_length (sp : Int → Nat) (w dn : Nat) (sn base : Int) :
    (row_samples sp w dn sn base).length = w * dn :=
  flatMap_range_length _ dn (fun _ => by simp) w

theorem row_samples_get (sp : Int → Nat) (w dn : Nat) (sn base : Int) (x k : Nat)
    (hx : x < w) (hk : k < dn) :
    (row_samples sp w dn sn base)[x * dn + k]? = some (sp (base + x * sn + k)) := by
  unfold row_samples
  rw [flatMap_range_get _ dn (fun _ => by simp) w x k hx hk]
  simp [List.getElem?_map, List.getElem?_range hk]

/-- Undoing the Sub filter on the filtered pixels of one row. -/
theorem unfilter_filter_pixels (sp : Int → Nat) (hsp : ∀ i, sp i < 256) (w dn : Nat)
    (hdn : 1 ≤ dn) (sn base : Int) :
    unfilter_sub dn [] (filter_pixels sp sn dn w 0 base).1 = row_samples sp w dn sn base := by
  obtain ⟨-, hlen, hget⟩ := filter_pixels_spec sp sn dn w 0 base
  apply unfilter_sub_pointwise dn hdn
  · rw [row_samples_length, hlen]
  · intro m hm
    rw [hlen] at hm
    have hx : m / dn < w := by
      apply Nat.div_lt_of_lt_mul
      rw [Nat.mul_comm]; exact hm
    have hk : m % dn < dn := Nat.mod_lt _ hdn
    have hm' : m = m / dn * dn + m % dn := by
      rw [Nat.mul_comm]; exact (Nat.div_add_mod m dn).symm
    have hF := hget (m / dn) (m % dn) hx hk
    have hE := row_samples_get sp w dn sn base (m / dn) (m % dn) hx hk
    rw [← hm'] at hF hE
    simp only [List.getD_eq_getElem?_getD, hF, hE, Option.getD_some, Nat.zero_add]
    by_cases hlt : m < dn
    · have hx0 : m / dn = 0 := Nat.div_eq_of_lt hlt
      simp only [hlt, if_true, hx0, Nat.add_zero]
      exact Nat.mod_eq_of_lt (hsp _)
    · have hx1 : 1 ≤ m / dn := by
        rw [Nat.le_div_iff_mul_le hdn]; omega
      have hx0 : ¬ (m / dn = 0) := by omega
      have hprev : m - dn = (m / dn - 1) * dn + m % dn := by
        have : m / dn * dn = (m / dn - 1) * dn + dn := by
          conv_lhs => rw [show m / dn = (m / dn - 1) + 1 by omega]
          ring
        omega
      have hE2 := row_samples_get sp w dn sn base (m / dn - 1) (m % dn) (by omega) hk
      rw [← hprev] at hE2
      simp only [hlt, if_false, hx0, hE2, Option.getD_some]
      have e : base + ((m / dn - 1 : Nat) : Int) * sn + ((m % dn : Nat) : Int)
          = base + ((m / dn : Nat) : Int) * sn + ((m % dn : Nat) : Int) - sn := by
        rw [Nat.cast_sub hx1]
        push_cast
        ring
      rw [e]
      exact sub_byte_add _ _ (hsp _)

/-- C2: every row the filtering pass stores is the filter-type byte 1 followed
by bytes from which the PNG Sub reconstruction with `dn` bytes per pixel
(`recon[i] = (filt[i] + recon[i - dn]) mod 256`, 0 for `i < dn`) gives back
exactly the first `dn` samples of each of the `w` source pixels of that row, in
order: sample `k` of pixel `x` of row `y` is `sp[y*stride + x*sn + k]`. -/
theorem sub_roundtrip (sp : Int → Nat) (hsp : ∀ i, sp i < 256) (w dn bh : Nat) (hdn : 1 ≤ dn)
    (sn stride : Int) (y : Nat) (hy : y < bh) :
    ∃ filt,
      ((png_filter w sn dn stride bh sp).drop (y * (1 + w * dn))).take (1 + w * dn) = 1 :: filt
      ∧ unfilter_sub dn [] filt = row_samples sp w dn sn (y * stride)
      ∧ (row_samples sp w dn sn (y * stride)).length = w * dn
      ∧ ∀ x k, x < w → k < dn →
          (row_samples sp w dn sn (y * stride))[x * dn + k]? = some (sp (y * stride + x * sn + k)) := by
  have hpf : png_filter w sn dn stride bh sp
      = filter_rows sp w sn dn (stride - w * sn) bh 0 := by
    simp only [png_filter, Int.toNat_ofNat]
  have e0 : (0 : Int) + y * (w * sn + (stride - w * sn)) = y * stride := by ring
  refine ⟨_, ?_, unfilter_filter_pixels sp hsp w dn hdn sn (y * stride),
    row_samples_length _ _ _ _ _, fun x k hx hk => row_samples_get _ _ _ _ _ x k hx hk⟩
  rw [hpf, filter_rows_block sp w sn dn _ bh 0 y hy, e0]

/-- Witness for C2: row 1 of a 3 by 2 image with 2 source and 1 destination
channels. -/
theorem sub_roundtrip_witness :
    ∃ filt,
      ((png_filter (3 : Nat) 2 (1 : Nat) 7 (2 : Nat) toy_samples).drop (1 * (1 + 3 * 1))).take
          (1 + 3 * 1) = 1 :: filt
      ∧ unfilter_sub 1 [] filt = row_samples toy_samples 3 1 2 ((1 : Nat) * 7)
      ∧ (row_samples toy_samples 3 1 2 ((1 : Nat) * 7)).length = 3 * 1
      ∧ ∀ x k : Nat, x < 3 → k < 1 →
          (row_samples toy_samples 3 1 2 ((1 : Nat) * 7))[x * 1 + k]?
            = some (toy_samples ((1 : Nat) * 7 + x * 2 + k)) :=
  sub_roundtrip toy_samples (fun i => Nat.mod_lt _ (by decide)) 3 1 2 (by decide) 2 7 1
    (by decide)

/-! ## The compression loop -/

theorem deflate_loop_spec {σ : Type} (Z : Zlib σ) (fb : Bool) (csize : Nat) :
    ∀ (fuel : Nat) (out : Sink) (zs : z_stream σ) (cdata : Option (List Nat))
      (log : List Invocation) (r : LoopRet σ),
      deflate_loop Z fb csize fuel out zs cdata log = some r →
      ∃ pre last, r.log = log ++ (pre ++ [last])
        ∧ (∀ i ∈ pre, bad_status fb i.err = false ∧ i.avail_out - i.produced.length = 0)
        ∧ (∀ i ∈ pre ++ [last], i.flush = (if fb then Z_FINISH else Z_NO_FLUSH)
              ∧ i.avail_out = csize % 4294967296 ∧ i.produced.length ≤ i.avail_out
              ∧ ∃ s, i.err = (Z.deflate s i.input i.avail_out i.flush).err
                  ∧ i.produced = (Z.deflate s i.input i.avail_out i.flush).output.take i.avail_out)
        ∧ (pre ++ [last]).head?.map (fun i => i.input) = some zs.next_in
        ∧ ((bad_status fb last.err = true ∧ r.ret = .throw (.compression_error last.err)
              ∧ r.out = idat_writes out pre)
            ∨ (bad_status fb last.err = false ∧ last.avail_out - last.produced.length ≠ 0
              ∧ r.ret = .ok () ∧ r.out = idat_writes out (pre ++ [last]))) := by
  intro fuel
  induction fuel with
  | zero => intro out zs cdata log r h; simp [deflate_loop] at h
  | succ fuel ih =>
    intro out zs cdata log r h
    have hprod : ∀ (l : List Nat) (a : Nat), (l.take a).length ≤ a := by
      intro l a; rw [List.length_take]; omega
    cases hbad : bad_status fb (Z.deflate zs.state zs.next_in (csize % 4294967296)
        (if fb then Z_FINISH else Z_NO_FLUSH)).err with
    | true =>
      simp only [deflate_loop, hbad, if_true, Option.some.injEq] at h
      subst h
      refine ⟨[], _, rfl, by simp, ?_, rfl, Or.inl ⟨hbad, rfl, rfl⟩⟩
      intro i hi
      simp only [List.nil_append, List.mem_singleton] at hi
      subst hi
      exact ⟨rfl, rfl, hprod _ _, _, rfl, rfl⟩
    | false =>
      by_cases hfull : csize % 4294967296 - ((Z.deflate zs.state zs.next_in (csize % 4294967296)
          (if fb then Z_FINISH else Z_NO_FLUSH)).output.take (csize % 4294967296)).length = 0
      · simp only [deflate_loop, hbad, hfull, if_true, Bool.false_eq_true, if_false] at h
        obtain ⟨pre, last, hlog, hpre, hall, -, hend⟩ := ih _ _ _ _ r h
        refine ⟨⟨if fb then Z_FINISH else Z_NO_FLUSH, zs.next_in, csize % 4294967296,
            (Z.deflate zs.state zs.next_in (csize % 4294967296)
              (if fb then Z_FINISH else Z_NO_FLUSH)).err,
            (Z.deflate zs.state zs.next_in (csize % 4294967296)
              (if fb then Z_FINISH else Z_NO_FLUSH)).output.take (csize % 4294967296)⟩ :: pre,
          last, ?_, ?_, ?_, rfl, ?_⟩
        · rw [hlog]; simp
        · intro i hi
          rcases List.mem_cons.1 hi with hi | hi
          · subst hi; exact ⟨hbad, hfull⟩
          · exact hpre i hi
        · intro i hi
          rw [List.cons_append] at hi
          rcases List.mem_cons.1 hi with hi | hi
          · subst hi; exact ⟨rfl, rfl, hprod _ _, _, rfl, rfl⟩
          · exact hall i hi
        · rcases hend with ⟨h1, h2, h3⟩ | ⟨h1, h2, h3, h4⟩
          · exact Or.inl ⟨h1, h2, by rw [h3]; rfl⟩
          · exact Or.inr ⟨h1, h2, h3, by rw [h4]; rfl⟩
      · simp only [deflate_loop, hbad, hfull, Bool.false_eq_true, if_false,
          Option.some.injEq] at h
        subst h
        refine ⟨[], _, rfl, by simp, ?_, rfl, Or.inr ⟨hbad, hfull, rfl, rfl⟩⟩
        intro i hi
        simp only [List.nil_append, List.mem_singleton] at hi
        subst hi
        exact ⟨rfl, rfl, hprod _ _, _, rfl, rfl⟩

/-- The turns the loop logs are the compressor's answers, starting from the
stream the loop was entered with. -/
theorem deflate_loop_answers {σ : Type} (Z : Zlib σ) (fb : Bool) (csize : Nat) :
    ∀ (fuel : Nat) (out : Sink) (zs : z_stream σ) (cdata : Option (List Nat))
      (log : List Invocation) (r : LoopRet σ),
      deflate_loop Z fb csize fuel out zs cdata log = some r →
      ∃ news, r.log = log ++ news
        ∧ Answers Z (csize % 4294967296) (if fb then Z_FINISH else Z_NO_FLUSH)
            zs.state zs.next_in news := by
  intro fuel
  induction fuel with
  | zero => intro out zs cdata log r h; simp [deflate_loop] at h
  | succ fuel ih =>
    intro out zs cdata log r h
    cases hbad : bad_status fb (Z.deflate zs.state zs.next_in (csize % 4294967296)
        (if fb then Z_FINISH else Z_NO_FLUSH)).err with
    | true =>
      simp only [deflate_loop, hbad, if_true, Option.some.injEq] at h
      subst h
      exact ⟨[_], rfl, rfl, trivial⟩
    | false =>
      by_cases hfull : csize % 4294967296 - ((Z.deflate zs.state zs.next_in (csize % 4294967296)
          (if fb then Z_FINISH else Z_NO_FLUSH)).output.take (csize % 4294967296)).length = 0
      · simp only [deflate_loop, hbad, hfull, if_true, Bool.false_eq_true, if_false] at h
        obtain ⟨news, hlog, hans⟩ := ih _ _ _ _ r h
        refine ⟨_ :: news, ?_, rfl, hans⟩
        rw [hlog]; simp
      · simp only [deflate_loop, hbad, hfull, Bool.false_eq_true, if_false,
          Option.some.injEq] at h
        subst h
        exact ⟨[_], rfl, rfl, trivial⟩

/-- More fuel does not change what the loop returns. -/
theorem deflate_loop_mono {σ : Type} (Z : Zlib σ) (fb : Bool) (csize : Nat) :
    ∀ (fuel : Nat) (out : Sink) (zs : z_stream σ) (cdata : Option (List Nat))
      (log : List Invocation) (r : LoopRet σ),
      deflate_loop Z fb csize fuel out zs cdata log = some r →
      ∀ fuel', fuel ≤ fuel' → deflate_loop Z fb csize fuel' out zs cdata log = some r := by
  intro fuel
  induction fuel with
  | zero => intro out zs cdata log r h; simp [deflate_loop] at h
  | succ fuel ih =>
    intro out zs cdata log r h fuel' hle
    obtain ⟨f, rfl⟩ : ∃ f, fuel' = f + 1 := ⟨fuel' - 1, by omega⟩
    cases hbad : bad_status fb (Z.deflate zs.state zs.next_in (csize % 4294967296)
        (if fb then Z_FINISH else Z_NO_FLUSH)).err with
    | true =>
      simp only [deflate_loop, hbad, if_true] at h ⊢
      exact h
    | false =>
      by_cases hfull : csize % 4294967296 - ((Z.deflate zs.state zs.next_in (csize % 4294967296)
          (if fb then Z_FINISH else Z_NO_FLUSH)).output.take (csize % 4294967296)).length = 0
      · simp only [deflate_loop, hbad, hfull, if_true, Bool.false_eq_true, if_false] at h ⊢
        exact ih _ _ _ _ r h f (by omega)
      · simp only [deflate_loop, hbad, hfull, Bool.false_eq_true, if_false] at h ⊢
        exact h

/-- More fuel does not change what a band call returns. -/
theorem band_mono {σ : Type} (Z : Zlib σ) (fuel : Nat) (out : Option Sink)
    (poc : Option (fz_png_output_context σ)) (stride band bandheight : Int)
    (sp : Option (Int → Nat)) (r : BandRet σ)
    (hr : fz_write_png_band Z fuel out poc stride band bandheight sp = some r)
    (fuel' : Nat) (hle : fuel ≤ fuel') :
    fz_write_png_band Z fuel' out poc stride band bandheight sp = some r := by
  unfold fz_write_png_band at hr ⊢
  split
  · rename_i o s p
    simp only at hr ⊢
    split
    · rename_i hbad
      rw [if_pos hbad] at hr
      exact hr
    · rename_i hgood
      rw [if_neg hgood] at hr
      split at hr
      · exact absurd hr (by simp)
      · rename_i lr hlr
        rw [deflate_loop_mono Z _ _ fuel _ _ _ _ lr hlr fuel' hle]
        exact hr
  · rename_i hnull
    split at hr
    · rename_i o s p
      exact (hnull o s p rfl rfl rfl).elim
    · exact hr

theorem bad_status_iff (fb : Bool) (err : Int) :
    bad_status fb err = true
      ↔ (fb = false ∧ err ≠ Z_OK) ∨ (fb = true ∧ err ≠ Z_STREAM_END) := by
  cases fb <;> simp [bad_status]

/-- A band call whose stream initialisation does not fail is the loop run on
the staged bytes. -/
theorem band_ok_loop {σ : Type} (Z : Zlib σ) (fuel : Nat) (o : Sink)
    (poc : fz_png_output_context σ) (stride band bandheight : Int) (sp : Int → Nat)
    (r : BandRet σ) (hinit : band_init_err Z poc = Z_OK)
    (hr : fz_write_png_band Z fuel (some o) (some poc) stride band bandheight (some sp) = some r) :
    ∃ lr cd, deflate_loop Z (band_final poc.h band bandheight) (band_csize Z poc band bandheight)
          fuel o ⟨band_input poc stride band bandheight sp, band_state Z poc⟩ cd [] = some lr
      ∧ r.out = some lr.out ∧ r.ret = lr.ret ∧ r.log = lr.log
      ∧ ∃ p, r.poc = some p ∧ p.stream = lr.stream
          ∧ p.csize = band_csize Z poc band bandheight ∧ p.udata ≠ none
          ∧ p.w = poc.w ∧ p.h = poc.h ∧ p.n = poc.n ∧ p.alpha = poc.alpha
          ∧ p.savealpha = poc.savealpha := by
  unfold band_init_err at hinit
  unfold band_csize band_state band_input
  cases hu : poc.udata with
  | none =>
    rw [hu] at hinit
    dsimp only at hinit
    simp only [fz_write_png_band, hu, hinit, ne_eq, not_true_eq_false, if_false] at hr
    split at hr
    · exact absurd hr (by simp)
    · rename_i lr hlr
      simp only [Option.some.injEq] at hr
      subst hr
      exact ⟨lr, _, hlr, rfl, rfl, rfl, _, rfl, rfl, rfl, by simp, rfl, rfl, rfl, rfl, rfl⟩
  | some u =>
    simp only [fz_write_png_band, hu, ne_eq, not_true_eq_false, if_false] at hr
    split at hr
    · exact absurd hr (by simp)
    · rename_i lr hlr
      simp only [Option.some.injEq] at hr
      subst hr
      exact ⟨lr, _, hlr, rfl, rfl, rfl, _, rfl, rfl, rfl, by simp, rfl, rfl, rfl, rfl, rfl⟩

theorem putchunk_extends (o tag data : List Nat) (size : Int) :
    o <+: putchunk o tag data size := by
  simp only [putchunk, fz_write, fz_write_int32_be, List.append_assoc]
  exact List.prefix_append _ _

theorem idat_writes_extends (invs : List Invocation) : ∀ o : Sink, o <+: idat_writes o invs := by
  induction invs with
  | nil => intro o; exact List.prefix_refl _
  | cons i rest ih =>
    intro o
    simp only [idat_writes, List.foldl_cons]
    split
    · exact List.IsPrefix.trans (putchunk_extends _ _ _ _) (ih _)
    · exact ih _

/-- C9: for a band call whose stream initialisation does not fail (a later
call, or a first call on which `deflateInit` reports `Z_OK`), with `deflate`
an arbitrary step function: the call throws a compression error exactly when
some `deflate` invocation of the call returned a status other than `Z_OK` on a
non-final band or other than `Z_STREAM_END` on the final band; every
invocation uses `Z_FINISH` on the final band and `Z_NO_FLUSH` otherwise; a
final-band invocation that returns `Z_OK` is the last one of the call and
makes it throw; on a throw the failing invocation is the last one, all earlier
ones returned the expected status, and the sink holds what it held before plus
the chunks of the earlier invocations only; a larger bound on the number of
loop turns gives the same outcome. -/
theorem compressor_status_decides {σ : Type} (Z : Zlib σ) (fuel : Nat) (o : Sink)
    (poc : fz_png_output_context σ) (stride band bandheight : Int) (sp : Int → Nat)
    (r : BandRet σ)
    (hinit : poc.udata ≠ none ∨ (Z.deflateInit poc.stream.state Z_DEFAULT_COMPRESSION).1 = Z_OK)
    (hr : fz_write_png_band Z fuel (some o) (some poc) stride band bandheight (some sp) = some r) :
    ((∃ e, r.ret = .throw (.compression_error e))
        ↔ ∃ i ∈ r.log, (band_final poc.h band bandheight = false ∧ i.err ≠ Z_OK)
                      ∨ (band_final poc.h band bandheight = true ∧ i.err ≠ Z_STREAM_END))
    ∧ (∀ i ∈ r.log,
        i.flush = if band_final poc.h band bandheight then Z_FINISH else Z_NO_FLUSH)
    ∧ (∀ i ∈ r.log, band_final poc.h band bandheight = true → i.err = Z_OK →
        r.ret = .throw (.compression_error Z_OK) ∧ r.log.getLast? = some i)
    ∧ (∀ e, r.ret = .throw e →
        ∃ pre last, r.log = pre ++ [last] ∧ e = .compression_error last.err
          ∧ (∀ i ∈ pre,
              i.err = if band_final poc.h band bandheight then Z_STREAM_END else Z_OK)
          ∧ r.out = some (idat_writes o pre) ∧ o <+: idat_writes o pre)
    ∧ (r.ret = .ok () → r.out = some (idat_writes o r.log))
    ∧ (∀ fuel', fuel ≤ fuel' →
        fz_write_png_band Z fuel' (some o) (some poc) stride band bandheight (some sp)
          = some r) := by
  have hmono := band_mono Z fuel (some o) (some poc) stride band bandheight (some sp) r hr
  have hinit' : band_init_err Z poc = Z_OK := by
    unfold band_init_err
    cases hu : poc.udata with
    | none => rcases hinit with h | h
              · exact absurd hu h
              · exact h
    | some u => rfl
  obtain ⟨lr, cd, hlr, hout, hret, hlog, -⟩ :=
    band_ok_loop Z fuel o poc stride band bandheight sp r hinit' hr
  obtain ⟨pre, last, hl, hpre, hall, -, hend⟩ := deflate_loop_spec Z _ _ _ _ _ _ _ _ hlr
  rw [List.nil_append] at hl
  rw [hout, hret, hlog, hl]
  have hgood : ∀ i ∈ pre,
      i.err = if band_final poc.h band bandheight then Z_STREAM_END else Z_OK := by
    intro i hi
    have := (hpre i hi).1
    cases hfb : band_final poc.h band bandheight <;> simp [bad_status, hfb] at this ⊢ <;>
      exact this
  have hnotbad : ∀ i ∈ pre, ¬ ((band_final poc.h band bandheight = false ∧ i.err ≠ Z_OK)
      ∨ (band_final poc.h band bandheight = true ∧ i.err ≠ Z_STREAM_END)) := by
    intro i hi hb
    rw [← bad_status_iff, (hpre i hi).1] at hb
    exact absurd hb (by simp)
  refine ⟨?_, ?_, ?_, ?_, ?_, hmono⟩
  · constructor
    · rintro ⟨e, he⟩
      rcases hend with ⟨h1, -, -⟩ | ⟨-, -, h3, -⟩
      · exact ⟨last, by simp, (bad_status_iff _ _).1 h1⟩
      · rw [h3] at he; exact absurd he (by simp)
    · rintro ⟨i, hi, hb⟩
      rcases List.mem_append.1 hi with hi | hi
      · exact absurd hb (hnotbad i hi)
      · simp only [List.mem_singleton] at hi
        subst hi
        rcases hend with ⟨-, h2, -⟩ | ⟨h1, -, -, -⟩
        · exact ⟨_, h2⟩
        · rw [← bad_status_iff, h1] at hb
          exact absurd hb (by simp)
  · intro i hi
    exact (hall i hi).1
  · intro i hi hfb herr
    have hb : (band_final poc.h band bandheight = false ∧ i.err ≠ Z_OK)
        ∨ (band_final poc.h band bandheight = true ∧ i.err ≠ Z_STREAM_END) :=
      Or.inr ⟨hfb, by rw [herr]; decide⟩
    rcases List.mem_append.1 hi with hi | hi
    · exact absurd hb (hnotbad i hi)
    · simp only [List.mem_singleton] at hi
      subst hi
      rcases hend with ⟨-, h2, -⟩ | ⟨h1, -, -, -⟩
      · exact ⟨by rw [h2, herr], by simp⟩
      · rw [← bad_status_iff, h1] at hb
        exact absurd hb (by simp)
  · intro e he
    rcases hend with ⟨-, h2, h3⟩ | ⟨-, -, h3, -⟩
    · rw [h2] at he
      simp only [Ret.throw.injEq] at he
      exact ⟨pre, last, rfl, he.symm, hgood, by rw [h3], idat_writes_extends _ _⟩
    · rw [h3] at he; exact absurd he (by simp)
  · intro hok
    rcases hend with ⟨-, h2, -⟩ | ⟨-, -, -, h4⟩
    · rw [h2] at hok; exact absurd hok (by simp)
    · rw [h4]

/-- Witness for C9: the final band of `toy_poc`; the strict toy compressor
fills the four bytes of `cdata` and reports `Z_OK`, and the call throws. -/
theorem compressor_status_decides_witness :
    fz_write_png_band (toy_zlib false) 3 (some [5]) (some toy_poc) 7 0 2 (some toy_samples)
      = some toy_fail_ret
    ∧ ((∃ e, toy_fail_ret.ret = .throw (.compression_error e))
        ↔ ∃ i ∈ toy_fail_ret.log, (band_final toy_poc.h 0 2 = false ∧ i.err ≠ Z_OK)
                      ∨ (band_final toy_poc.h 0 2 = true ∧ i.err ≠ Z_STREAM_END)) :=
  ⟨rfl, (compressor_status_decides (toy_zlib false) 3 [5] toy_poc 7 0 2 toy_samples
      toy_fail_ret (Or.inl (by decide)) rfl).1⟩

/-! ## Termination of the loop and the chunks it writes -/

theorem deflate_loop_returns {σ : Type} (Z : Zlib σ) (μ : σ → List Nat → Nat)
    (hdrain : Drains Z μ) (fb : Bool) (csize : Nat) (hcs : 0 < csize % 4294967296) :
    ∀ (fuel : Nat) (out : Sink) (zs : z_stream σ) (cdata : Option (List Nat))
      (log : List Invocation), μ zs.state zs.next_in < fuel →
      ∃ lr, deflate_loop Z fb csize fuel out zs cdata log = some lr := by
  intro fuel
  induction fuel with
  | zero => intro out zs cdata log h; omega
  | succ fuel ih =>
    intro out zs cdata log h
    cases hbad : bad_status fb (Z.deflate zs.state zs.next_in (csize % 4294967296)
        (if fb then Z_FINISH else Z_NO_FLUSH)).err with
    | true =>
      simp only [deflate_loop, hbad, if_true]
      exact ⟨_, rfl⟩
    | false =>
      by_cases hfull : csize % 4294967296 - ((Z.deflate zs.state zs.next_in (csize % 4294967296)
          (if fb then Z_FINISH else Z_NO_FLUSH)).output.take (csize % 4294967296)).length = 0
      · simp only [deflate_loop, hbad, hfull, if_true, Bool.false_eq_true, if_false]
        apply ih
        have hlen : csize % 4294967296 ≤ (Z.deflate zs.state zs.next_in (csize % 4294967296)
            (if fb then Z_FINISH else Z_NO_FLUSH)).output.length := by
          rw [List.length_take] at hfull; omega
        have := hdrain zs.state zs.next_in _ (if fb then Z_FINISH else Z_NO_FLUSH) hcs hlen
        simp only
        omega
      · simp only [deflate_loop, hbad, hfull, Bool.false_eq_true, if_false]
        exact ⟨_, rfl⟩

theorem toI32_small (v : Nat) (hv : v < 2147483648) : toI32 v = (v : Int) := by
  unfold toI32
  have : v % 4294967296 = v := Nat.mod_eq_of_lt (by omega)
  rw [this, if_pos hv]

theorem idat_writes_eq_chunks (invs : List Invocation)
    (hsz : ∀ i ∈ invs, i.produced.length < 2147483648) :
    ∀ o : Sink, idat_writes o invs = o ++ idat_chunks (idat_payloads invs) := by
  induction invs with
  | nil => intro o; simp [idat_writes, idat_chunks, idat_payloads]
  | cons i rest ih =>
    intro o
    have hrest := ih (fun j hj => hsz j (List.mem_cons_of_mem _ hj))
    have hi := hsz i (List.mem_cons_self _ _)
    have hfold : idat_writes o (i :: rest)
        = idat_writes (if i.produced.length ≠ 0
            then putchunk o tag_IDAT i.produced (toI32 i.produced.length) else o) rest := rfl
    rw [hfold, hrest]
    by_cases hne : i.produced = []
    · simp [hne, idat_payloads]
    · have hlen : i.produced.length ≠ 0 := by
        intro h; exact hne (List.length_eq_zero.1 h)
      rw [if_pos hlen, toI32_small _ hi, putchunk_eq_chunk o tag_IDAT i.produced rfl]
      simp [idat_payloads, idat_chunks, hne]

theorem filter_ne_nil_flatten (l : List (List Nat)) :
    (l.filter fun p => p ≠ []).flatten = l.flatten := by
  induction l with
  | nil => rfl
  | cons p rest ih =>
    rw [List.filter_cons]
    by_cases hne : p = []
    · subst hne
      simpa using ih
    · have hd : decide (p ≠ []) = true := by simpa using hne
      rw [if_pos hd, List.flatten_cons, List.flatten_cons, ih]

theorem idat_payloads_flatten (invs : List Invocation) :
    (idat_payloads invs).flatten = (invs.map fun i => i.produced).flatten :=
  filter_ne_nil_flatten _

theorem idat_payloads_ne_nil (invs : List Invocation) :
    ∀ p ∈ idat_payloads invs, p ≠ [] := by
  intro p hp
  unfold idat_payloads at hp
  simpa using (List.mem_filter.1 hp).2

theorem band_returns {σ : Type} (Z : Zlib σ) (fuel : Nat) (o : Sink)
    (poc : fz_png_output_context σ) (stride band bandheight : Int) (sp : Int → Nat)
    (hinit : band_init_err Z poc = Z_OK)
    (hloop : ∀ cd, ∃ lr, deflate_loop Z (band_final poc.h band bandheight)
        (band_csize Z poc band bandheight) fuel o
        ⟨band_input poc stride band bandheight sp, band_state Z poc⟩ cd [] = some lr) :
    ∃ r, fz_write_png_band Z fuel (some o) (some poc) stride band bandheight (some sp)
      = some r := by
  unfold band_init_err at hinit
  unfold band_csize band_state band_input at hloop
  cases hu : poc.udata with
  | none =>
    rw [hu] at hinit hloop
    dsimp only at hinit hloop
    obtain ⟨lr, hlr⟩ := hloop (some [])
    simp only [fz_write_png_band, hu, hinit, ne_eq, not_true_eq_false, if_false, hlr]
    exact ⟨_, rfl⟩
  | some u =>
    rw [hu] at hloop
    dsimp only at hloop
    obtain ⟨lr, hlr⟩ := hloop poc.cdata
    simp only [fz_write_png_band, hu, ne_eq, not_true_eq_false, if_false, hlr]
    exact ⟨_, rfl⟩

theorem trailer_some_ok {σ : Type} (Z : Zlib σ) (o : Sink) (poc : fz_png_output_context σ)
    (hend : Z.deflateEnd poc.stream.state = Z_OK) :
    fz_write_png_trailer Z (some o) (some poc) = ⟨some (o ++ chunk tag_IEND []), .ok ()⟩ := by
  have hp : putchunk o tag_IEND [] 0 = o ++ chunk tag_IEND [] :=
    putchunk_eq_chunk o tag_IEND [] rfl
  simp only [fz_write_png_trailer, hend, ne_eq, not_true_eq_false, if_false, hp]

theorem png_filter_length (w sn dn stride bh : Int) (sp : Int → Nat) :
    (png_filter w sn dn stride bh sp).length = bh.toNat * (1 + w.toNat * dn.toNat) := by
  unfold png_filter
  rw [filter_rows_length]

theorem band_final_whole (h : Int) : band_final h 0 h = true := by
  simp [band_final]

theorem band_rows_whole (h : Int) : band_rows h 0 h = h := by
  simp [band_rows, band_final]

/-! ## The toy compressor keeps the contracts -/

theorem toy_succeeds : Succeeds (toy_zlib true) := by
  refine ⟨fun _ _ => rfl, fun _ _ _ => ?_, fun _ _ _ => ?_, fun _ => rfl⟩
  · simp [toy_zlib]
  · simp [toy_zlib, Z_NO_FLUSH, Z_FINISH]

theorem toy_drains (lenient : Bool) : Drains (toy_zlib lenient) toy_held := by
  intro s i a fl ha hfull
  simp only [toy_zlib, toy_held, List.length_take, List.length_drop, List.length_append,
    List.drop_length, List.append_nil] at hfull ⊢
  omega

theorem toy_emits (lenient : Bool) : Emits (toy_zlib lenient) := by
  intro s i a ha hi hnil
  have hlen := congrArg List.length hnil
  have hipos : 0 < i.length := List.length_pos.2 hi
  simp only [toy_zlib, List.length_take, List.length_drop, List.length_append,
    List.length_nil] at hlen
  omega

theorem toy_stream_law :
    StreamLaw (toy_zlib false) id (fun s => s.taken) (fun s => s.taken.take s.emitted) := by
  refine ⟨fun _ _ => ⟨rfl, rfl⟩, ?_, ?_, ?_, ?_⟩
  · intro s i a fl
    simp [toy_zlib]
  · intro s i a fl
    simp only [toy_zlib]
    have h1 : s.taken.take s.emitted = s.taken.take (min s.emitted s.taken.length) := by
      rw [List.take_eq_take]; omega
    have h2 : ((List.drop (min s.emitted s.taken.length) (s.taken ++ i)).take a).take a
        = (List.drop (min s.emitted s.taken.length) (s.taken ++ i)).take a := by
      rw [List.take_take, Nat.min_self]
    have h3 : (List.drop (min s.emitted s.taken.length) (s.taken ++ i)).take
          ((List.drop (min s.emitted s.taken.length) (s.taken ++ i)).take a).length
        = (List.drop (min s.emitted s.taken.length) (s.taken ++ i)).take a := by
      rw [List.take_eq_take, List.length_take]; omega
    rw [List.take_add, List.take_append_of_le_length (Nat.min_le_right _ _), h1, h2, h3]
  · intro s i a fl _
    simp [toy_zlib]
  · intro s i a hend
    simp only [toy_zlib, Bool.false_or, decide_True, Bool.true_and] at hend ⊢
    split at hend
    · rename_i hdone
      simp only [decide_eq_true_eq] at hdone
      simp only [id]
      exact List.take_of_length_le hdone
    · exact absurd hend (by decide)

theorem pipe_succeeds : Succeeds pipe_zlib := by
  refine ⟨fun _ _ => rfl, fun _ _ _ => ?_, fun _ _ _ => ?_, fun _ => rfl⟩
  · simp [pipe_zlib]
  · simp [pipe_zlib, Z_NO_FLUSH, Z_FINISH]

theorem pipe_drains : Drains pipe_zlib (fun _ i => i.length) := by
  intro s i a fl ha hfull
  simp only [pipe_zlib, List.length_take, List.length_drop] at hfull ⊢
  omega

theorem pipe_emits : Emits pipe_zlib := by
  intro s i a ha hi hnil
  have hlen := congrArg List.length hnil
  have hipos : 0 < i.length := List.length_pos.2 hi
  simp only [pipe_zlib, List.length_take, List.length_nil] at hlen
  omega

theorem pipe_stream_law : StreamLaw pipe_zlib id (fun s => s.taken) (fun s => s.taken) := by
  refine ⟨fun _ _ => ⟨rfl, rfl⟩, ?_, ?_, ?_, ?_⟩
  · intro s i a fl
    simp only [pipe_zlib]
    congr 1
    rw [List.take_eq_take]
    omega
  · intro s i a fl
    simp only [pipe_zlib, List.take_take, Nat.min_self]
  · intro s i a fl h
    simp only [pipe_zlib, List.length_take] at h ⊢
    omega
  · intro s i a _
    rfl

theorem hold_stream_law :
    StreamLaw hold_zlib id (fun s => s.taken) (fun s => s.taken.take s.emitted) := by
  refine ⟨fun _ _ => ⟨rfl, rfl⟩, ?_, ?_, ?_, ?_⟩
  · intro s i a fl
    simp [hold_zlib]
  · intro s i a fl
    simp only [hold_zlib]
    have h1 : s.taken.take s.emitted = s.taken.take (min s.emitted s.taken.length) := by
      rw [List.take_eq_take]; omega
    by_cases hfl : fl = Z_FINISH
    · simp only [hfl, if_true]
      have h2 : ((List.drop (min s.emitted s.taken.length) (s.taken ++ i)).take a).take a
          = (List.drop (min s.emitted s.taken.length) (s.taken ++ i)).take a := by
        rw [List.take_take, Nat.min_self]
      have h3 : (List.drop (min s.emitted s.taken.length) (s.taken ++ i)).take
            ((List.drop (min s.emitted s.taken.length) (s.taken ++ i)).take a).length
          = (List.drop (min s.emitted s.taken.length) (s.taken ++ i)).take a := by
        rw [List.take_eq_take, List.length_take]; omega
      rw [List.take_add, List.take_append_of_le_length (Nat.min_le_right _ _), h1, h2, h3]
    · simp only [hfl, if_false, List.length_nil, Nat.add_zero, List.take_nil, List.append_nil]
      rw [List.take_append_of_le_length (Nat.min_le_right _ _), h1]
  · intro s i a fl _
    simp [hold_zlib]
  · intro s i a hend
    have e : (Z_FINISH = Z_FINISH) = True := eq_self Z_FINISH
    simp only [hold_zlib, e, if_true, true_and] at hend ⊢
    split at hend
    · rename_i hdone
      simp only [id]
      exact List.take_of_length_le hdone
    · exact absurd hend (by decide)

/-! ## Banding: C7 -/

theorem filter_pixel_shift (sp : Int → Nat) (d sn : Int) (dn x : Nat) (off : Int) :
    filter_pixel (fun k => sp (k + d)) sn dn x off = filter_pixel sp sn dn x (off + d) := by
  unfold filter_pixel
  apply List.map_congr_left
  intro k _
  have e1 : off + (k : Int) + d = off + d + k := by ring
  have e2 : off + (k : Int) - sn + d = off + d + k - sn := by ring
  simp only [e1, e2]

theorem filter_pixels_shift (sp : Int → Nat) (d sn : Int) (dn : Nat) :
    ∀ (cnt x : Nat) (off : Int),
      (filter_pixels (fun k => sp (k + d)) sn dn cnt x off).1
        = (filter_pixels sp sn dn cnt x (off + d)).1 := by
  intro cnt
  induction cnt with
  | zero => intro x off; rfl
  | succ cnt ih =>
    intro x off
    simp only [filter_pixels, filter_pixel_shift, ih]
    rw [show off + sn + d = off + d + sn by ring]

theorem filter_rows_shift (sp : Int → Nat) (d : Int) (w : Nat) (sn : Int) (dn : Nat)
    (skip : Int) :
    ∀ (cnt : Nat) (off : Int),
      filter_rows (fun k => sp (k + d)) w sn dn skip cnt off
        = filter_rows sp w sn dn skip cnt (off + d) := by
  intro cnt
  induction cnt with
  | zero => intro off; rfl
  | succ cnt ih =>
    intro off
    simp only [filter_rows, filter_pixels_shift, ih, (filter_pixels_spec _ sn dn w 0 _).1]
    rw [show off + (w : Int) * sn + skip + d = off + d + (w : Int) * sn + skip by ring]

theorem filter_rows_add (sp : Int → Nat) (w : Nat) (sn : Int) (dn : Nat) (skip : Int) :
    ∀ (a c : Nat) (off : Int),
      filter_rows sp w sn dn skip (a + c) off
        = filter_rows sp w sn dn skip a off
          ++ filter_rows sp w sn dn skip c (off + a * (w * sn + skip)) := by
  intro a
  induction a with
  | zero => intro c off; simp [filter_rows]
  | succ a ih =>
    intro c off
    rw [show a + 1 + c = (a + c) + 1 by omega]
    have e : off + (w : Int) * sn + skip + (a : Int) * ((w : Int) * sn + skip)
        = off + ((a + 1 : Nat) : Int) * ((w : Int) * sn + skip) := by
      push_cast; ring
    simp only [filter_rows, ih, (filter_pixels_spec _ sn dn w 0 _).1, List.append_assoc,
      List.cons_append, e]

/-- Filtering `m` bands of `b` rows one after the other, then `rem` rows, is
filtering `m * b + rem` rows at once. -/
theorem filter_rows_bands (sp : Int → Nat) (w : Nat) (sn : Int) (dn : Nat) (skip : Int)
    (b rem : Nat) :
    ∀ m : Nat,
      ((List.range m).flatMap fun (i : Nat) =>
          filter_rows sp w sn dn skip b (0 + ((i * b : Nat) : Int) * (w * sn + skip)))
        ++ filter_rows sp w sn dn skip rem (0 + ((m * b : Nat) : Int) * (w * sn + skip))
        = filter_rows sp w sn dn skip (m * b + rem) 0 := by
  intro m
  induction m generalizing rem with
  | zero => simp
  | succ m ih =>
    rw [List.range_succ, List.flatMap_append]
    simp only [List.flatMap_cons, List.flatMap_nil, List.append_nil, List.append_assoc]
    have := ih (b + rem)
    rw [filter_rows_add sp w sn dn skip b rem] at this
    rw [show (m + 1) * b + rem = m * b + (b + rem) by ring, ← this]
    congr 3
    push_cast
    ring

theorem band_count_spec (h b : Int) (hb : 1 ≤ b) (hbh : b ≤ h) :
    ∃ m : Nat, band_count h b = m + 1 ∧ (m : Int) * b < h ∧ h ≤ (m : Int) * b + b := by
  have hbpos : 0 < b := by omega
  have h1 : (h + b - 1) / b * b ≤ h + b - 1 := Int.ediv_mul_le _ (by omega)
  have h2 : h + b - 1 < ((h + b - 1) / b + 1) * b := Int.lt_ediv_add_one_mul_self _ hbpos
  have hq : 1 ≤ (h + b - 1) / b := by
    by_contra hcon
    have hq0 : (h + b - 1) / b + 1 ≤ 1 := by omega
    have : ((h + b - 1) / b + 1) * b ≤ 1 * b := Int.mul_le_mul_of_nonneg_right hq0 (by omega)
    omega
  refine ⟨((h + b - 1) / b).toNat - 1, ?_, ?_, ?_⟩
  · unfold band_count; omega
  · have hm : ((((h + b - 1) / b).toNat - 1 : Nat) : Int) = (h + b - 1) / b - 1 := by omega
    rw [hm]
    nlinarith
  · have hm : ((((h + b - 1) / b).toNat - 1 : Nat) : Int) = (h + b - 1) / b - 1 := by omega
    rw [hm]
    nlinarith

theorem flatMap_range_congr {α : Type} (f g : Nat → List α) :
    ∀ m, (∀ i, i < m → f i = g i) → (List.range m).flatMap f = (List.range m).flatMap g := by
  intro m
  induction m with
  | zero => intro _; rfl
  | succ m ih =>
    intro h
    rw [List.range_succ, List.flatMap_append, List.flatMap_append,
      ih (fun i hi => h i (by omega))]
    simp [h m (by omega)]

/-- The bytes a band call hands over, as rows filtered from the whole image:
the rows of the band, starting at the band's first row. -/
theorem band_input_rows {σ : Type} (poc : fz_png_output_context σ) (stride band b : Int)
    (samples : Int → Nat) (hw : 0 ≤ poc.w) (rows first : Nat)
    (hrows : band_rows poc.h band b = rows) (hfirst : band * b = first)
    (hsz : rows * (1 + poc.w.toNat * (poc.n - poc.alpha + poc.savealpha).toNat) < 4294967296) :
    band_input poc stride band b (row_ptr samples stride (band * b))
      = filter_rows samples poc.w.toNat poc.n (poc.n - poc.alpha + poc.savealpha).toNat
          (stride - poc.w * poc.n) rows
          (0 + (first : Int) * (poc.w.toNat * poc.n + (stride - poc.w * poc.n))) := by
  have hlen := png_filter_length poc.w poc.n (poc.n - poc.alpha + poc.savealpha) stride
    (band_rows poc.h band b) (row_ptr samples stride (band * b))
  rw [hrows, Int.toNat_ofNat] at hlen
  unfold band_input
  rw [hrows, hlen, Nat.mod_eq_of_lt hsz, ← hlen, List.take_length]
  unfold png_filter row_ptr
  rw [Int.toNat_ofNat, filter_rows_shift, hfirst]
  congr 1
  have : ((poc.w.toNat : Nat) : Int) = poc.w := Int.toNat_of_nonneg hw
  rw [this]
  ring

theorem row_ptr_zero (samples : Int → Nat) (stride : Int) : row_ptr samples stride 0 = samples := by
  funext k
  simp [row_ptr]

/-- The bands of height `b` of an image of height `h`, fed one after the
other, give the compressor the bytes of the single band of height `h`. -/
theorem band_inputs_concat {σ : Type} (poc : fz_png_output_context σ) (stride b : Int)
    (samples : Int → Nat) (hw : 0 ≤ poc.w) (hb : 1 ≤ b) (hbh : b ≤ poc.h)
    (hsz : poc.h.toNat * (1 + poc.w.toNat * (poc.n - poc.alpha + poc.savealpha).toNat)
            < 4294967296) :
    ((List.range (band_count poc.h b)).flatMap fun (i : Nat) =>
        band_input poc stride (i : Int) b (row_ptr samples stride ((i : Int) * b)))
      = band_input poc stride 0 poc.h samples := by
  obtain ⟨m, hk, hlo, hhi⟩ := band_count_spec poc.h b hb hbh
  have hB : ((b.toNat : Nat) : Int) = b := Int.toNat_of_nonneg (by omega)
  have hH : ((poc.h.toNat : Nat) : Int) = poc.h := Int.toNat_of_nonneg (by omega)
  have hBH : b.toNat ≤ poc.h.toNat := by omega
  have hmB : ((m * b.toNat : Nat) : Int) = (m : Int) * b := by push_cast; rw [hB]
  have hrem : ((poc.h.toNat - m * b.toNat : Nat) : Int) = poc.h - (m : Int) * b := by
    have : m * b.toNat ≤ poc.h.toNat := by
      have : ((m * b.toNat : Nat) : Int) ≤ ((poc.h.toNat : Nat) : Int) := by
        rw [hmB, hH]; omega
      exact_mod_cast this
    rw [Nat.cast_sub this, hmB, hH]
  have hsum : m * b.toNat + (poc.h.toNat - m * b.toNat) = poc.h.toNat := by
    have : ((m * b.toNat : Nat) : Int) ≤ ((poc.h.toNat : Nat) : Int) := by
      rw [hmB, hH]; omega
    have : m * b.toNat ≤ poc.h.toNat := by exact_mod_cast this
    omega
  -- the non-final bands
  have hfull : ∀ i, i < m →
      band_input poc stride (i : Int) b (row_ptr samples stride ((i : Int) * b))
        = filter_rows samples poc.w.toNat poc.n (poc.n - poc.alpha + poc.savealpha).toNat
            (stride - poc.w * poc.n) b.toNat
            (0 + ((i * b.toNat : Nat) : Int) * (poc.w.toNat * poc.n + (stride - poc.w * poc.n))) := by
    intro i hi
    apply band_input_rows poc stride i b samples hw
    · have hnf : band_final poc.h i b = false := by
        have h1 : (i : Int) + 1 ≤ m := by exact_mod_cast hi
        have h2 : ((i : Int) + 1) * b ≤ (m : Int) * b :=
          Int.mul_le_mul_of_nonneg_right h1 (by omega)
        have h3 : ((i : Int) + 1) * b = i * b + b := by ring
        simp only [band_final, ge_iff_le, decide_eq_false_iff_not, not_le]
        omega
      simp only [band_rows, hnf, Bool.false_eq_true, if_false, hB]
    · push_cast; rw [hB]
    · exact lt_of_le_of_lt (Nat.mul_le_mul_right _ hBH) hsz
  -- the final band
  have hlast : band_input poc stride (m : Int) b (row_ptr samples stride ((m : Int) * b))
      = filter_rows samples poc.w.toNat poc.n (poc.n - poc.alpha + poc.savealpha).toNat
          (stride - poc.w * poc.n) (poc.h.toNat - m * b.toNat)
          (0 + ((m * b.toNat : Nat) : Int) * (poc.w.toNat * poc.n + (stride - poc.w * poc.n))) := by
    apply band_input_rows poc stride m b samples hw
    · have hf : band_final poc.h m b = true := by
        simp only [band_final, ge_iff_le, decide_eq_true_eq]
        omega
      simp only [band_rows, hf, if_true, hrem]
    · exact hmB.symm
    · exact lt_of_le_of_lt (Nat.mul_le_mul_right _ (Nat.sub_le _ _)) hsz
  -- the single band
  have hwhole : band_input poc stride 0 poc.h samples
      = filter_rows samples poc.w.toNat poc.n (poc.n - poc.alpha + poc.savealpha).toNat
          (stride - poc.w * poc.n) poc.h.toNat 0 := by
    have := band_input_rows poc stride 0 poc.h samples hw poc.h.toNat 0
      (by rw [band_rows_whole, hH]) (by simp) hsz
    rw [Int.zero_mul, row_ptr_zero] at this
    rw [this]
    simp
  rw [hk, List.range_succ, List.flatMap_append,
    flatMap_range_congr _ _ m hfull, hwhole]
  simp only [List.flatMap_cons, List.flatMap_nil, List.append_nil, hlast]
  rw [filter_rows_bands, hsum]

theorem deflate_loop_hist {σ : Type} (Z : Zlib σ) (F : List Nat → List Nat)
    (hin hout : σ → List Nat) (hlaw : StreamLaw Z F hin hout) (fb : Bool) (csize : Nat) :
    ∀ (fuel : Nat) (out : Sink) (zs : z_stream σ) (cdata : Option (List Nat))
      (log : List Invocation) (lr : LoopRet σ),
      deflate_loop Z fb csize fuel out zs cdata log = some lr → lr.ret = .ok () →
      ∃ new, lr.log = log ++ new
        ∧ hin lr.stream.state = hin zs.state ++ zs.next_in
        ∧ hout lr.stream.state = hout zs.state ++ (new.map fun i => i.produced).flatten
        ∧ (fb = true → hout lr.stream.state = F (hin lr.stream.state)) := by
  obtain ⟨-, hstep_in, hstep_out, hroom, hfin⟩ := hlaw
  intro fuel
  induction fuel with
  | zero => intro out zs cdata log lr h; simp [deflate_loop] at h
  | succ fuel ih =>
    intro out zs cdata log lr h hok
    cases hbad : bad_status fb (Z.deflate zs.state zs.next_in (csize % 4294967296)
        (if fb then Z_FINISH else Z_NO_FLUSH)).err with
    | true =>
      simp only [deflate_loop, hbad, if_true, Option.some.injEq] at h
      subst h
      exact absurd hok (by simp)
    | false =>
      by_cases hfull : csize % 4294967296 - ((Z.deflate zs.state zs.next_in (csize % 4294967296)
          (if fb then Z_FINISH else Z_NO_FLUSH)).output.take (csize % 4294967296)).length = 0
      · simp only [deflate_loop, hbad, hfull, if_true, Bool.false_eq_true, if_false] at h
        obtain ⟨new, hlog, hi, ho, hf⟩ := ih _ _ _ _ lr h hok
        refine ⟨⟨if fb then Z_FINISH else Z_NO_FLUSH, zs.next_in, csize % 4294967296,
            (Z.deflate zs.state zs.next_in (csize % 4294967296)
              (if fb then Z_FINISH else Z_NO_FLUSH)).err,
            (Z.deflate zs.state zs.next_in (csize % 4294967296)
              (if fb then Z_FINISH else Z_NO_FLUSH)).output.take (csize % 4294967296)⟩ :: new,
          by rw [hlog]; simp, ?_, ?_, hf⟩
        · rw [hi]
          simp only
          rw [hstep_in, List.append_assoc, List.take_append_drop]
        · rw [ho]
          simp only
          rw [hstep_out]
          simp
      · simp only [deflate_loop, hbad, hfull, Bool.false_eq_true, if_false,
          Option.some.injEq] at h
        subst h
        have hlt : ((Z.deflate zs.state zs.next_in (csize % 4294967296)
            (if fb then Z_FINISH else Z_NO_FLUSH)).output.take (csize % 4294967296)).length
            < csize % 4294967296 := by
          have := List.length_take_le (csize % 4294967296) (Z.deflate zs.state zs.next_in
            (csize % 4294967296) (if fb then Z_FINISH else Z_NO_FLUSH)).output
          omega
        have hall := hroom _ _ _ _ hlt
        refine ⟨[_], rfl, ?_, ?_, ?_⟩
        · simp only
          rw [hstep_in, List.take_of_length_le hall]
        · simp only
          rw [hstep_out]
          simp
        · intro hfb
          subst hfb
          simp only [if_true] at hbad ⊢
          apply hfin
          simpa [bad_status] using hbad

theorem band_ok_init {σ : Type} (Z : Zlib σ) (fuel : Nat) (o : Sink)
    (poc : fz_png_output_context σ) (stride band bandheight : Int) (sp : Int → Nat)
    (r : BandRet σ)
    (hr : fz_write_png_band Z fuel (some o) (some poc) stride band bandheight (some sp) = some r)
    (hok : r.ret = .ok ()) : band_init_err Z poc = Z_OK := by
  by_contra hcon
  unfold band_init_err at hcon
  cases hu : poc.udata with
  | none =>
    rw [hu] at hcon
    dsimp only at hcon
    simp only [fz_write_png_band, hu, ne_eq, hcon, not_false_eq_true, if_true,
      Option.some.injEq] at hr
    subst hr
    exact absurd hok (by simp)
  | some u =>
    rw [hu] at hcon
    exact hcon rfl

/-- A band call that returns normally, seen through the history of a
stream compressor. -/
theorem band_hist {σ : Type} (Z : Zlib σ) (F : List Nat → List Nat)
    (hin hout : σ → List Nat) (hlaw : StreamLaw Z F hin hout) (fuel : Nat) (o : Sink)
    (poc : fz_png_output_context σ) (stride band b : Int) (sp : Int → Nat) (r : BandRet σ)
    (hr : fz_write_png_band Z fuel (some o) (some poc) stride band b (some sp) = some r)
    (hok : r.ret = .ok ()) (hcs : band_csize Z poc band b < 2147483648) :
    ∃ p, r.poc = some p ∧ p.udata ≠ none ∧ p.csize = band_csize Z poc band b
      ∧ (p.w = poc.w ∧ p.h = poc.h ∧ p.n = poc.n ∧ p.alpha = poc.alpha
          ∧ p.savealpha = poc.savealpha)
      ∧ hin p.stream.state = hin (band_state Z poc) ++ band_input poc stride band b sp
      ∧ hout p.stream.state = hout (band_state Z poc) ++ (idat_payloads r.log).flatten
      ∧ r.out = some (o ++ idat_chunks (idat_payloads r.log))
      ∧ (band_final poc.h band b = true → hout p.stream.state = F (hin p.stream.state))
      ∧ r.log.head?.map (fun i => i.input) = some (band_input poc stride band b sp) := by
  have hinit := band_ok_init Z fuel o poc stride band b sp r hr hok
  obtain ⟨lr, cd, hlr, hout', hret, hlog, p, hp, hpstream, hpcs, hpu, hfields⟩ :=
    band_ok_loop Z fuel o poc stride band b sp r hinit hr
  have hlrok : lr.ret = .ok () := by rw [← hret]; exact hok
  obtain ⟨new, hnew, hi, ho, hf⟩ :=
    deflate_loop_hist Z F hin hout hlaw _ _ _ _ _ _ _ _ hlr hlrok
  obtain ⟨pre, last, hl, -, hall, hhead, hend⟩ := deflate_loop_spec Z _ _ _ _ _ _ _ _ hlr
  rw [List.nil_append] at hnew hl
  have hsmall : ∀ i ∈ pre ++ [last], i.produced.length < 2147483648 := by
    intro i hi
    obtain ⟨-, ha, hle, -⟩ := hall i hi
    have := Nat.mod_le (band_csize Z poc band b) 4294967296
    omega
  have hsink : lr.out = o ++ idat_chunks (idat_payloads lr.log) := by
    rcases hend with ⟨-, h2, -⟩ | ⟨-, -, -, h4⟩
    · rw [h2] at hlrok; exact absurd hlrok (by simp)
    · rw [h4, idat_writes_eq_chunks _ hsmall, hl]
  refine ⟨p, hp, hpu, hpcs, hfields, ?_, ?_, ?_, ?_, ?_⟩
  · rw [hpstream, hi]
  · rw [hpstream, ho, hlog, idat_payloads_flatten, hnew]
  · rw [hout', hsink, hlog]
  · rw [hpstream]; exact hf
  · rw [hlog, hl]; exact hhead

theorem band_input_congr {σ : Type} (p q : fz_png_output_context σ)
    (h : p.w = q.w ∧ p.h = q.h ∧ p.n = q.n ∧ p.alpha = q.alpha ∧ p.savealpha = q.savealpha)
    (stride band b : Int) (sp : Int → Nat) :
    band_input p stride band b sp = band_input q stride band b sp := by
  obtain ⟨h1, h2, h3, h4, h5⟩ := h
  unfold band_input
  rw [h1, h2, h3, h4, h5]

theorem idat_payloads_append (a b : List Invocation) :
    idat_payloads (a ++ b) = idat_payloads a ++ idat_payloads b := by
  simp [idat_payloads]

theorem idat_chunks_append (a b : List (List Nat)) :
    idat_chunks (a ++ b) = idat_chunks a ++ idat_chunks b := by
  simp [idat_chunks]

/-- A sequence of band calls on an initialised state that returns normally. -/
theorem write_bands_hist {σ : Type} (Z : Zlib σ) (F : List Nat → List Nat)
    (hin hout : σ → List Nat) (hlaw : StreamLaw Z F hin hout) (fuel : Nat) (stride b : Int)
    (samples : Int → Nat) :
    ∀ (cnt : Nat) (i : Int) (o : Sink) (p : fz_png_output_context σ)
      (calls : List (List Invocation)) (rb : BandsRet σ),
      write_bands Z fuel stride b samples cnt i (some o) (some p) calls = some rb →
      rb.ret = .ok () → p.udata ≠ none → p.csize < 2147483648 →
      ∃ pf news, rb.poc = some pf ∧ rb.calls = calls ++ news
        ∧ hin pf.stream.state = hin p.stream.state
            ++ ((List.range cnt).flatMap fun (j : Nat) =>
                  band_input p stride (i + j) b (row_ptr samples stride ((i + j) * b)))
        ∧ hout pf.stream.state = hout p.stream.state ++ (idat_payloads news.flatten).flatten
        ∧ rb.out = some (o ++ idat_chunks (idat_payloads news.flatten))
        ∧ (1 ≤ cnt → band_final p.h (i + cnt - 1) b = true →
            hout pf.stream.state = F (hin pf.stream.state))
        ∧ news.map (fun l => l.head?.map fun t => t.input)
            = (List.range cnt).map fun (j : Nat) =>
                some (band_input p stride (i + j) b (row_ptr samples stride ((i + j) * b))) := by
  intro cnt
  induction cnt with
  | zero =>
    intro i o p calls rb h hok hu hcs
    simp only [write_bands, Option.some.injEq] at h
    subst h
    exact ⟨p, [], rfl, by simp, by simp, by simp [idat_payloads],
      by simp [idat_payloads, idat_chunks], fun h1 => by omega, by simp⟩
  | succ cnt ih =>
    intro i o p calls rb h hok hu hcs
    have hstate : band_state Z p = p.stream.state := by
      unfold band_state
      cases hpu : p.udata with
      | none => exact absurd hpu hu
      | some u => rfl
    have hcsz : ∀ band, band_csize Z p band b = p.csize := by
      intro band
      unfold band_csize
      cases hpu : p.udata with
      | none => exact absurd hpu hu
      | some u => rfl
    simp only [write_bands] at h
    split at h
    · exact absurd h (by simp)
    · rename_i r hr
      split at h
      · simp only [Option.some.injEq] at h
        subst h
        exact absurd hok (by simp)
      · rename_i hrok
        have hrok' : r.ret = .ok () := hrok
        obtain ⟨p1, hp1, hp1u, hp1cs, hfields, hi1, ho1, hout1, hf1, hhead1⟩ :=
          band_hist Z F hin hout hlaw fuel o p stride i b _ r hr hrok'
            (by rw [hcsz]; exact hcs)
        rw [hstate] at hi1 ho1
        rw [hout1, hp1] at h
        obtain ⟨pf, news, hpf, hcalls, hi2, ho2, hout2, hf2, hheads⟩ :=
          ih (i + 1) _ p1 _ rb h hok hp1u (by rw [hp1cs, hcsz]; exact hcs)
        have hcongr : ∀ j : Nat,
            band_input p1 stride (i + 1 + (j : Int)) b
                (row_ptr samples stride ((i + 1 + (j : Int)) * b))
              = band_input p stride (i + ((j + 1 : Nat) : Int)) b
                  (row_ptr samples stride ((i + ((j + 1 : Nat) : Int)) * b)) := by
          intro j
          rw [band_input_congr p1 p hfields]
          have e : i + 1 + (j : Int) = i + ((j + 1 : Nat) : Int) := by push_cast; ring
          rw [e]
        have hzero : i + ((0 : Nat) : Int) = i := by simp
        refine ⟨pf, r.log :: news, hpf, by rw [hcalls]; simp, ?_, ?_, ?_, ?_, ?_⟩
        · rw [hi2, hi1, List.append_assoc, List.range_succ_eq_map, List.flatMap_cons,
            List.flatMap_map]
          rw [hzero]
          congr 2
          apply flatMap_range_congr
          intro j _
          exact hcongr j
        · rw [ho2, ho1, List.append_assoc, List.flatten_cons, idat_payloads_append,
            List.flatten_append]
        · rw [hout2, List.flatten_cons, idat_payloads_append, idat_chunks_append,
            List.append_assoc]
        · intro _ hfin
          by_cases hc : cnt = 0
          · subst hc
            have hfin' : band_final p.h i b = true := by
              have e : i + ((0 + 1 : Nat) : Int) - 1 = i := by push_cast; ring
              rw [e] at hfin; exact hfin
            have h1 := hf1 hfin'
            simp only [List.range_zero, List.flatMap_nil, List.append_nil] at hi2
            have hnews : news = [] := by
              simp only [write_bands, Option.some.injEq] at h
              subst h
              simpa using hcalls
            subst hnews
            simp only [List.flatten_nil, idat_payloads, List.map_nil, List.filter_nil,
              List.append_nil] at ho2
            rw [ho2, hi2]; exact h1
          · apply hf2 (by omega)
            have e : i + 1 + (cnt : Int) - 1 = i + ((cnt + 1 : Nat) : Int) - 1 := by
              push_cast; ring
            rw [hfields.2.1, e]
            exact hfin
        · rw [List.map_cons, hheads, hhead1, List.range_succ_eq_map, List.map_cons, List.map_map,
            hzero]
          congr 1
          apply List.map_congr_left
          intro j _
          simp only [Function.comp, hcongr j, Nat.succ_eq_add_one]

/-- Banding when nothing throws: for an image of height `h ≥ 1`, a band
height `b` with `1 ≤ b ≤ h` and a state fresh from the header (the staged
length is below `2^31`, as line 164 needs, and the scratch sizes fit `int`), the bytes handed
to the compressor by the calls for bands `0 .. ceil(h/b) - 1`, each given the
pointer to its first row, are, concatenated, the bytes handed over by the
single call for band 0 of height `h`; and with a compressor whose output
stream depends only on the concatenation of its inputs, whenever the banded
encode and the one-call encode both return normally, the banded encode made
`ceil(h/b)` calls, each fed its band, both sinks hold the old contents
followed by IDAT chunks only, and the IDAT payloads concatenated are the same
bytes in both, namely the compressor's stream for the filtered image. -/
theorem banding_agrees_on_return {σ : Type} (Z : Zlib σ) (F : List Nat → List Nat)
    (hin hout : σ → List Nat) (hlaw : StreamLaw Z F hin hout)
    (poc : fz_png_output_context σ) (hu : poc.udata = none) (stride b : Int)
    (samples : Int → Nat) (hw : 0 ≤ poc.w) (hb : 1 ≤ b) (hbh : b ≤ poc.h)
    (hsz : poc.h.toNat * (1 + poc.w.toNat * (poc.n - poc.alpha + poc.savealpha).toNat)
            < 2147483648)
    (hcsb : band_csize Z poc 0 b < 2147483648)
    (hcs1 : band_csize Z poc 0 poc.h < 2147483648) :
    (((List.range (band_count poc.h b)).flatMap fun (i : Nat) =>
        band_input poc stride (i : Int) b (row_ptr samples stride ((i : Int) * b)))
      = band_input poc stride 0 poc.h samples)
    ∧ ∀ (fuel1 fuel2 : Nat) (o : Sink) (rb : BandsRet σ) (r1 : BandRet σ),
        write_bands Z fuel1 stride b samples (band_count poc.h b) 0 (some o) (some poc) []
          = some rb →
        rb.ret = .ok () →
        fz_write_png_band Z fuel2 (some o) (some poc) stride 0 poc.h (some samples) = some r1 →
        r1.ret = .ok () →
        rb.calls.map (fun l => l.head?.map fun t => t.input)
            = (List.range (band_count poc.h b)).map (fun (i : Nat) =>
                some (band_input poc stride (i : Int) b (row_ptr samples stride ((i : Int) * b))))
        ∧ r1.log.head?.map (fun t => t.input) = some (band_input poc stride 0 poc.h samples)
        ∧ rb.out = some (o ++ idat_chunks (idat_payloads rb.calls.flatten))
        ∧ r1.out = some (o ++ idat_chunks (idat_payloads r1.log))
        ∧ (idat_payloads rb.calls.flatten).flatten = (idat_payloads r1.log).flatten
        ∧ (idat_payloads r1.log).flatten = F (band_input poc stride 0 poc.h samples) := by
  have hpart1 := band_inputs_concat poc stride b samples hw hb hbh (by omega)
  refine ⟨hpart1, ?_⟩
  intro fuel1 fuel2 o rb r1 hrb hrbok hr1 hr1ok
  have hinit0 : hin (band_state Z poc) = [] ∧ hout (band_state Z poc) = [] := by
    unfold band_state
    rw [hu]
    exact hlaw.1 _ _
  -- the one-call encode
  obtain ⟨q, -, -, -, -, hqi, hqo, hqout, hqf, hqhead⟩ :=
    band_hist Z F hin hout hlaw fuel2 o poc stride 0 poc.h samples r1 hr1 hr1ok hcs1
  rw [hinit0.1, List.nil_append] at hqi
  rw [hinit0.2, List.nil_append] at hqo
  have hsingle : (idat_payloads r1.log).flatten = F (band_input poc stride 0 poc.h samples) := by
    rw [← hqo, hqf (band_final_whole _), hqi]
  -- the banded encode: the first call, then the others
  obtain ⟨m, hk, hlo, hhi⟩ := band_count_spec poc.h b hb hbh
  rw [hk] at hrb
  simp only [write_bands] at hrb
  split at hrb
  · exact absurd hrb (by simp)
  rename_i r hr
  split at hrb
  · simp only [Option.some.injEq] at hrb
    subst hrb
    exact absurd hrbok (by simp)
  rename_i hrok
  have hrok' : r.ret = .ok () := hrok
  obtain ⟨p1, hp1, hp1u, hp1cs, hfields, hi1, ho1, hout1, hf1, hhead1⟩ :=
    band_hist Z F hin hout hlaw fuel1 o poc stride 0 b _ r hr hrok' hcsb
  rw [hinit0.1, List.nil_append] at hi1
  rw [hinit0.2, List.nil_append] at ho1
  rw [hout1, hp1] at hrb
  obtain ⟨pf, news, hpf, hcalls, hi2, ho2, hout2, hf2, hheads⟩ :=
    write_bands_hist Z F hin hout hlaw fuel1 stride b samples m (0 + 1) _ p1 _ rb hrb hrbok
      hp1u (by rw [hp1cs]; exact hcsb)
  have hcongr : ∀ j : Nat,
      band_input p1 stride (0 + 1 + (j : Int)) b
          (row_ptr samples stride ((0 + 1 + (j : Int)) * b))
        = band_input poc stride (((j + 1 : Nat) : Int)) b
            (row_ptr samples stride (((j + 1 : Nat) : Int) * b)) := by
    intro j
    rw [band_input_congr p1 poc hfields]
    have e : 0 + 1 + (j : Int) = ((j + 1 : Nat) : Int) := by push_cast; ring
    rw [e]
  have hcast0 : ((0 : Nat) : Int) = 0 := rfl
  rw [List.nil_append, List.singleton_append] at hcalls
  -- all the input went in, in order
  have hin_all : hin pf.stream.state = band_input poc stride 0 poc.h samples := by
    rw [hi2, hi1, ← hpart1, hk, List.range_succ_eq_map, List.flatMap_cons, List.flatMap_map,
      hcast0]
    congr 1
    apply flatMap_range_congr
    intro j _
    simp only [Function.comp, hcongr j, Nat.succ_eq_add_one]
  -- the last call was the final band
  have hfinal : hout pf.stream.state = F (hin pf.stream.state) := by
    by_cases hm : m = 0
    · subst hm
      have hfin0 : band_final poc.h 0 b = true := by
        simp only [band_final, ge_iff_le, decide_eq_true_eq]
        simp only [Nat.cast_zero, zero_mul, zero_add] at hhi
        omega
      have h1 := hf1 hfin0
      simp only [write_bands, Option.some.injEq] at hrb
      subst hrb
      simp only [Option.some.injEq] at hpf
      subst hpf
      exact h1
    · apply hf2 (by omega)
      rw [hfields.2.1]
      simp only [band_final, ge_iff_le, decide_eq_true_eq]
      have e : (0 + 1 + (m : Int) - 1) * b = (m : Int) * b := by ring
      rw [e]
      exact hhi
  have hpay : (idat_payloads rb.calls.flatten).flatten
      = F (band_input poc stride 0 poc.h samples) := by
    rw [hcalls, List.flatten_cons, idat_payloads_append, List.flatten_append, ← ho1, ← ho2,
      hfinal, hin_all]
  refine ⟨?_, hqhead, ?_, hqout, ?_, hsingle⟩
  · rw [hcalls, List.map_cons, hheads, hhead1, hk, List.range_succ_eq_map, List.map_cons,
      List.map_map, hcast0, Int.zero_mul]
    congr 1
    apply List.map_congr_left
    intro j _
    simp only [Function.comp, hcongr j, Nat.succ_eq_add_one]
  · rw [hout2, hcalls, List.flatten_cons, idat_payloads_append, idat_chunks_append,
      List.append_assoc]
  · rw [hpay, hsingle]

/-- An instance of banding without a throw: a fresh 3 by 3 grey + alpha state,
bands of 2 rows, the strict toy compressor; both encodes return normally. -/
theorem banding_agrees_on_return_example :
    (((List.range (band_count toy_fresh.h 2)).flatMap fun (i : Nat) =>
        band_input toy_fresh 7 (i : Int) 2 (row_ptr toy_samples 7 ((i : Int) * 2)))
      = band_input toy_fresh 7 0 toy_fresh.h toy_samples)
    ∧ ∃ rb r1,
        write_bands (toy_zlib false) 5 7 2 toy_samples (band_count toy_fresh.h 2) 0 (some [])
          (some toy_fresh) [] = some rb
        ∧ fz_write_png_band (toy_zlib false) 5 (some []) (some toy_fresh) 7 0 toy_fresh.h
            (some toy_samples) = some r1
        ∧ rb.ret = .ok () ∧ r1.ret = .ok ()
        ∧ (idat_payloads rb.calls.flatten).flatten = (idat_payloads r1.log).flatten :=
  have h := banding_agrees_on_return (toy_zlib false) id (fun s => s.taken)
    (fun s => s.taken.take s.emitted) toy_stream_law toy_fresh rfl 7 2 toy_samples
    (by decide) (by decide) (by decide) (by decide) (by decide) (by decide)
  have hb : (write_bands (toy_zlib false) 5 7 2 toy_samples (band_count toy_fresh.h 2) 0
      (some []) (some toy_fresh) []).isSome = true := rfl
  have h1 : (fz_write_png_band (toy_zlib false) 5 (some []) (some toy_fresh) 7 0 toy_fresh.h
      (some toy_samples)).isSome = true := rfl
  ⟨h.1, _, _, (Option.some_get hb).symm, (Option.some_get h1).symm, rfl, rfl,
    (h.2 5 5 [] _ _ (Option.some_get hb).symm rfl (Option.some_get h1).symm rfl).2.2.2.2.1⟩

/-- C7 (evaluation at the failing input): a grey image one pixel wide and 16
rows high, written in 16 bands of one row through a compressor whose stream
depends only on the concatenation of its inputs and that buffers its output
until it is asked to finish; the state is the one the header returns.  The 16
band calls feed the compressor, concatenated, the same 32 filtered bytes as
the single call with band height 16.  The single call returns normally and
writes them as one IDAT chunk.  The banded encode does not: the first call
fixed the scratch buffer at `compressBound 2 = 15` bytes, the final band's
`deflate (Z_FINISH)` fills it and reports `Z_OK`, and line 225 throws instead
of letting the loop of lines 210-231 run again, so no IDAT chunk is written at
all. -/
theorem banding_equivalence_fails :
    StreamLaw hold_zlib id (fun s => s.taken) (fun s => s.taken.take s.emitted)
    ∧ (fz_write_png_header hold_zlib (some []) 1 16 1 0 0).ret = .ok (some column_fresh)
    ∧ (((List.range (band_count column_fresh.h 1)).flatMap fun (i : Nat) =>
          band_input column_fresh 1 (i : Int) 1 (row_ptr toy_samples 1 ((i : Int) * 1)))
        = band_input column_fresh 1 0 16 toy_samples)
    ∧ ∃ rb r1,
        write_bands hold_zlib 3 1 1 toy_samples (band_count column_fresh.h 1) 0 (some [])
            (some column_fresh) [] = some rb
        ∧ fz_write_png_band hold_zlib 3 (some []) (some column_fresh) 1 0 16 (some toy_samples)
            = some r1
        ∧ rb.calls.map (fun l => l.map fun t => t.input)
            = (List.range 16).map (fun (i : Nat) =>
                [band_input column_fresh 1 (i : Int) 1 (row_ptr toy_samples 1 ((i : Int) * 1))])
        ∧ r1.log.map (fun t => t.input) = [band_input column_fresh 1 0 16 toy_samples]
        ∧ r1.ret = .ok ()
        ∧ r1.out = some (chunk tag_IDAT (band_input column_fresh 1 0 16 toy_samples))
        ∧ (band_input column_fresh 1 0 16 toy_samples).length = 32
        ∧ rb.calls.getLast? = some [⟨Z_FINISH, [1, 54], 15, Z_OK,
            (band_input column_fresh 1 0 16 toy_samples).take 15⟩]
        ∧ rb.ret = .throw (.compression_error Z_OK)
        ∧ rb.out = some [] := by
  have hcat : ((List.range (band_count column_fresh.h 1)).flatMap fun (i : Nat) =>
          band_input column_fresh 1 (i : Int) 1 (row_ptr toy_samples 1 ((i : Int) * 1)))
        = band_input column_fresh 1 0 16 toy_samples :=
    band_inputs_concat column_fresh 1 1 toy_samples (by decide) (by decide) (by decide)
      (by decide)
  have hb : (write_bands hold_zlib 3 1 1 toy_samples (band_count column_fresh.h 1) 0 (some [])
      (some column_fresh) []).isSome = true := rfl
  have h1 : (fz_write_png_band hold_zlib 3 (some []) (some column_fresh) 1 0 16
      (some toy_samples)).isSome = true := rfl
  have hr1 := (Option.some_get h1).symm
  have hok : ((fz_write_png_band hold_zlib 3 (some []) (some column_fresh) 1 0 16
      (some toy_samples)).get h1).ret = .ok () := rfl
  have hpay : idat_payloads ((fz_write_png_band hold_zlib 3 (some []) (some column_fresh) 1 0 16
      (some toy_samples)).get h1).log = [band_input column_fresh 1 0 16 toy_samples] := rfl
  obtain ⟨-, -, -, -, -, -, -, hout, -, -⟩ :=
    band_hist hold_zlib id (fun s => s.taken) (fun s => s.taken.take s.emitted) hold_stream_law
      3 [] column_fresh 1 0 16 toy_samples _ hr1 hok (by decide)
  rw [hpay] at hout
  refine ⟨hold_stream_law, rfl, hcat, _, _, (Option.some_get hb).symm, hr1, rfl, rfl, hok, ?_, rfl,
    rfl, rfl, rfl⟩
  rw [hout]
  simp [idat_chunks]

/-! ## Single-shot writer: C8 -/

/-- C8: for a pixmap of accepted format with `h ≥ 1` and non-null samples, and
a compressor that reports success, leaves room eventually and produces output
when it is asked to finish some input (the staged length is below `2^31`, as
line 164 needs, and the scratch size is positive and fits `int`), given enough fuel
`fz_write_pixmap_as_png` returns normally and the sink has received exactly
the signature, the IHDR chunk with its 13-byte payload, one or more IDAT
chunks, none of them empty, and the IEND chunk with empty payload, in that
order; the band was band 0 of height `h`, the final band, so every compressor
call used `Z_FINISH`.  The turns behind the IDAT chunks are the compressor's
answers: the first is `Z.deflate` on the state `deflateInit` left and the
filtered scanlines of the whole image, each later one is `Z.deflate` on the
state and the unread input the turn before left; every turn but the last
filled the scratch buffer and the last left room; the IDAT payloads
concatenated are the outputs of these calls concatenated; and for a compressor
whose stream is `F` of its concatenated input they are `F` of the filtered
scanlines. -/
theorem single_shot_stream {σ : Type} (Z : Zlib σ) (μ : σ → List Nat → Nat)
    (hsucc : Succeeds Z) (hdrain : Drains Z μ) (hemit : Emits Z)
    (pixmap : fz_pixmap) (samples : Int → Nat) (hsam : pixmap.samples = some samples)
    (savealpha : Int) (o : Sink) (color : Nat)
    (hacc : header_color pixmap.n (header_alpha pixmap.n pixmap.alpha) = some color)
    (hh : 1 ≤ pixmap.h)
    (hsz : (png_filter pixmap.w pixmap.n (dest_channels pixmap.n pixmap.alpha savealpha)
              pixmap.stride pixmap.h samples).length < 2147483648)
    (hcs : 0 < Z.compressBound ((((pixmap.w * dest_channels pixmap.n pixmap.alpha savealpha + 1)
              * pixmap.h) % 18446744073709551616).toNat)
          ∧ Z.compressBound ((((pixmap.w * dest_channels pixmap.n pixmap.alpha savealpha + 1)
              * pixmap.h) % 18446744073709551616).toNat) < 2147483648)
    (fuel : Nat)
    (hfuel : μ (Z.deflateInit Z.zero Z_DEFAULT_COMPRESSION).2
              (png_filter pixmap.w pixmap.n (dest_channels pixmap.n pixmap.alpha savealpha)
                pixmap.stride pixmap.h samples) < fuel) :
    ∃ r, fz_write_pixmap_as_png Z fuel (some o) pixmap savealpha = some r
      ∧ r.ret = .ok ()
      ∧ r.out = some (o ++ pngsig ++ chunk tag_IHDR (header_head pixmap.w pixmap.h color)
                      ++ idat_chunks (idat_payloads r.log) ++ chunk tag_IEND [])
      ∧ (header_head pixmap.w pixmap.h color).length = 13
      ∧ idat_payloads r.log ≠ []
      ∧ (∀ p ∈ idat_payloads r.log, p ≠ [])
      ∧ (band_final pixmap.h 0 pixmap.h = true ∧ band_rows pixmap.h 0 pixmap.h = pixmap.h)
      ∧ (∀ i ∈ r.log, i.flush = Z_FINISH)
      ∧ r.log.head?.map (fun i => i.input)
          = some (png_filter pixmap.w pixmap.n (dest_channels pixmap.n pixmap.alpha savealpha)
                    pixmap.stride pixmap.h samples)
      ∧ Answers Z
          (Z.compressBound ((((pixmap.w * dest_channels pixmap.n pixmap.alpha savealpha + 1)
              * pixmap.h) % 18446744073709551616).toNat))
          Z_FINISH (Z.deflateInit Z.zero Z_DEFAULT_COMPRESSION).2
          (png_filter pixmap.w pixmap.n (dest_channels pixmap.n pixmap.alpha savealpha)
            pixmap.stride pixmap.h samples) r.log
      ∧ (∃ pre last, r.log = pre ++ [last]
          ∧ (∀ t ∈ pre, t.produced.length
              = Z.compressBound ((((pixmap.w * dest_channels pixmap.n pixmap.alpha savealpha + 1)
                  * pixmap.h) % 18446744073709551616).toNat))
          ∧ last.produced.length
              < Z.compressBound ((((pixmap.w * dest_channels pixmap.n pixmap.alpha savealpha + 1)
                  * pixmap.h) % 18446744073709551616).toNat))
      ∧ (idat_payloads r.log).flatten = (r.log.map fun i => i.produced).flatten
      ∧ (∀ (F : List Nat → List Nat) (hin hout : σ → List Nat), StreamLaw Z F hin hout →
          (idat_payloads r.log).flatten
            = F (png_filter pixmap.w pixmap.n (dest_channels pixmap.n pixmap.alpha savealpha)
                  pixmap.stride pixmap.h samples)) := by
  obtain ⟨hs1, hs2, -, hs4⟩ := hsucc
  have hhdr := header_some_ok Z o pixmap.w pixmap.h pixmap.n pixmap.alpha savealpha color hacc
  have hinit : band_init_err Z (header_state Z pixmap.w pixmap.h pixmap.n pixmap.alpha savealpha)
      = Z_OK := by
    simp only [band_init_err, header_state]
    exact hs1 _ _
  have hcsize : band_csize Z (header_state Z pixmap.w pixmap.h pixmap.n pixmap.alpha savealpha)
      0 pixmap.h = Z.compressBound ((((pixmap.w * dest_channels pixmap.n pixmap.alpha savealpha + 1)
              * pixmap.h) % 18446744073709551616).toNat) := by
    simp only [band_csize, header_state, band_rows_whole, dest_channels]
  have hstate : band_state Z (header_state Z pixmap.w pixmap.h pixmap.n pixmap.alpha savealpha)
      = (Z.deflateInit Z.zero Z_DEFAULT_COMPRESSION).2 := by
    simp only [band_state, header_state]
  have hinput : band_input (header_state Z pixmap.w pixmap.h pixmap.n pixmap.alpha savealpha)
      pixmap.stride 0 pixmap.h samples
      = png_filter pixmap.w pixmap.n (dest_channels pixmap.n pixmap.alpha savealpha)
          pixmap.stride pixmap.h samples := by
    simp only [band_input, header_state, band_rows_whole]
    rw [show pixmap.n - header_alpha pixmap.n pixmap.alpha
          + header_savealpha pixmap.n pixmap.alpha savealpha
        = dest_channels pixmap.n pixmap.alpha savealpha from rfl,
      Nat.mod_eq_of_lt (by omega), List.take_length]
  have hcmod : Z.compressBound ((((pixmap.w * dest_channels pixmap.n pixmap.alpha savealpha + 1)
      * pixmap.h) % 18446744073709551616).toNat) % 4294967296
      = Z.compressBound ((((pixmap.w * dest_channels pixmap.n pixmap.alpha savealpha + 1)
      * pixmap.h) % 18446744073709551616).toNat) := Nat.mod_eq_of_lt (by omega)
  -- the band call returns
  obtain ⟨br, hbr⟩ := band_returns Z fuel
    (o ++ pngsig ++ chunk tag_IHDR (header_head pixmap.w pixmap.h color))
    (header_state Z pixmap.w pixmap.h pixmap.n pixmap.alpha savealpha)
    pixmap.stride 0 pixmap.h samples hinit (by
      intro cd
      rw [hcsize, hstate, hinput]
      exact deflate_loop_returns Z μ hdrain _ _ (by rw [hcmod]; exact hcs.1) fuel _ _ cd []
        hfuel)
  obtain ⟨lr, cd, hlr, hout, hret, hlog, p, hp, hpstream, -⟩ :=
    band_ok_loop Z fuel _ _ pixmap.stride 0 pixmap.h samples br hinit hbr
  have hbr0 := hbr
  rw [hcsize, hstate, hinput,
    show (header_state Z pixmap.w pixmap.h pixmap.n pixmap.alpha savealpha).h = pixmap.h from rfl,
    band_final_whole] at hlr
  obtain ⟨pre, last, hl, hpre, hall, hhead, hend⟩ := deflate_loop_spec Z _ _ _ _ _ _ _ _ hlr
  obtain ⟨news, hnews, hans⟩ := deflate_loop_answers Z _ _ _ _ _ _ _ _ hlr
  rw [List.nil_append] at hl hnews
  rw [hcmod] at hans
  have hflush : ∀ i ∈ pre ++ [last], i.flush = Z_FINISH := fun i hi => by
    simpa using (hall i hi).1
  have herr : ∀ i ∈ pre ++ [last], i.err = Z_STREAM_END := by
    intro i hi
    obtain ⟨hf, -, -, s, he, -⟩ := hall i hi
    rw [he, hflush i hi]
    exact hs2 _ _ _
  have hlast : bad_status true last.err = false := by
    rw [herr last (by simp)]
    simp [bad_status]
  have hsmall : ∀ i ∈ pre ++ [last], i.produced.length < 2147483648 := by
    intro i hi
    obtain ⟨-, ha, hle, -⟩ := hall i hi
    rw [ha, hcmod] at hle
    omega
  rcases hend with ⟨h1, -, -⟩ | ⟨-, hroom, hok, hsink⟩
  · rw [hlast] at h1; exact absurd h1 (by simp)
  rw [idat_writes_eq_chunks _ hsmall] at hsink
  -- the first compressor call produced output
  have hstaged_ne : png_filter pixmap.w pixmap.n (dest_channels pixmap.n pixmap.alpha savealpha)
      pixmap.stride pixmap.h samples ≠ [] := by
    intro hnil
    have hlen := png_filter_length pixmap.w pixmap.n
      (dest_channels pixmap.n pixmap.alpha savealpha) pixmap.stride pixmap.h samples
    rw [hnil, List.length_nil] at hlen
    have h1 : 1 ≤ pixmap.h.toNat := by omega
    have : 1 * 1 ≤ pixmap.h.toNat * (1 + pixmap.w.toNat
        * (dest_channels pixmap.n pixmap.alpha savealpha).toNat) :=
      Nat.mul_le_mul h1 (Nat.le_add_right 1 _)
    omega
  have hfirst : ∃ f rest, pre ++ [last] = f :: rest ∧ f.produced ≠ [] := by
    cases hpl : pre ++ [last] with
    | nil => simp at hpl
    | cons f rest =>
      refine ⟨f, rest, rfl, ?_⟩
      rw [hpl] at hhead
      simp only [List.head?_cons, Option.map_some', Option.some.injEq] at hhead
      have hf : f ∈ pre ++ [last] := by rw [hpl]; exact List.mem_cons_self _ _
      obtain ⟨hfl, ha, -, s, -, hprod⟩ := hall f hf
      rw [hprod, hflush f hf, hhead, ha]
      exact hemit s _ _ (by rw [hcmod]; exact hcs.1) hstaged_ne
  have hpay : idat_payloads (pre ++ [last]) ≠ [] := by
    obtain ⟨f, rest, hpl, hfne⟩ := hfirst
    rw [hpl]
    unfold idat_payloads
    simp [hfne]
  -- the trailer
  have htr := trailer_some_ok Z lr.out p (hs4 _)
  refine ⟨⟨some (lr.out ++ chunk tag_IEND []), .ok (), br.log⟩, ?_, rfl, ?_, ?_, ?_, ?_, ?_, ?_,
    ?_, ?_, ?_, ?_, ?_⟩
  · simp only [fz_write_pixmap_as_png, hhdr, hsam, hbr, hout, hp, htr, hret, hok]
  · simp only [hlog, hl, hsink, List.append_assoc]
  · simp [header_head, big32_length]
  · rw [hlog, hl]; exact hpay
  · exact idat_payloads_ne_nil _
  · exact ⟨band_final_whole _, band_rows_whole _⟩
  · rw [hlog, hl]; exact hflush
  · rw [hlog, hl]; exact hhead
  · rw [hlog, hnews]; exact hans
  · refine ⟨pre, last, by rw [hlog, hl], ?_, ?_⟩
    · intro t ht
      obtain ⟨-, ha, hle, -⟩ := hall t (List.mem_append_left _ ht)
      have hfull := (hpre t ht).2
      rw [ha, hcmod] at hle hfull
      omega
    · obtain ⟨-, ha, hle, -⟩ := hall last (by simp)
      rw [ha, hcmod] at hle hroom
      omega
  · exact idat_payloads_flatten _
  · intro F hin hout hlaw
    have hbrok : br.ret = .ok () := by rw [hret, hok]
    obtain ⟨q, hq, -, -, -, hqi, hqo, -, hqf, -⟩ :=
      band_hist Z F hin hout hlaw fuel _ _ pixmap.stride 0 pixmap.h samples br hbr0 hbrok
        (by rw [hcsize]; exact hcs.2)
    rw [hstate, (hlaw.1 _ _).1, List.nil_append, hinput] at hqi
    rw [hstate, (hlaw.1 _ _).2, List.nil_append] at hqo
    rw [← hqo, hqf (band_final_whole _), hqi]

/-- Witness for C8: the 3 by 2 grey + alpha pixmap written with its alpha
through the compressor without a buffer, whose scratch buffer has four bytes:
the 14 filtered bytes leave in four IDAT chunks. -/
theorem single_shot_stream_witness :
    ∃ r, fz_write_pixmap_as_png pipe_zlib 20 (some []) toy_pixmap 1 = some r
      ∧ r.ret = .ok ()
      ∧ r.out = some ([] ++ pngsig ++ chunk tag_IHDR (header_head toy_pixmap.w toy_pixmap.h 4)
                      ++ idat_chunks (idat_payloads r.log) ++ chunk tag_IEND [])
      ∧ idat_payloads r.log ≠ []
      ∧ Answers pipe_zlib 4 Z_FINISH ⟨[], 0⟩ (png_filter 3 2 2 7 2 toy_samples) r.log
      ∧ (idat_payloads r.log).flatten = png_filter 3 2 2 7 2 toy_samples :=
  have h := single_shot_stream pipe_zlib (fun _ i => i.length) pipe_succeeds pipe_drains
    pipe_emits toy_pixmap toy_samples rfl 1 [] 4 (by decide) (by decide) (by decide)
    (by decide) 20 (by decide)
  h.imp fun _ hr => ⟨hr.1, hr.2.1, hr.2.2.1, hr.2.2.2.2.1, hr.2.2.2.2.2.2.2.2.2.1,
    hr.2.2.2.2.2.2.2.2.2.2.2.2 id (fun s => s.taken) (fun s => s.taken) pipe_stream_law⟩

/-! ## Null arguments: C11 -/

/-- C11: the trailer called with a null state or a null sink, and the band
writer called with a null sink, a null source pointer or a null state, return
without error, and the sink and the state are the ones passed in; the header
called with a null sink returns a null state without a throw, whatever the
channel count, also one it rejects on a non-null sink. -/
theorem null_arguments_noop {σ : Type} (Z : Zlib σ) (fuel : Nat) (out : Option Sink)
    (poc : Option (fz_png_output_context σ)) (stride band bandheight : Int)
    (sp : Option (Int → Nat)) (w h n alpha savealpha : Int) (o : Sink) :
    (fz_write_png_trailer Z out none = ⟨out, .ok ()⟩
      ∧ fz_write_png_trailer_poc Z out none = none)
    ∧ (fz_write_png_trailer Z none poc = ⟨none, .ok ()⟩
      ∧ fz_write_png_trailer_poc Z none poc = poc)
    ∧ fz_write_png_band Z fuel none poc stride band bandheight sp = some ⟨none, poc, .ok (), []⟩
    ∧ fz_write_png_band Z fuel out poc stride band bandheight none = some ⟨out, poc, .ok (), []⟩
    ∧ fz_write_png_band Z fuel out none stride band bandheight sp = some ⟨out, none, .ok (), []⟩
    ∧ fz_write_png_header Z none w h n alpha savealpha = ⟨none, .ok none⟩
    ∧ (fz_write_png_header Z none w h 5 0 savealpha = ⟨none, .ok none⟩
      ∧ fz_write_png_header Z (some o) w h 5 0 savealpha
          = ⟨some o, .throw .pixmap_must_be_grayscale_or_rgb⟩) := by
  refine ⟨⟨?_, ?_⟩, ⟨?_, ?_⟩, ?_, ?_, ?_, rfl, ⟨rfl, ?_⟩⟩
  · cases out <;> rfl
  · cases out <;> rfl
  · rfl
  · rfl
  · rfl
  · cases out <;> cases poc <;> rfl
  · cases out <;> cases sp <;> rfl
  · exact header_some_throw Z o w h 5 0 savealpha (by decide)


/-- Witness for C11: the band writer of the toy compressor with a null sink. -/
theorem null_arguments_noop_witness :
    fz_write_png_band (toy_zlib true) 1 none (some toy_poc) 7 0 2 (some toy_samples)
      = some ⟨none, some toy_poc, .ok (), []⟩ :=
  (null_arguments_noop (toy_zlib true) 1 none (some toy_poc) 7 0 2 (some toy_samples)
    1 1 1 0 0 []).2.2.1

/-! ## Channel invariant: C16 -/


/-- A band call leaves `w`, `h`, `n`, `alpha` and `savealpha` of the state as
they were, on every path. -/
theorem band_keeps_fields {σ : Type} (Z : Zlib σ) (fuel : Nat) (out : Option Sink)
    (p : fz_png_output_context σ) (stride band bandheight : Int) (sp : Option (Int → Nat))
    (r : BandRet σ)
    (hr : fz_write_png_band Z fuel out (some p) stride band bandheight sp = some r) :
    ∃ q, r.poc = some q ∧ q.w = p.w ∧ q.h = p.h ∧ q.n = p.n ∧ q.alpha = p.alpha
      ∧ q.savealpha = p.savealpha := by
  unfold fz_write_png_band at hr
  split at hr
  · rename_i o s p' heq1 heq2 heq3
    simp only [Option.some.injEq] at heq3
    subst heq3
    simp only at hr
    split at hr
    · simp only [Option.some.injEq] at hr
      subst hr
      cases hu : p.udata <;> exact ⟨_, rfl, by simp [hu]⟩
    · split at hr
      · exact absurd hr (by simp)
      · simp only [Option.some.injEq] at hr
        subst hr
        cases hu : p.udata <;> exact ⟨_, rfl, by simp [hu]⟩
  · simp only [Option.some.injEq] at hr
    subst hr
    exact ⟨p, rfl, rfl, rfl, rfl, rfl, rfl⟩

/-- A sequence of band calls leaves `w`, `h`, `n`, `alpha` and `savealpha` of
the state as they were. -/
theorem write_bands_keeps_fields {σ : Type} (Z : Zlib σ) (fuel : Nat) (stride b : Int)
    (samples : Int → Nat) :
    ∀ (cnt : Nat) (i : Int) (out : Option Sink) (p : fz_png_output_context σ)
      (calls : List (List Invocation)) (rb : BandsRet σ),
      write_bands Z fuel stride b samples cnt i out (some p) calls = some rb →
      ∃ q, rb.poc = some q ∧ q.w = p.w ∧ q.h = p.h ∧ q.n = p.n ∧ q.alpha = p.alpha
        ∧ q.savealpha = p.savealpha := by
  intro cnt
  induction cnt with
  | zero =>
    intro i out p calls rb h
    simp only [write_bands, Option.some.injEq] at h
    subst h
    exact ⟨p, rfl, rfl, rfl, rfl, rfl, rfl⟩
  | succ cnt ih =>
    intro i out p calls rb h
    simp only [write_bands] at h
    split at h
    · exact absurd h (by simp)
    · rename_i r hr
      obtain ⟨q, hq, h1, h2, h3, h4, h5⟩ := band_keeps_fields Z fuel out p stride i b _ r hr
      split at h
      · simp only [Option.some.injEq] at h
        subst h
        exact ⟨q, hq, h1, h2, h3, h4, h5⟩
      · rw [hq] at h
        obtain ⟨q', hq', g1, g2, g3, g4, g5⟩ := ih _ _ q _ rb h
        exact ⟨q', hq', by rw [g1, h1], by rw [g2, h2], by rw [g3, h3], by rw [g4, h4],
          by rw [g5, h5]⟩

/-- C16: a state returned by the header from `alpha` and `savealpha` in
`{0, 1}` has `0 ≤ savealpha ≤ alpha ≤ 1`, `n - alpha` equal to 1 or 3, and
`dn = n - alpha + savealpha` with `1 ≤ dn ≤ n ≤ 4`, `dn ∈ {1, 3}` when
`savealpha` is 0 and `dn ∈ {2, 4}` when it is 1; a band call, and so a sequence
of band calls, leaves `w`, `h`, `n`, `alpha` and `savealpha` as they were, so
these facts hold for the state at every later band. -/
theorem channel_invariant {σ : Type} (Z : Zlib σ) (o : Sink) (w h n alpha savealpha : Int)
    (ha : alpha = 0 ∨ alpha = 1) (hs : savealpha = 0 ∨ savealpha = 1)
    (st : fz_png_output_context σ)
    (hst : (fz_write_png_header Z (some o) w h n alpha savealpha).ret = .ok (some st)) :
    (0 ≤ st.savealpha ∧ st.savealpha ≤ st.alpha ∧ st.alpha ≤ 1)
    ∧ (st.n - st.alpha = 1 ∨ st.n - st.alpha = 3)
    ∧ (1 ≤ st.n - st.alpha + st.savealpha ∧ st.n - st.alpha + st.savealpha ≤ st.n ∧ st.n ≤ 4)
    ∧ (st.savealpha = 0 →
        st.n - st.alpha + st.savealpha = 1 ∨ st.n - st.alpha + st.savealpha = 3)
    ∧ (st.savealpha = 1 →
        st.n - st.alpha + st.savealpha = 2 ∨ st.n - st.alpha + st.savealpha = 4)
    ∧ (∀ (fuel : Nat) (out : Option Sink) (p : fz_png_output_context σ)
          (stride band bandheight : Int) (sp : Option (Int → Nat)) (r : BandRet σ),
        fz_write_png_band Z fuel out (some p) stride band bandheight sp = some r →
        ∃ q, r.poc = some q ∧ q.w = p.w ∧ q.h = p.h ∧ q.n = p.n ∧ q.alpha = p.alpha
          ∧ q.savealpha = p.savealpha)
    ∧ (∀ (fuel : Nat) (stride b : Int) (samples : Int → Nat) (cnt : Nat) (i : Int)
          (out : Option Sink) (calls : List (List Invocation)) (rb : BandsRet σ),
        write_bands Z fuel stride b samples cnt i out (some st) calls = some rb →
        ∃ q, rb.poc = some q
          ∧ (0 ≤ q.savealpha ∧ q.savealpha ≤ q.alpha ∧ q.alpha ≤ 1)
          ∧ (q.n - q.alpha = 1 ∨ q.n - q.alpha = 3)
          ∧ (1 ≤ q.n - q.alpha + q.savealpha ∧ q.n - q.alpha + q.savealpha ≤ q.n ∧ q.n ≤ 4)) := by
  have hfacts : (0 ≤ st.savealpha ∧ st.savealpha ≤ st.alpha ∧ st.alpha ≤ 1)
      ∧ (st.n - st.alpha = 1 ∨ st.n - st.alpha = 3) := by
    cases hc : header_color n (header_alpha n alpha) with
    | none =>
      rw [header_some_throw Z o w h n alpha savealpha hc] at hst
      exact absurd hst (by simp)
    | some color =>
      rw [header_some_ok Z o w h n alpha savealpha color hc] at hst
      simp only [Ret.ok.injEq, Option.some.injEq] at hst
      subst hst
      simp only [header_state, header_savealpha]
      unfold header_color at hc
      unfold header_alpha at hc ⊢
      rcases ha with ha | ha <;> rcases hs with hs | hs <;> subst ha <;> subst hs <;>
        by_cases h1 : n = 1 <;> simp [h1] at hc ⊢ <;> (try split_ifs at hc) <;> omega
  obtain ⟨⟨f1, f2, f3⟩, f4⟩ := hfacts
  refine ⟨⟨f1, f2, f3⟩, f4, by omega, by omega, by omega, ?_, ?_⟩
  · intro fuel out p stride band bandheight sp r hr
    exact band_keeps_fields Z fuel out p stride band bandheight sp r hr
  · intro fuel stride b samples cnt i out calls rb hrb
    obtain ⟨q, hq, g1, -, g3, g4, g5⟩ :=
      write_bands_keeps_fields Z fuel stride b samples cnt i out st calls rb hrb
    refine ⟨q, hq, ?_, ?_, ?_⟩
    · rw [g4, g5]; exact ⟨f1, f2, f3⟩
    · rw [g3, g4]; exact f4
    · rw [g3, g4, g5]; omega


/-- Witness for C16: the state the header returns for a 3 by 2 RGBA pixmap
written with its alpha. -/
theorem channel_invariant_witness :
    (0 ≤ (header_state (toy_zlib true) 3 2 4 1 1).savealpha
      ∧ (header_state (toy_zlib true) 3 2 4 1 1).savealpha
          ≤ (header_state (toy_zlib true) 3 2 4 1 1).alpha
      ∧ (header_state (toy_zlib true) 3 2 4 1 1).alpha ≤ 1)
    ∧ ((header_state (toy_zlib true) 3 2 4 1 1).n
          - (header_state (toy_zlib true) 3 2 4 1 1).alpha = 1
        ∨ (header_state (toy_zlib true) 3 2 4 1 1).n
          - (header_state (toy_zlib true) 3 2 4 1 1).alpha = 3) :=
  have h := channel_invariant (toy_zlib true) [] 3 2 4 1 1 (Or.inr rfl) (Or.inr rfl)
    (header_state (toy_zlib true) 3 2 4 1 1)
    (by rw [header_some_ok (toy_zlib true) [] 3 2 4 1 1 6 (by decide)])
  ⟨h.1, h.2.1⟩

/-! ## Band partition: C13 -/


theorem band_count_spec_pos (h b : Int) (hh : 1 ≤ h) (hb : 1 ≤ b) :
    ∃ m : Nat, band_count h b = m + 1 ∧ (m : Int) * b < h ∧ h ≤ (m : Int) * b + b := by
  have hbpos : 0 < b := by omega
  have h1 : (h + b - 1) / b * b ≤ h + b - 1 := Int.ediv_mul_le _ (by omega)
  have h2 : h + b - 1 < ((h + b - 1) / b + 1) * b := Int.lt_ediv_add_one_mul_self _ hbpos
  have hq : 1 ≤ (h + b - 1) / b := by
    by_contra hcon
    have hq0 : (h + b - 1) / b + 1 ≤ 1 := by omega
    have : ((h + b - 1) / b + 1) * b ≤ 1 * b := Int.mul_le_mul_of_nonneg_right hq0 (by omega)
    omega
  have hm : ((((h + b - 1) / b).toNat - 1 : Nat) : Int) = (h + b - 1) / b - 1 := by omega
  refine ⟨((h + b - 1) / b).toNat - 1, ?_, ?_, ?_⟩
  · unfold band_count; omega
  · rw [hm]; nlinarith
  · rw [hm]; nlinarith

theorem band_rows_eq_min (h band b : Int) : band_rows h band b = min b (h - band * b) := by
  unfold band_rows band_final
  split
  · rename_i hf
    simp only [ge_iff_le, decide_eq_true_eq] at hf
    omega
  · rename_i hf
    simp only [ge_iff_le, decide_eq_true_eq, not_le] at hf
    omega

theorem band_final_iff (h band b : Int) :
    band_final h band b = true ↔ band * b + band_rows h band b ≥ h := by
  unfold band_rows
  cases hf : band_final h band b
  · simp only [Bool.false_eq_true, if_false, false_iff, ge_iff_le, not_le]
    simp only [band_final, ge_iff_le, decide_eq_false_iff_not, not_le] at hf
    exact hf
  · simp only [if_true, true_iff]
    omega

theorem sum_map_range_const (f : Nat → Int) (c : Int) :
    ∀ m : Nat, (∀ i, i < m → f i = c) → ((List.range m).map f).sum = m * c := by
  intro m
  induction m with
  | zero => intro _; simp
  | succ m ih =>
    intro hf
    rw [List.range_succ, List.map_append, List.sum_append, ih (fun i hi => hf i (by omega))]
    simp only [List.map_cons, List.map_nil, List.sum_cons, List.sum_nil, hf m (by omega)]
    push_cast
    ring

/-- C13: the band height used by `fz_write_png_band` is
`min (bandheight, h - band*bandheight)` and its final-band flag is
`band*bandheight + (that height) ≥ h`; so for `h ≥ 1` and `b ≥ 1`, over the band
indices `0 .. ceil(h/b) - 1`, the flag is true for the last index and false for
every earlier one, every height lies in `[1, b]` and is at most the height of
band 0, and the heights add up to `h`. -/
theorem band_partition (h band b : Int) :
    band_rows h band b = min b (h - band * b)
    ∧ (band_final h band b = true ↔ band * b + band_rows h band b ≥ h)
    ∧ (1 ≤ h → 1 ≤ b →
        1 ≤ band_count h b
        ∧ band_final h ((band_count h b - 1 : Nat) : Int) b = true
        ∧ (∀ i : Nat, i + 1 < band_count h b → band_final h (i : Int) b = false)
        ∧ (∀ i : Nat, i < band_count h b →
            1 ≤ band_rows h (i : Int) b ∧ band_rows h (i : Int) b ≤ b
            ∧ band_rows h (i : Int) b ≤ band_rows h 0 b)
        ∧ ((List.range (band_count h b)).map fun (i : Nat) => band_rows h (i : Int) b).sum = h) := by
  refine ⟨band_rows_eq_min h band b, band_final_iff h band b, ?_⟩
  intro hh hb
  obtain ⟨m, hk, hlo, hhi⟩ := band_count_spec_pos h b hh hb
  have hle : ∀ i : Nat, i < m → (i : Int) * b + b ≤ (m : Int) * b := by
    intro i hi
    have h1 : (i : Int) + 1 ≤ m := by exact_mod_cast hi
    have h2 : ((i : Int) + 1) * b ≤ (m : Int) * b := Int.mul_le_mul_of_nonneg_right h1 (by omega)
    have h3 : ((i : Int) + 1) * b = i * b + b := by ring
    omega
  have hnonneg : ∀ i : Nat, 0 ≤ (i : Int) * b := fun i =>
    Int.mul_nonneg (Int.ofNat_nonneg i) (by omega)
  have hearly : ∀ i : Nat, i < m → band_final h (i : Int) b = false := by
    intro i hi
    have := hle i hi
    simp only [band_final, ge_iff_le, decide_eq_false_iff_not, not_le]
    omega
  have hlast : band_final h (m : Int) b = true := by
    simp only [band_final, ge_iff_le, decide_eq_true_eq]
    omega
  have hrows_early : ∀ i : Nat, i < m → band_rows h (i : Int) b = b := by
    intro i hi
    simp only [band_rows, hearly i hi, Bool.false_eq_true, if_false]
  have hrows_last : band_rows h (m : Int) b = h - (m : Int) * b := by
    simp only [band_rows, hlast, if_true]
  have hrows0 : band_rows h 0 b = min b h := by
    rw [band_rows_eq_min]; simp
  rw [hk]
  refine ⟨by omega, ?_, ?_, ?_, ?_⟩
  · rw [Nat.add_sub_cancel]; exact hlast
  · intro i hi
    exact hearly i (by omega)
  · intro i hi
    by_cases him : i < m
    · rw [hrows_early i him, hrows0]
      have := hle i him
      have := hnonneg i
      omega
    · have : i = m := by omega
      subst this
      rw [hrows_last, hrows0]
      have := hnonneg i
      omega
  · rw [List.range_succ, List.map_append, List.sum_append,
      sum_map_range_const _ b m hrows_early]
    simp only [List.map_cons, List.map_nil, List.sum_cons, List.sum_nil, hrows_last]
    ring


/-- Witness for C13: five rows in bands of two: heights 2, 2, 1. -/
theorem band_partition_witness :
    band_count 5 2 = 3
    ∧ ((List.range (band_count 5 2)).map fun (i : Nat) => band_rows 5 (i : Int) 2) = [2, 2, 1]
    ∧ ((List.range (band_count 5 2)).map fun (i : Nat) => band_rows 5 (i : Int) 2).sum = 5 :=
  ⟨by decide, by decide, ((band_partition 5 0 2).2.2 (by decide) (by decide)).2.2.2.2⟩

/-! ## In-memory writer: C12, C17 -/

/-- C12: for a pixmap with `w = 0` or `h = 0`, whatever its channel count,
alpha flag, colour space and samples, `png_from_pixmap` (and so
`fz_new_buffer_from_pixmap_as_png` and `fz_new_buffer_from_image_as_png`)
returns the null buffer without a throw: no buffer is made, so no signature,
header or chunk is written, and the header is never asked about the format. -/
theorem zero_size_absent {σ : Type} (Z : Zlib σ) (convert : fz_pixmap → fz_pixmap)
    (fuel : Nat) (pix : fz_pixmap) (drop : Int) (hz : pix.w = 0 ∨ pix.h = 0) :
    png_from_pixmap Z convert fuel pix drop = some (.ok none)
    ∧ fz_new_buffer_from_pixmap_as_png Z convert fuel pix = some (.ok none)
    ∧ fz_new_buffer_from_image_as_png Z convert fuel pix = some (.ok none) := by
  have h : ∀ d, png_from_pixmap Z convert fuel pix d = some (.ok none) := by
    intro d
    unfold png_from_pixmap
    rw [if_pos hz]
  exact ⟨h drop, h 0, h 1⟩

/-- Witness for C12: a pixmap without rows, seven channels, an unknown colour
space and null samples. -/
theorem zero_size_absent_witness :
    png_from_pixmap (toy_zlib true) id 0 toy_empty_pixmap 0 = some (.ok none)
    ∧ (fz_write_png_header (toy_zlib true) (some []) toy_empty_pixmap.w toy_empty_pixmap.h
          toy_empty_pixmap.n toy_empty_pixmap.alpha 1).ret
        = .throw .pixmap_must_be_grayscale_or_rgb :=
  ⟨(zero_size_absent (toy_zlib true) id 0 toy_empty_pixmap 0 (Or.inr rfl)).1, rfl⟩

/-- What `fz_write_pixmap_as_png` does once the header has accepted the
format: the band call on the header's state, then the trailer. -/
theorem write_pixmap_unfold {σ : Type} (Z : Zlib σ) (fuel : Nat) (o : Sink) (q : fz_pixmap)
    (savealpha : Int) (color : Nat)
    (hacc : header_color q.n (header_alpha q.n q.alpha) = some color) (r : WriteRet)
    (hr : fz_write_pixmap_as_png Z fuel (some o) q savealpha = some r) :
    ∃ br, fz_write_png_band Z fuel
          (some (o ++ pngsig ++ chunk tag_IHDR (header_head q.w q.h color)))
          (some (header_state Z q.w q.h q.n q.alpha savealpha)) q.stride 0 q.h q.samples
          = some br
      ∧ r.log = br.log := by
  simp only [fz_write_pixmap_as_png, header_some_ok Z o q.w q.h q.n q.alpha savealpha color hacc]
    at hr
  split at hr
  · exact absurd hr (by simp)
  · rename_i br hbr
    refine ⟨br, hbr, ?_⟩
    split at hr <;> (simp only [Option.some.injEq] at hr; subst hr; rfl)

/-- C17: for a pixmap with `w ≠ 0` and `h ≠ 0`, `png_from_pixmap` calls
`fz_write_pixmap_as_png` with `savealpha = 1` on the pixmap `q` that is written
(the pixmap passed in when its colour space is null, grey or RGB).  When the
header accepts the format of `q` (alpha flag 0 or 1), the state it returns has
`savealpha` equal to the normalised `alpha`, `dn = n - alpha + savealpha` equal
to the channel count `n` of `q`, so the filter keeps every sample: rows have
`1 + w*n` bytes; and the colour type written at offset 9 of the IHDR payload
announces `n` channels.  The band call of that run is made on this state. -/
theorem buffer_path_keeps_channels {σ : Type} (Z : Zlib σ) (convert : fz_pixmap → fz_pixmap)
    (fuel : Nat) (pix : fz_pixmap) (drop : Int) (hw : pix.w ≠ 0) (hh : pix.h ≠ 0)
    (q : fz_pixmap) (hq : png_source convert pix = q)
    (ha : q.alpha = 0 ∨ q.alpha = 1) (color : Nat)
    (hacc : header_color q.n (header_alpha q.n q.alpha) = some color) :
    (png_from_pixmap Z convert fuel pix drop
        = (fz_write_pixmap_as_png Z fuel (some []) q 1).map fun r =>
            match r.ret with
            | .throw e => .throw e
            | .ok _ => .ok r.out)
    ∧ (needs_rgb pix = false → q = pix)
    ∧ fz_write_png_header Z (some []) q.w q.h q.n q.alpha 1
        = ⟨some ([] ++ pngsig ++ chunk tag_IHDR (header_head q.w q.h color)),
           .ok (some (header_state Z q.w q.h q.n q.alpha 1))⟩
    ∧ (header_state Z q.w q.h q.n q.alpha 1 : fz_png_output_context σ).alpha
        = header_alpha q.n q.alpha
    ∧ (header_state Z q.w q.h q.n q.alpha 1 : fz_png_output_context σ).savealpha
        = (header_state Z q.w q.h q.n q.alpha 1 : fz_png_output_context σ).alpha
    ∧ (header_state Z q.w q.h q.n q.alpha 1 : fz_png_output_context σ).n
          - (header_state Z q.w q.h q.n q.alpha 1 : fz_png_output_context σ).alpha
          + (header_state Z q.w q.h q.n q.alpha 1 : fz_png_output_context σ).savealpha
        = q.n
    ∧ dest_channels q.n q.alpha 1 = q.n
    ∧ color_channels color = q.n
    ∧ ((header_head q.w q.h color).getD 9 0 = color)
    ∧ (∀ (stride bh : Int) (sp : Int → Nat),
        (png_filter q.w q.n (dest_channels q.n q.alpha 1) stride bh sp).length
          = bh.toNat * (1 + q.w.toNat * q.n.toNat))
    ∧ (∀ r, fz_write_pixmap_as_png Z fuel (some []) q 1 = some r →
        ∃ br, fz_write_png_band Z fuel
              (some ([] ++ pngsig ++ chunk tag_IHDR (header_head q.w q.h color)))
              (some (header_state Z q.w q.h q.n q.alpha 1)) q.stride 0 q.h q.samples = some br
          ∧ r.log = br.log) := by
  have hsave : header_savealpha q.n q.alpha 1 = header_alpha q.n q.alpha := by
    unfold header_savealpha header_alpha
    rcases ha with ha | ha <;> rw [ha] <;> split_ifs <;> simp_all
  have hdest : dest_channels q.n q.alpha 1 = q.n := by
    unfold dest_channels
    rw [hsave]; ring
  have hcolor : color_channels color = q.n := by
    unfold header_color at hacc
    unfold header_alpha at hacc
    unfold color_channels
    rcases ha with ha | ha <;> rw [ha] at hacc <;> by_cases h1 : q.n = 1 <;>
      simp [h1] at hacc <;> (try split_ifs at hacc) <;> simp_all <;> omega
  have hmem := header_color_mem _ _ _ hacc
  refine ⟨?_, ?_, header_some_ok Z [] q.w q.h q.n q.alpha 1 color hacc, rfl, ?_, ?_, hdest,
    hcolor, ?_, ?_, ?_⟩
  · unfold png_from_pixmap
    rw [if_neg (by simp [hw, hh]), hq]
    dsimp only
    cases hx : fz_write_pixmap_as_png Z fuel (some []) q 1 with
    | none => rfl
    | some r =>
      simp only [Option.map_some']
      cases hret : r.ret <;> rfl
  · intro hn
    rw [← hq]
    unfold png_source
    rw [hn]
    rfl
  · simp only [header_state, hsave]
  · simp only [header_state, hsave]; ring
  · have hc : color % 256 = color := by omega
    simp [header_head, big32, hc]
  · intro stride bh sp
    rw [png_filter_length, hdest]
  · intro r hr
    exact write_pixmap_unfold Z fuel [] q 1 color hacc r hr

/-- Witness for C17: a 3 by 2 RGBA pixmap in device RGB. -/
theorem buffer_path_keeps_channels_witness :
    dest_channels toy_rgba_pixmap.n toy_rgba_pixmap.alpha 1 = toy_rgba_pixmap.n
    ∧ color_channels 6 = toy_rgba_pixmap.n
    ∧ ∃ bytes, png_from_pixmap (toy_zlib true) id 20 toy_rgba_pixmap 0 = some (.ok (some bytes)) :=
  have h := buffer_path_keeps_channels (toy_zlib true) id 20 toy_rgba_pixmap 0 (by decide)
    (by decide) toy_rgba_pixmap rfl (Or.inr rfl) 6 (by decide)
  ⟨h.2.2.2.2.2.2.1, h.2.2.2.2.2.2.2.1, _, rfl⟩

/-! ## IDAT emission: C15 -/

theorem idat_payloads_mem (invs : List Invocation) (p : List Nat) (hp : p ∈ idat_payloads invs) :
    p ≠ [] ∧ ∃ i ∈ invs, i.produced = p := by
  unfold idat_payloads at hp
  obtain ⟨h1, h2⟩ := List.mem_filter.1 hp
  obtain ⟨i, hi, hip⟩ := List.mem_map.1 h1
  exact ⟨by simpa using h2, i, hi, hip⟩

theorem idat_payloads_length (invs : List Invocation) :
    (idat_payloads invs).length = (invs.filter fun i => i.produced ≠ []).length := by
  unfold idat_payloads
  induction invs with
  | nil => rfl
  | cons i rest ih =>
    by_cases hne : i.produced = []
    · simp [hne, List.filter_cons] at ih ⊢
      exact ih
    · simp [hne, List.filter_cons] at ih ⊢
      exact ih

/-- C15: for a band call whose stream initialisation does not fail, with
`deflate` an arbitrary step function that returns `Z_STREAM_END` when asked to
finish and `Z_OK` otherwise: the call returns normally; it runs lines 228-229
once per invocation, which writes nothing for an invocation without output and
(for a scratch size that fits `int`) one framed IDAT chunk per invocation with
output, so there are as many chunks as invocations with output and none has an
empty payload; every payload has between 1 and `csize` bytes; the payloads
concatenated are the compressor's outputs concatenated; every logged output is
what `deflate` stored in the `csize` bytes of room; and an invocation is
followed by another exactly when it left no room.  More fuel gives the same
outcome, and a compressor that leaves room eventually makes the call return
for enough fuel. -/
theorem idat_emission {σ : Type} (Z : Zlib σ) (fuel : Nat) (o : Sink)
    (poc : fz_png_output_context σ) (stride band bandheight : Int) (sp : Int → Nat)
    (r : BandRet σ)
    (hinit : poc.udata ≠ none ∨ (Z.deflateInit poc.stream.state Z_DEFAULT_COMPRESSION).1 = Z_OK)
    (hexp : ∀ s i a, (Z.deflate s i a Z_FINISH).err = Z_STREAM_END
                      ∧ (Z.deflate s i a Z_NO_FLUSH).err = Z_OK)
    (hr : fz_write_png_band Z fuel (some o) (some poc) stride band bandheight (some sp) = some r) :
    r.ret = .ok ()
    ∧ r.out = some (idat_writes o r.log)
    ∧ (band_csize Z poc band bandheight % 4294967296 < 2147483648 →
        r.out = some (o ++ idat_chunks (idat_payloads r.log)))
    ∧ (idat_payloads r.log).length = (r.log.filter fun i => i.produced ≠ []).length
    ∧ (∀ p ∈ idat_payloads r.log,
        1 ≤ p.length ∧ p.length ≤ band_csize Z poc band bandheight)
    ∧ (idat_payloads r.log).flatten = (r.log.map fun i => i.produced).flatten
    ∧ (∀ i ∈ r.log, i.avail_out = band_csize Z poc band bandheight % 4294967296
        ∧ ∃ s, i.produced = (Z.deflate s i.input i.avail_out i.flush).output.take i.avail_out)
    ∧ r.log ≠ []
    ∧ (∀ j i, r.log[j]? = some i →
        (j + 1 < r.log.length ↔ i.avail_out - i.produced.length = 0))
    ∧ (∀ fuel', fuel ≤ fuel' →
        fz_write_png_band Z fuel' (some o) (some poc) stride band bandheight (some sp) = some r)
    ∧ (∀ μ, Drains Z μ → 0 < band_csize Z poc band bandheight % 4294967296 →
        ∀ fuel', μ (band_state Z poc) (band_input poc stride band bandheight sp) < fuel' →
        ∃ r', fz_write_png_band Z fuel' (some o) (some poc) stride band bandheight (some sp)
          = some r') := by
  have hmono := band_mono Z fuel (some o) (some poc) stride band bandheight (some sp) r hr
  have hinit' : band_init_err Z poc = Z_OK := by
    unfold band_init_err
    cases hu : poc.udata with
    | none => rcases hinit with h | h
              · exact absurd hu h
              · exact h
    | some u => rfl
  obtain ⟨lr, cd, hlr, hout, hret, hlog, -⟩ :=
    band_ok_loop Z fuel o poc stride band bandheight sp r hinit' hr
  obtain ⟨pre, last, hl, hpre, hall, -, hend⟩ := deflate_loop_spec Z _ _ _ _ _ _ _ _ hlr
  rw [List.nil_append] at hl
  have hlast : bad_status (band_final poc.h band bandheight) last.err = false := by
    obtain ⟨hf, -, -, s, he, -⟩ := hall last (by simp)
    rw [he, hf]
    cases hfb : band_final poc.h band bandheight
    · simp [bad_status, (hexp s last.input last.avail_out).2]
    · simp [bad_status, (hexp s last.input last.avail_out).1]
  rcases hend with ⟨h1, -, -⟩ | ⟨-, hroom, hok, hsink⟩
  · rw [hlast] at h1; exact absurd h1 (by simp)
  have hsmall : band_csize Z poc band bandheight % 4294967296 < 2147483648 →
      ∀ i ∈ pre ++ [last], i.produced.length < 2147483648 := by
    intro hcs i hi
    obtain ⟨-, ha, hle, -⟩ := hall i hi
    omega
  rw [hret, hout, hlog, hl, hok, hsink]
  refine ⟨rfl, rfl, ?_, idat_payloads_length _, ?_, idat_payloads_flatten _, ?_, by simp, ?_,
    hmono, ?_⟩
  · intro hcs
    rw [idat_writes_eq_chunks _ (hsmall hcs)]
  · intro p hp
    obtain ⟨hne, i, hi, hip⟩ := idat_payloads_mem _ p hp
    obtain ⟨-, ha, hle, -⟩ := hall i hi
    have hpos : 0 < p.length := List.length_pos.2 hne
    have := Nat.mod_le (band_csize Z poc band bandheight) 4294967296
    rw [hip] at hle
    omega
  · intro i hi
    obtain ⟨-, ha, -, s, -, hp⟩ := hall i hi
    exact ⟨ha, s, hp⟩
  · intro j i hj
    rw [List.length_append, List.length_singleton]
    by_cases hjp : j < pre.length
    · rw [List.getElem?_append_left hjp] at hj
      have hmem : i ∈ pre := List.getElem?_mem hj
      have := (hpre i hmem).2
      constructor
      · intro _; exact this
      · intro _; omega
    · rw [List.getElem?_append_right (by omega)] at hj
      have hj0 : j - pre.length = 0 := by
        by_contra hcon
        have : ([last] : List Invocation)[j - pre.length]? = none := by
          rw [List.getElem?_eq_none_iff]; simp; omega
        rw [this] at hj; exact absurd hj (by simp)
      rw [hj0] at hj
      simp only [List.getElem?_cons_zero, Option.some.injEq] at hj
      subst hj
      constructor
      · intro h; omega
      · intro h; exact absurd h hroom
  · intro μ hdrain hcs fuel' hfuel
    exact band_returns Z fuel' o poc stride band bandheight sp hinit'
      (fun cd' => deflate_loop_returns Z μ hdrain _ _ hcs fuel' _ _ cd' [] hfuel)

/-- Witness for C15: a non-final band of one row on `toy_poc` (four bytes of
scratch): the first invocation fills the scratch buffer, the second produces
nothing, and one IDAT chunk is written. -/
theorem idat_emission_witness :
    ∃ r, fz_write_png_band (toy_zlib true) 5 (some []) (some toy_poc) 7 0 1 (some toy_samples)
        = some r
      ∧ r.ret = .ok ()
      ∧ r.log.length = 2
      ∧ idat_payloads r.log = [[1, 11, 74, 74]]
      ∧ r.out = some ([] ++ idat_chunks (idat_payloads r.log)) :=
  have hs : (fz_write_png_band (toy_zlib true) 5 (some []) (some toy_poc) 7 0 1
      (some toy_samples)).isSome = true := rfl
  have h := idat_emission (toy_zlib true) 5 [] toy_poc 7 0 1 toy_samples _ (Or.inl (by decide))
    (fun s i a => ⟨toy_succeeds.2.1 s i a, toy_succeeds.2.2.1 s i a⟩) (Option.some_get hs).symm
  ⟨_, (Option.some_get hs).symm, h.1, rfl, rfl, h.2.2.1 (by decide)⟩

/-! ## Buffer bounds: C14 -/

theorem trace_pixel_value (sp : Int → Nat) (sn : Int) (dn x : Nat) (off : Int) (dp : Nat) :
    (trace_pixel sn dn x off dp).map (store_value sp) = filter_pixel sp sn dn x off := by
  unfold trace_pixel filter_pixel
  rw [List.map_map]
  apply List.map_congr_left
  intro k _
  by_cases hx : x = 0 <;> simp [store_value, hx]

theorem trace_pixel_dst (sn : Int) (dn x : Nat) (off : Int) (dp : Nat) :
    (trace_pixel sn dn x off dp).map (fun s => s.dst) = (List.range dn).map fun k => dp + k := by
  unfold trace_pixel
  rw [List.map_map]
  rfl

theorem range_add_map (dp a c : Nat) :
    ((List.range a).map fun k => dp + k) ++ ((List.range c).map fun k => dp + a + k)
      = (List.range (a + c)).map fun k => dp + k := by
  rw [List.range_add, List.map_append, List.map_map]
  congr 1
  apply List.map_congr_left
  intro k _
  simp only [Function.comp]
  omega

theorem trace_pixels_spec (sp : Int → Nat) (sn : Int) (dn : Nat) :
    ∀ (cnt x : Nat) (off : Int) (dp : Nat),
      (trace_pixels sn dn cnt x off dp).1.map (store_value sp)
          = (filter_pixels sp sn dn cnt x off).1
      ∧ (trace_pixels sn dn cnt x off dp).2.1 = off + cnt * sn
      ∧ (trace_pixels sn dn cnt x off dp).2.2 = dp + cnt * dn
      ∧ (trace_pixels sn dn cnt x off dp).1.map (fun s => s.dst)
          = (List.range (cnt * dn)).map fun k => dp + k := by
  intro cnt
  induction cnt with
  | zero => intro x off dp; simp [trace_pixels, filter_pixels]
  | succ cnt ih =>
    intro x off dp
    obtain ⟨h1, h2, h3, h4⟩ := ih (x + 1) (off + sn) (dp + dn)
    refine ⟨?_, ?_, ?_, ?_⟩
    · simp only [trace_pixels, filter_pixels, List.map_append, trace_pixel_value, h1]
    · simp only [trace_pixels, h2]; push_cast; ring
    · simp only [trace_pixels, h3]; ring
    · simp only [trace_pixels, List.map_append, trace_pixel_dst, h4]
      rw [range_add_map, show dn + cnt * dn = (cnt + 1) * dn by ring]

theorem trace_pixels_reads (sn : Int) (dn : Nat) (hsn : (dn : Int) ≤ sn) :
    ∀ (cnt x : Nat) (off : Int) (dp : Nat),
      ∀ s ∈ (trace_pixels sn dn cnt x off dp).1, ∀ a ∈ s.src,
        (if x = 0 then off else off - sn) ≤ a ∧ a < off + cnt * sn := by
  have hsn0 : 0 ≤ sn := le_trans (Int.ofNat_nonneg dn) hsn
  intro cnt
  induction cnt with
  | zero => intro x off dp s hs; simp [trace_pixels] at hs
  | succ cnt ih =>
    intro x off dp s hs a ha
    have hcnt : 0 ≤ (cnt : Int) * sn := Int.mul_nonneg (Int.ofNat_nonneg cnt) hsn0
    simp only [trace_pixels, List.mem_append] at hs
    push_cast
    rcases hs with hs | hs
    · unfold trace_pixel at hs
      obtain ⟨k, hk, rfl⟩ := List.mem_map.1 hs
      have hk' : (k : Int) < dn := by exact_mod_cast List.mem_range.1 hk
      by_cases hx : x = 0
      · simp only [hx, if_true, List.mem_singleton] at ha ⊢
        subst ha
        constructor <;> nlinarith
      · simp only [hx, if_false, List.mem_cons, List.mem_singleton, List.not_mem_nil,
          or_false] at ha ⊢
        rcases ha with ha | ha <;> subst ha <;> constructor <;> nlinarith
    · have := ih (x + 1) (off + sn) (dp + dn) s hs a ha
      simp only [Nat.succ_ne_zero, if_false, add_sub_cancel_right] at this
      split <;> constructor <;> nlinarith [this.1, this.2]

theorem trace_rows_spec (sp : Int → Nat) (w : Nat) (sn : Int) (dn : Nat) (skip : Int) :
    ∀ (cnt : Nat) (off : Int) (dp : Nat),
      (trace_rows w sn dn skip cnt off dp).map (store_value sp)
          = filter_rows sp w sn dn skip cnt off
      ∧ (trace_rows w sn dn skip cnt off dp).map (fun s => s.dst)
          = (List.range (cnt * (1 + w * dn))).map fun k => dp + k := by
  intro cnt
  induction cnt with
  | zero => intro off dp; simp [trace_rows, filter_rows]
  | succ cnt ih =>
    intro off dp
    obtain ⟨h1, h2, h3, h4⟩ := trace_pixels_spec sp sn dn w 0 off (dp + 1)
    obtain ⟨g1, g2⟩ := ih ((trace_pixels sn dn w 0 off (dp + 1)).2.1 + skip)
      (trace_pixels sn dn w 0 off (dp + 1)).2.2
    rw [h2, h3] at g1 g2
    refine ⟨?_, ?_⟩
    · simp only [trace_rows, filter_rows, List.map_append, List.map_cons, h1, h2, h3, g1,
        (filter_pixels_spec sp sn dn w 0 off).1, store_value]
    · simp only [trace_rows, List.map_append, List.map_cons, h4, h2, h3, g2]
      have e1 : (dp :: (List.range (w * dn)).map fun k => dp + 1 + k)
          = (List.range (1 + w * dn)).map fun k => dp + k := by
        rw [← range_add_map dp 1 (w * dn)]
        rfl
      have e2 : (fun k => dp + 1 + w * dn + k) = fun k => dp + (1 + w * dn) + k := by
        funext k; omega
      rw [e1, e2, range_add_map, show 1 + w * dn + cnt * (1 + w * dn) = (cnt + 1) * (1 + w * dn)
        by ring]

theorem trace_rows_reads (w : Nat) (sn : Int) (dn : Nat) (skip : Int) (hsn : (dn : Int) ≤ sn)
    (hskip : 0 ≤ skip) :
    ∀ (cnt : Nat) (off : Int) (dp : Nat),
      ∀ s ∈ trace_rows w sn dn skip cnt off dp, ∀ a ∈ s.src,
        off ≤ a ∧ a + skip < off + cnt * (w * sn + skip) := by
  have hsn0 : 0 ≤ sn := le_trans (Int.ofNat_nonneg dn) hsn
  have hstep : 0 ≤ (w : Int) * sn + skip :=
    Int.add_nonneg (Int.mul_nonneg (Int.ofNat_nonneg w) hsn0) hskip
  intro cnt
  induction cnt with
  | zero => intro off dp s hs; simp [trace_rows] at hs
  | succ cnt ih =>
    intro off dp s hs a ha
    have hcnt : 0 ≤ (cnt : Int) * ((w : Int) * sn + skip) :=
      Int.mul_nonneg (Int.ofNat_nonneg cnt) hstep
    simp only [trace_rows, List.mem_append, List.mem_cons] at hs
    push_cast
    rcases hs with (hs | hs) | hs
    · subst hs
      simp at ha
    · have := trace_pixels_reads sn dn hsn w 0 off (dp + 1) s hs a ha
      simp only [if_true] at this
      constructor <;> nlinarith [this.1, this.2]
    · have := ih _ _ s hs a ha
      rw [(trace_pixels_spec (fun _ => 0) sn dn w 0 off (dp + 1)).2.1] at this
      constructor <;> nlinarith [this.1, this.2]

/-- The capacity a band call leaves in the state. -/
theorem band_sets_usize {σ : Type} (Z : Zlib σ) (fuel : Nat) (o : Sink)
    (p : fz_png_output_context σ) (stride band b : Int) (sp : Int → Nat) (r : BandRet σ)
    (hr : fz_write_png_band Z fuel (some o) (some p) stride band b (some sp) = some r) :
    ∃ q, r.poc = some q ∧ q.udata ≠ none ∧ q.usize = band_usize p band b := by
  unfold band_usize
  simp only [fz_write_png_band] at hr
  cases hu : p.udata with
  | none =>
    rw [hu] at hr
    simp only at hr
    split at hr
    · simp only [Option.some.injEq] at hr
      subst hr
      exact ⟨_, rfl, by simp, rfl⟩
    · split at hr
      · exact absurd hr (by simp)
      · simp only [Option.some.injEq] at hr
        subst hr
        exact ⟨_, rfl, by simp, rfl⟩
  | some u =>
    rw [hu] at hr
    simp only at hr
    split at hr
    · simp only [Option.some.injEq] at hr
      subst hr
      exact ⟨_, rfl, by simp [hu], rfl⟩
    · split at hr
      · exact absurd hr (by simp)
      · simp only [Option.some.injEq] at hr
        subst hr
        exact ⟨_, rfl, by simp, rfl⟩

theorem mem_trace_rows_dst (w : Nat) (sn : Int) (dn : Nat) (skip : Int) (cnt : Nat) (off : Int)
    (s : Store) (hs : s ∈ trace_rows w sn dn skip cnt off 0) :
    s.dst < cnt * (1 + w * dn) := by
  have h := (trace_rows_spec (fun _ => 0) w sn dn skip cnt off 0).2
  have hm : s.dst ∈ (trace_rows w sn dn skip cnt off 0).map (fun s => s.dst) :=
    List.mem_map.2 ⟨s, hs, rfl⟩
  rw [h] at hm
  obtain ⟨k, hk, hkd⟩ := List.mem_map.1 hm
  have := List.mem_range.1 hk
  omega

/-- C14: for a state with `w ≥ 0` and `1 ≤ dn ≤ sn` (`sn = n`,
`dn = n - alpha + savealpha`), a band height `b ≥ 1` with
`(w*dn + 1)*b < 2^31` and `stride ≥ w*sn`, and any band index `i ≥ 0`, with `bh`
the height the call uses: the stores of the filtering pass are the staged
bytes, made at the indices `0, 1, 2, ...` of `udata` in order; every index
written is below `(w*dn + 1)*bh0`, the capacity fixed by the call for band 0
(`bh0` its height), which every band call leaves in `usize`; every offset read
from the source pointer, the left neighbour at `-sn` included, lies in
`[0, stride*(bh-1) + w*sn)`; and the number of bytes handed to the compressor
is `(w*dn + 1)*bh` (for `bh ≥ 0`). -/
theorem filter_bounds {σ : Type} (poc : fz_png_output_context σ) (stride b : Int)
    (hw : 0 ≤ poc.w)
    (hdn : 1 ≤ poc.n - poc.alpha + poc.savealpha ∧ poc.n - poc.alpha + poc.savealpha ≤ poc.n)
    (hb : 1 ≤ b)
    (hsz : (poc.w * (poc.n - poc.alpha + poc.savealpha) + 1) * b < 2147483648)
    (hstride : poc.w * poc.n ≤ stride) (i : Nat) :
    (∀ sp : Int → Nat,
        (png_filter_trace poc.w poc.n (poc.n - poc.alpha + poc.savealpha) stride
            (band_rows poc.h i b)).map (store_value sp)
          = png_filter poc.w poc.n (poc.n - poc.alpha + poc.savealpha) stride
              (band_rows poc.h i b) sp)
    ∧ (png_filter_trace poc.w poc.n (poc.n - poc.alpha + poc.savealpha) stride
            (band_rows poc.h i b)).map (fun s => s.dst)
        = List.range (png_filter_trace poc.w poc.n (poc.n - poc.alpha + poc.savealpha) stride
            (band_rows poc.h i b)).length
    ∧ (∀ s ∈ png_filter_trace poc.w poc.n (poc.n - poc.alpha + poc.savealpha) stride
            (band_rows poc.h i b),
        s.dst < (((poc.w * (poc.n - poc.alpha + poc.savealpha) + 1)
                    * band_rows poc.h 0 b) % 18446744073709551616).toNat)
    ∧ (poc.udata = none →
        band_usize poc 0 b = (((poc.w * (poc.n - poc.alpha + poc.savealpha) + 1)
                    * band_rows poc.h 0 b) % 18446744073709551616).toNat)
    ∧ (∀ (Z : Zlib σ) (fuel : Nat) (o : Sink) (p : fz_png_output_context σ) (band : Int)
          (sp : Int → Nat) (r : BandRet σ),
        fz_write_png_band Z fuel (some o) (some p) stride band b (some sp) = some r →
        ∃ q, r.poc = some q ∧ q.udata ≠ none ∧ q.usize = band_usize p band b
          ∧ band_usize q (band + 1) b = q.usize)
    ∧ (∀ s ∈ png_filter_trace poc.w poc.n (poc.n - poc.alpha + poc.savealpha) stride
            (band_rows poc.h i b),
        ∀ a ∈ s.src, 0 ≤ a ∧ a < stride * (band_rows poc.h i b - 1) + poc.w * poc.n)
    ∧ (0 ≤ band_rows poc.h i b → ∀ sp : Int → Nat,
        ((band_input poc stride i b sp).length : Int)
          = (poc.w * (poc.n - poc.alpha + poc.savealpha) + 1) * band_rows poc.h i b) := by
  have hW : ((poc.w.toNat : Nat) : Int) = poc.w := Int.toNat_of_nonneg hw
  have hD : (((poc.n - poc.alpha + poc.savealpha).toNat : Nat) : Int)
      = poc.n - poc.alpha + poc.savealpha := Int.toNat_of_nonneg (by omega)
  have hP : 1 ≤ poc.w * (poc.n - poc.alpha + poc.savealpha) + 1 := by
    have := Int.mul_nonneg hw (show (0 : Int) ≤ poc.n - poc.alpha + poc.savealpha by omega)
    omega
  have hib : 0 ≤ (i : Int) * b := Int.mul_nonneg (Int.ofNat_nonneg i) (by omega)
  have hbh : band_rows poc.h i b = min b (poc.h - i * b) := band_rows_eq_min _ _ _
  have hbh0 : band_rows poc.h 0 b = min b poc.h := by
    rw [band_rows_eq_min]; simp
  have hbh_le : band_rows poc.h i b ≤ b := by rw [hbh]; exact min_le_left _ _
  -- the length of the trace and of the staged bytes
  have hlen : (png_filter_trace poc.w poc.n (poc.n - poc.alpha + poc.savealpha) stride
      (band_rows poc.h i b)).length
      = (band_rows poc.h i b).toNat
          * (1 + poc.w.toNat * (poc.n - poc.alpha + poc.savealpha).toNat) := by
    have := congrArg List.length
      (trace_rows_spec (fun _ => 0) poc.w.toNat poc.n
        (poc.n - poc.alpha + poc.savealpha).toNat (stride - poc.w * poc.n)
        (band_rows poc.h i b).toNat 0 0).2
    simpa [png_filter_trace] using this
  have hcast : (((band_rows poc.h i b).toNat
      * (1 + poc.w.toNat * (poc.n - poc.alpha + poc.savealpha).toNat) : Nat) : Int)
      = ((band_rows poc.h i b).toNat : Int)
          * (poc.w * (poc.n - poc.alpha + poc.savealpha) + 1) := by
    push_cast
    rw [hW, hD]
    ring
  refine ⟨?_, ?_, ?_, ?_, ?_, ?_, ?_⟩
  · intro sp
    exact (trace_rows_spec sp _ _ _ _ _ 0 0).1
  · rw [hlen]
    have := (trace_rows_spec (fun _ => 0) poc.w.toNat poc.n
      (poc.n - poc.alpha + poc.savealpha).toNat (stride - poc.w * poc.n)
      (band_rows poc.h i b).toNat 0 0).2
    unfold png_filter_trace
    rw [this]
    simp
  · intro s hs
    have hd := mem_trace_rows_dst _ _ _ _ _ _ s hs
    have hpos : 1 ≤ band_rows poc.h i b := by
      by_contra hcon
      have h0 : (band_rows poc.h i b).toNat = 0 := by omega
      rw [h0] at hd
      omega
    have hrows : ((band_rows poc.h i b).toNat : Int) = band_rows poc.h i b :=
      Int.toNat_of_nonneg (by omega)
    have hle0 : band_rows poc.h i b ≤ band_rows poc.h 0 b := by
      rw [hbh0]; rw [hbh] at hpos ⊢
      omega
    have h0b : band_rows poc.h 0 b ≤ b := by rw [hbh0]; exact min_le_left _ _
    have hcap1 : (poc.w * (poc.n - poc.alpha + poc.savealpha) + 1) * band_rows poc.h 0 b
        ≤ (poc.w * (poc.n - poc.alpha + poc.savealpha) + 1) * b :=
      Int.mul_le_mul_of_nonneg_left h0b (by omega)
    have hcap0 : 0 ≤ (poc.w * (poc.n - poc.alpha + poc.savealpha) + 1) * band_rows poc.h 0 b :=
      Int.mul_nonneg (by omega) (by omega)
    have hcap2 : band_rows poc.h i b * (poc.w * (poc.n - poc.alpha + poc.savealpha) + 1)
        ≤ (poc.w * (poc.n - poc.alpha + poc.savealpha) + 1) * band_rows poc.h 0 b := by
      rw [Int.mul_comm]
      exact Int.mul_le_mul_of_nonneg_left hle0 (by omega)
    have hdi : (s.dst : Int) < ((band_rows poc.h i b).toNat
        * (1 + poc.w.toNat * (poc.n - poc.alpha + poc.savealpha).toNat) : Nat) := by
      exact_mod_cast hd
    rw [hcast, hrows] at hdi
    have hmod : ((poc.w * (poc.n - poc.alpha + poc.savealpha) + 1) * band_rows poc.h 0 b)
        % 18446744073709551616
        = (poc.w * (poc.n - poc.alpha + poc.savealpha) + 1) * band_rows poc.h 0 b :=
      Int.emod_eq_of_lt hcap0 (by omega)
    rw [hmod]
    omega
  · intro hu
    unfold band_usize
    rw [hu]
  · intro Z fuel o p band sp r hr
    obtain ⟨q, hq, hqu, hqs⟩ := band_sets_usize Z fuel o p stride band b sp r hr
    refine ⟨q, hq, hqu, hqs, ?_⟩
    unfold band_usize
    cases hu : q.udata with
    | none => exact absurd hu hqu
    | some u => rfl
  · intro s hs a ha
    have hd := mem_trace_rows_dst _ _ _ _ _ _ s hs
    have hpos : 1 ≤ band_rows poc.h i b := by
      by_contra hcon
      have h0 : (band_rows poc.h i b).toNat = 0 := by omega
      rw [h0] at hd
      omega
    have hrows : ((band_rows poc.h i b).toNat : Int) = band_rows poc.h i b :=
      Int.toNat_of_nonneg (by omega)
    have hr := trace_rows_reads poc.w.toNat poc.n
      (poc.n - poc.alpha + poc.savealpha).toNat (stride - poc.w * poc.n)
      (by rw [hD]; exact hdn.2) (by omega) (band_rows poc.h i b).toNat 0 0 s hs a ha
    rw [hW, hrows] at hr
    have e : poc.w * poc.n + (stride - poc.w * poc.n) = stride := by ring
    rw [e] at hr
    constructor
    · exact hr.1
    · have e2 : stride * (band_rows poc.h i b - 1) = band_rows poc.h i b * stride - stride := by
        ring
      rw [e2]
      omega
  · intro hnn sp
    have hrows : ((band_rows poc.h i b).toNat : Int) = band_rows poc.h i b :=
      Int.toNat_of_nonneg hnn
    have hl := png_filter_length poc.w poc.n (poc.n - poc.alpha + poc.savealpha) stride
      (band_rows poc.h i b) sp
    have hle : band_rows poc.h i b * (poc.w * (poc.n - poc.alpha + poc.savealpha) + 1)
        ≤ (poc.w * (poc.n - poc.alpha + poc.savealpha) + 1) * b := by
      rw [Int.mul_comm]
      exact Int.mul_le_mul_of_nonneg_left hbh_le (by omega)
    have hsmall : (band_rows poc.h i b).toNat
        * (1 + poc.w.toNat * (poc.n - poc.alpha + poc.savealpha).toNat) < 4294967296 := by
      have : (((band_rows poc.h i b).toNat
          * (1 + poc.w.toNat * (poc.n - poc.alpha + poc.savealpha).toNat) : Nat) : Int)
          < 4294967296 := by
        rw [hcast, hrows]; omega
      exact_mod_cast this
    unfold band_input
    rw [hl, Nat.mod_eq_of_lt hsmall, ← hl, List.take_length, hl, hcast, hrows]
    ring

/-- Witness for C14: band 1 (one row) of a fresh 3 by 3 grey + alpha state
written with its alpha in bands of two rows: seven stores, below the capacity
14 fixed by band 0, reading offsets 0 to 5 of a row of 6 bytes. -/
theorem filter_bounds_witness :
    (∀ s ∈ png_filter_trace toy_fresh.w toy_fresh.n
          (toy_fresh.n - toy_fresh.alpha + toy_fresh.savealpha) 7
          (band_rows toy_fresh.h ((1 : Nat) : Int) 2),
        s.dst < (((toy_fresh.w * (toy_fresh.n - toy_fresh.alpha + toy_fresh.savealpha) + 1)
                    * band_rows toy_fresh.h 0 2) % 18446744073709551616).toNat)
    ∧ (∀ s ∈ png_filter_trace toy_fresh.w toy_fresh.n
          (toy_fresh.n - toy_fresh.alpha + toy_fresh.savealpha) 7
          (band_rows toy_fresh.h ((1 : Nat) : Int) 2),
        ∀ a ∈ s.src, 0 ≤ a
          ∧ a < 7 * (band_rows toy_fresh.h ((1 : Nat) : Int) 2 - 1) + toy_fresh.w * toy_fresh.n)
    ∧ png_filter_trace 3 2 2 7 1
        = [⟨0, []⟩, ⟨1, [0]⟩, ⟨2, [1]⟩, ⟨3, [2, 0]⟩, ⟨4, [3, 1]⟩, ⟨5, [4, 2]⟩, ⟨6, [5, 3]⟩] :=
  have h := filter_bounds toy_fresh 7 2 (by decide) (by decide) (by decide) (by decide)
    (by decide) 1
  ⟨h.2.2.1, h.2.2.2.2.2.1, by decide⟩

end Png
